import Mathlib

/-!
# frab2hackertracker: the transformation pipeline of `main.go`

A shallow embedding of the four collection builders of `main.go`
(`makeEventTypes`, `makeLocations`, `makeSpeakers`, `makeEvents`) together with
the parts of Go's standard library they call (`strings.Split`, `strings.Replace`,
`strings.Title`, `time.Parse`, `time.ParseDuration`, `Time.Add`, `Time.Format`).

Conventions.
* Go's `int` is the 64-bit two's-complement integer; a value is an `Int` in
  `[-2^63, 2^63)` and every addition is wrapped by `wrapInt`.
* A Go `map[string]int` is an association list with distinct keys; a lookup of an
  absent key gives the zero value.
* `for k := range m` over a Go map visits every key once, in an order the
  language leaves open.  Each builder therefore takes the order in which the rooms
  of every day are visited as an argument (`ord`), and the theorems hold for every
  such order.
* `log.Fatal` ends the run; a builder that can reach it returns `Except`.
-/

namespace Frab2HackerTracker

/-! ## Go integers and maps -/

/-- Two's-complement wrap-around of a 64-bit Go `int`. -/
def wrapInt (x : Int) : Int := (x + 2 ^ 63) % 2 ^ 64 - 2 ^ 63

/-- Go's `a + b` on `int`. -/
def goAdd (a b : Int) : Int := wrapInt (a + b)

/-- A Go `map[string]int`. -/
abbrev IdMap := List (String × Int)

/-- The map read `m[k]`: the stored value, or `0` when `k` is absent. -/
def mapGet : IdMap → String → Int
  | [], _ => 0
  | (k', v) :: rest, k => if k' = k then v else mapGet rest k

/-- The map write `m[k] = v`. -/
def mapSet : IdMap → String → Int → IdMap
  | [], k, v => [(k, v)]
  | (k', v') :: rest, k, v =>
    if k' = k then (k', v) :: rest else (k', v') :: mapSet rest k v

/-! ## The source model (frab) and the output model (HackerTracker) -/

/-- Modelled from the spec: the type of a link of a frab event or speaker is
declared outside `main.go`; `main.go` reads its `URL`. -/
structure FrabLink where
  URL : String
  deriving DecidableEq, Repr

/-- Modelled from the spec: the type of a person of a frab event is declared
outside `main.go`; `main.go` reads its `ID`. -/
structure FrabPerson where
  ID : Int
  deriving DecidableEq, Repr

/-- Modelled from the spec: the type `FrabEvent` is declared outside `main.go`;
the fields are those `main.go` reads (`Typ` is Go's field `Type`). -/
structure FrabEvent where
  ID : Int
  Date : String
  Duration : String
  Abstract : String
  Room : String
  Typ : String
  Title : String
  Links : List FrabLink
  Persons : List FrabPerson
  deriving DecidableEq, Repr

/-- Modelled from the spec: a day of the frab schedule, declared outside
`main.go`.  `Rooms` is a Go map from room name to the events held there. -/
structure FrabDay where
  Rooms : List (String × List FrabEvent)
  deriving DecidableEq, Repr

/-- Modelled from the spec: the conference of a frab schedule, declared outside
`main.go`. -/
structure FrabConference where
  Acronym : String
  Days : List FrabDay
  deriving DecidableEq, Repr

/-- Modelled from the spec: the `schedule` object of a frab document. -/
structure FrabScheduleBody where
  Conference : FrabConference
  deriving DecidableEq, Repr

/-- Modelled from the spec: the type `FrabSchedule`, declared outside `main.go`. -/
structure FrabSchedule where
  Schedule : FrabScheduleBody
  deriving DecidableEq, Repr

/-- Modelled from the spec: a speaker of the frab speakers document. -/
structure FrabSpeaker where
  ID : Int
  PublicName : String
  Abstract : String
  Links : List FrabLink
  deriving DecidableEq, Repr

/-- Modelled from the spec: the `schedule_speakers` object of the speakers
document. -/
structure FrabSpeakersBody where
  Speakers : List FrabSpeaker
  deriving DecidableEq, Repr

/-- Modelled from the spec: the type `FrabScheduleSpeakers`, declared outside
`main.go`. -/
structure FrabScheduleSpeakers where
  ScheduleSpeakers : FrabSpeakersBody
  deriving DecidableEq, Repr

/-- Modelled from the spec: the type `HackerTrackerEvent`, declared outside
`main.go`; the fields are those `makeEvents` writes.  Unwritten fields hold Go's
zero value. -/
structure HackerTrackerEvent where
  StartDate : String
  ID : Int
  Description : String
  Location : Int
  EndDate : String
  Conference : String
  EventType : Int
  Title : String
  UpdatedAt : String
  Link : String
  Speakers : List Int
  deriving DecidableEq, Repr

/-- Modelled from the spec: the type `HackerTrackerSpeaker`, declared outside
`main.go`. -/
structure HackerTrackerSpeaker where
  Name : String
  UpdatedAt : String
  Description : String
  ID : Int
  Conference : String
  Link : String
  deriving DecidableEq, Repr

/-- Modelled from the spec: the type `HackerTrackerLocation`, declared outside
`main.go`. -/
structure HackerTrackerLocation where
  Name : String
  ID : Int
  UpdatedAt : String
  Conference : String
  deriving DecidableEq, Repr

/-- Modelled from the spec: the type `HackerTrackerEventType`, declared outside
`main.go`. -/
structure HackerTrackerEventType where
  Name : String
  Conference : String
  ID : Int
  UpdatedAt : String
  deriving DecidableEq, Repr

/-- The package-level variables `baseID` (the flag `-id`) and `updatedAt`. -/
structure Globals where
  baseID : Int
  updatedAt : String
  deriving DecidableEq, Repr

/-! ## Iteration over the days and rooms -/

/-- The map read `day.Rooms[room]`: the events of the room, none when the room
is absent. -/
def roomEvents : List (String × List FrabEvent) → String → List FrabEvent
  | [], _ => []
  | (k, evs) :: rest, room => if k = room then evs else roomEvents rest room

/-- The keys of `day.Rooms`. -/
def roomNames (day : FrabDay) : List String := day.Rooms.map Prod.fst

/-- The order `ord` is a possible run of the loops
`for _, day := range Days { for room := range day.Rooms {...} }`: one list of room
names per day, holding every key of that day's map exactly once. -/
def ValidOrder : List FrabDay → List (List String) → Prop
  | [], [] => True
  | day :: days, o :: ord => o.Perm (roomNames day) ∧ ValidOrder days ord
  | _, _ => False

/-- The days' room maps are maps: no key occurs twice. -/
def WellFormed (days : List FrabDay) : Prop :=
  ∀ day ∈ days, (roomNames day).Nodup

/-- The rooms in the order the two outer loops visit them, each with its day. -/
def visitedRooms : List FrabDay → List (List String) → List (FrabDay × String)
  | day :: days, o :: ord => o.map (fun room => (day, room)) ++ visitedRooms days ord
  | _, _ => []

/-- The events in the order the three nested loops visit them. -/
def visitedEvents (days : List FrabDay) (ord : List (List String)) : List FrabEvent :=
  (visitedRooms days ord).flatMap (fun p => roomEvents p.1.Rooms p.2)

/-! ## The identifier registries -/

/-- The state of a registry scan: the map and the counter
(`locationMap`, `roomCount` or `eventMap`, `eventCount`). -/
structure Registry where
  ids : IdMap
  count : Int
  deriving DecidableEq, Repr

/-- The body of both scan loops:
`if m[name] == 0 { count++; m[name] = count }`. -/
def register (r : Registry) (name : String) : Registry :=
  if mapGet r.ids name = 0 then
    { ids := mapSet r.ids name (goAdd r.count 1), count := goAdd r.count 1 }
  else r

/-- A whole scan: the counter starts at the base id, the map is empty. -/
def scan (base : Int) (names : List String) : Registry :=
  names.foldl register { ids := [], count := base }

/-- The names the scan of `makeLocations` registers, in visiting order: the room
keys of every day.  The loop never reads the events of a room (the comment
`// iterate over all events` above it in `main.go` notwithstanding), so a room
without events is registered too. -/
def locationNames (days : List FrabDay) (ord : List (List String)) : List String :=
  (visitedRooms days ord).map Prod.snd

/-- The names the scan of `makeEventTypes` registers, in visiting order. -/
def eventTypeNames (days : List FrabDay) (ord : List (List String)) : List String :=
  (visitedEvents days ord).map FrabEvent.Typ

/-- The function `makeLocations` up to the call of `HackerTrackerMarshal`: the
location map and the location records (one per map entry; Go leaves the order of
the records open, here it is the order of registration). -/
def makeLocations (g : Globals) (frab : FrabSchedule) (ord : List (List String)) :
    IdMap × List HackerTrackerLocation :=
  let locationMap := (scan g.baseID (locationNames frab.Schedule.Conference.Days ord)).ids
  (locationMap, locationMap.map (fun p =>
    { Name := p.1, ID := p.2, UpdatedAt := g.updatedAt,
      Conference := frab.Schedule.Conference.Acronym }))

/-! ## `strings.Replace` and `strings.Title` -/

/-- The tables of Go's `unicode` package outside ASCII, which `strings.Title`
consults: `unicode.IsLetter`, `unicode.IsDigit`, `unicode.IsSpace` and
`unicode.ToTitle`. -/
structure UnicodeTables where
  isLetter : Char → Bool
  isDigit : Char → Bool
  isSpace : Char → Bool
  toTitle : Char → Char

/-- The number of occurrences of the character `old`: `strings.Count`. -/
def countChar (old : Char) (s : List Char) : Nat := s.count old

/-- Replace the first `k` occurrences of the character `old` by `new`. -/
def replaceFirst (old : Char) (new : List Char) : Nat → List Char → List Char
  | 0, s => s
  | _, [] => []
  | k + 1, c :: cs =>
    if c = old then new ++ replaceFirst old new k cs
    else c :: replaceFirst old new (k + 1) cs

/-- Go's `strings.Replace(s, old, new, n)` for a one-character `old`:
`n = 0` (or `old == new`) gives `s` back, `n < 0` replaces every occurrence,
otherwise the first `n` occurrences are replaced. -/
def Replace (s : String) (old : Char) (new : String) (n : Int) : String :=
  if new.data = [old] ∨ n = 0 then s
  else
    let m := countChar old s.data
    if m = 0 then s
    else
      let k := if n < 0 ∨ (m : Int) < n then m else n.toNat
      ⟨replaceFirst old new.data k s.data⟩

/-- Go's `isSeparator` of package `strings`: ASCII letters, digits and the
underscore are no separators, every other ASCII character is; outside ASCII
letters and digits are none, and spaces are. -/
def isSeparator (u : UnicodeTables) (r : Char) : Bool :=
  if r.toNat ≤ 0x7F then
    if '0'.toNat ≤ r.toNat ∧ r.toNat ≤ '9'.toNat then false
    else if 'a'.toNat ≤ r.toNat ∧ r.toNat ≤ 'z'.toNat then false
    else if 'A'.toNat ≤ r.toNat ∧ r.toNat ≤ 'Z'.toNat then false
    else if r = '_' then false
    else true
  else if u.isLetter r || u.isDigit r then false
  else u.isSpace r

/-- Go's `unicode.ToTitle`: ASCII lower-case letters are shifted to upper case,
other ASCII characters stay, the rest goes through the table. -/
def toTitle (u : UnicodeTables) (r : Char) : Char :=
  if r.toNat ≤ 0x7F then
    if 'a'.toNat ≤ r.toNat ∧ r.toNat ≤ 'z'.toNat then Char.ofNat (r.toNat - 32) else r
  else u.toTitle r

/-- The mapping closure of `strings.Title`, with its variable `prev`. -/
def titleFrom (u : UnicodeTables) : Char → List Char → List Char
  | _, [] => []
  | prev, r :: rs => (if isSeparator u prev then toTitle u r else r) :: titleFrom u r rs

/-- Go's `strings.Title`: the letters that begin words are mapped to title case;
`prev` starts as a space. -/
def Title (u : UnicodeTables) (s : String) : String := ⟨titleFrom u ' ' s.data⟩

/-- The function `makeEventTypes` up to the call of `HackerTrackerMarshal`: the
event-type map and the event-type records (one per map entry, here in the order
of registration). -/
def makeEventTypes (u : UnicodeTables) (g : Globals) (frab : FrabSchedule)
    (ord : List (List String)) : IdMap × List HackerTrackerEventType :=
  let eventMap := (scan g.baseID (eventTypeNames frab.Schedule.Conference.Days ord)).ids
  (eventMap, eventMap.map (fun p =>
    { Name := Title u (Replace p.1 '_' " " 0),
      Conference := frab.Schedule.Conference.Acronym,
      ID := p.2, UpdatedAt := g.updatedAt }))

/-- The function `makeSpeakers` up to the call of `HackerTrackerMarshal`. -/
def makeSpeakers (g : Globals) (frab : FrabSchedule) (frabSpeakers : FrabScheduleSpeakers) :
    List HackerTrackerSpeaker :=
  frabSpeakers.ScheduleSpeakers.Speakers.map (fun frabSpeaker =>
    { Name := frabSpeaker.PublicName,
      UpdatedAt := g.updatedAt,
      Description := frabSpeaker.Abstract,
      ID := goAdd g.baseID frabSpeaker.ID,
      Conference := frab.Schedule.Conference.Acronym,
      Link := match frabSpeaker.Links with
        | [] => ""
        | l :: _ => l.URL })

/-! ## `strings.Split` and `fmt.Sprintf` -/

/-- Go's `strings.Split(s, sep)` for a one-character separator: the pieces of `s`
between the separators, one more than there are separators. -/
def splitOn (sep : Char) : List Char → List (List Char)
  | [] => [[]]
  | c :: cs =>
    if c = sep then [] :: splitOn sep cs
    else match splitOn sep cs with
      | [] => [[c]]
      | p :: ps => (c :: p) :: ps

/-! ## `time.ParseDuration` -/

/-- The digit test `'0' <= c && c <= '9'`. -/
def isDigit (c : Char) : Bool := '0'.toNat ≤ c.toNat && c.toNat ≤ '9'.toNat

/-- The value `c - '0'` of a digit. -/
def digitVal (c : Char) : Nat := c.toNat - '0'.toNat

/-- Go's `unitMap`: the nanoseconds of a unit name. -/
def unitMap (u : List Char) : Option Nat :=
  if u = ['n', 's'] then some 1
  else if u = ['u', 's'] then some 1000
  else if u = ['µ', 's'] then some 1000
  else if u = ['μ', 's'] then some 1000
  else if u = ['m', 's'] then some 1000000
  else if u = ['s'] then some 1000000000
  else if u = ['m'] then some 60000000000
  else if u = ['h'] then some 3600000000000
  else none

/-- The Go runtime around the builders: the offset east of UTC, in seconds, that
the process's local time zone (`time.Local`) has at a Unix time, and the value
`uint64(float64(f) * (float64(unit) / scale))` that `time.ParseDuration` adds for
a fraction with digits `f`, of which `k` were kept (`scale` is the float64 product
of `k` tens), and a unit of `unit` nanoseconds (a float64 computation, left to the
runtime; `fractionNanos` below is that computation). -/
structure Runtime where
  localOffset : Int → Int
  fracNanos : Nat → Nat → Nat → Nat

/-- The number of binary digits of `n` (`fuel` bounds the recursion). -/
def bitLength : Nat → Nat → Nat
  | 0, _ => 0
  | fuel + 1, n => if n = 0 then 0 else bitLength fuel (n / 2) + 1

/-- The binary exponent at which the fraction `p / q` is rounded to a float64:
the significand `p / q * 2 ^ s` has 53 bits, and `s` stops at 1074 (the
subnormals). -/
def roundShift (p q : Nat) : Int :=
  let s0 : Int := 52 - ((bitLength p p : Int) - (bitLength q q : Int))
  min (if p * 2 ^ s0.toNat / (q * 2 ^ (-s0).toNat) < 2 ^ 52 then s0 + 1 else s0) 1074

/-- The integer nearest to `p / q * 2 ^ s`, ties to even. -/
def roundAt (p q : Nat) (s : Int) : Nat :=
  let num := p * 2 ^ s.toNat
  let den := q * 2 ^ (-s).toNat
  if 2 * (num % den) > den ∨ (2 * (num % den) = den ∧ num / den % 2 = 1) then num / den + 1
  else num / den

/-- The float64 nearest to the fraction `p / q` (`q > 0`), ties to even, as Go's
float64 arithmetic rounds every result.  A finite float64 that is not negative is
a pair `(n, e)` of value `n / 2 ^ e`; `none` is `+Inf`, the result of `2 ^ 1024`
or more. -/
def roundFloat64 (p q : Nat) : Option (Nat × Nat) :=
  if p = 0 then some (0, 0)
  else
    let s := roundShift p q
    let n := roundAt p q s * 2 ^ (-s).toNat
    if bitLength n n > 1024 then none else some (n, s.toNat)

/-- The float64 `scale` of `leadingFraction` after `k` digits were kept: it
starts at 1 and every kept digit runs `scale *= 10`. -/
def scaleFloat64 : Nat → Option (Nat × Nat)
  | 0 => some (1, 0)
  | k + 1 =>
    match scaleFloat64 k with
    | none => none
    | some x => roundFloat64 (x.1 * 10) (2 ^ x.2)

/-- Go's `uint64(float64(f) * (float64(unit) / scale))` for the fraction digits
`f` (a `uint64`), of which `k` were kept, and a unit of `unit` nanoseconds:
two conversions, a division and a product of float64, then the truncation to an
integer.  A scale of `+Inf` makes the quotient, and so the product, zero. -/
def fractionNanos (f k unit : Nat) : Nat :=
  match roundFloat64 f 1, roundFloat64 unit 1, scaleFloat64 k with
  | some a, some u, some s =>
    match roundFloat64 (u.1 * 2 ^ s.2) (s.1 * 2 ^ u.2) with
    | none => 0
    | some q =>
      match roundFloat64 (a.1 * q.1) (2 ^ (a.2 + q.2)) with
      | none => 0
      | some r => r.1 / 2 ^ r.2
  | _, _, _ => 0

/-- Where `time.ParseDuration` stands inside one `number unit` group. -/
inductive DurPhase where
  /-- In `leadingInt`: the digits before the period, value `v` so far. -/
  | int (v : Nat)
  /-- In `leadingFraction`: `pre`, whether digits stood before the period;
  `f` and `k`, the digits kept and their number; `over`, the overflow flag;
  `post`, whether a digit followed the period. -/
  | frac (v : Nat) (pre : Bool) (f k : Nat) (over post : Bool)
  /-- In the unit: the characters of the unit so far. -/
  | unit (v f k : Nat) (u : List Char)
  deriving DecidableEq, Repr

/-- The statement `d += v` of `time.ParseDuration` with its check: the sum of
two `uint64` wraps at `2^64`, and a total above `2^63` is an error. -/
def addTotal (d v : Nat) : Option Nat :=
  if (d + v) % 2 ^ 64 > 2 ^ 63 then none else some ((d + v) % 2 ^ 64)

/-- The end of a `number unit` group: look the unit up, scale the number, add
the fraction if there is one, add to the total `d`; a value above `2^63` is an
error. -/
def closeGroup (rt : Runtime) (d v f k : Nat) (u : List Char) : Option Nat :=
  match unitMap u with
  | none => none
  | some unit =>
    if v > 2 ^ 63 / unit then none
    else if f > 0 then
      if (v * unit + rt.fracNanos f k unit) % 2 ^ 64 > 2 ^ 63 then none
      else addTotal d ((v * unit + rt.fracNanos f k unit) % 2 ^ 64)
    else addTotal d (v * unit)

/-- The first character of a group: it must be a digit or a period. -/
def openGroup (c : Char) : Option DurPhase :=
  if isDigit c then some (.int (digitVal c))
  else if c = '.' then some (.frac 0 false 0 0 false false)
  else none

/-- The loop of `time.ParseDuration`, one character at a time: `d` is the total
of the groups read so far. -/
def durLoop (rt : Runtime) : Nat → DurPhase → List Char → Option Nat
  | _, .int _, [] => none
  | _, .frac _ _ _ _ _ _, [] => none
  | d, .unit v f k u, [] => closeGroup rt d v f k u
  | d, .int v, c :: cs =>
    if isDigit c then
      if v > 2 ^ 63 / 10 then none
      else if v * 10 + digitVal c > 2 ^ 63 then none
      else durLoop rt d (.int (v * 10 + digitVal c)) cs
    else if c = '.' then durLoop rt d (.frac v true 0 0 false false) cs
    else durLoop rt d (.unit v 0 0 [c]) cs
  | d, .frac v pre f k over post, c :: cs =>
    if isDigit c then
      if over then durLoop rt d (.frac v pre f k true true) cs
      else if f > (2 ^ 63 - 1) / 10 then durLoop rt d (.frac v pre f k true true) cs
      else if f * 10 + digitVal c > 2 ^ 63 then durLoop rt d (.frac v pre f k true true) cs
      else durLoop rt d (.frac v pre (f * 10 + digitVal c) (k + 1) false true) cs
    else if !pre && !post then none
    else if c = '.' then none
    else durLoop rt d (.unit v f k [c]) cs
  | d, .unit v f k u, c :: cs =>
    if isDigit c || c = '.' then
      match closeGroup rt d v f k u with
      | none => none
      | some d1 =>
        match openGroup c with
        | none => none
        | some ph => durLoop rt d1 ph cs
    else durLoop rt d (.unit v f k (u ++ [c])) cs

/-- The text without its leading sign:
`if c == '-' || c == '+' { s = s[1:] }`. -/
def stripSign : List Char → List Char
  | [] => []
  | c :: r => if c = '-' ∨ c = '+' then r else c :: r

/-- Go's `time.ParseDuration`: an optional sign, then `number unit` groups; the
result is in nanoseconds, `none` stands for the error. -/
def ParseDuration (rt : Runtime) (s : List Char) : Option Int :=
  let neg : Bool := s.head? = some '-'
  let body := stripSign s
  if body = ['0'] then some 0
  else
    match body with
    | [] => none
    | c :: cs =>
      match openGroup c with
      | none => none
      | some ph =>
        match durLoop rt 0 ph cs with
        | none => none
        | some d =>
          if neg then some (-(d : Int))
          else if d > 2 ^ 63 - 1 then none
          else some (d : Int)

/-! ## The calendar of package `time` -/

/-- The leap years of the proleptic Gregorian calendar. -/
def isLeap (y : Int) : Bool := y % 4 = 0 && (y % 100 ≠ 0 || y % 400 = 0)

/-- The days of a month: Go's `daysIn`. -/
def daysIn (m : Nat) (y : Int) : Nat :=
  if m = 2 then (if isLeap y then 29 else 28)
  else if m = 4 ∨ m = 6 ∨ m = 9 ∨ m = 11 then 30
  else 31

/-- The days of a common year that precede the first of month `m`. -/
def daysBefore (m : Nat) : Nat :=
  match m with
  | 1 => 0
  | 2 => 31
  | 3 => 59
  | 4 => 90
  | 5 => 120
  | 6 => 151
  | 7 => 181
  | 8 => 212
  | 9 => 243
  | 10 => 273
  | 11 => 304
  | 12 => 334
  | _ => 365

/-- The number of the day in its year, from 0. -/
def yearDay (y : Int) (m d : Nat) : Nat :=
  daysBefore m + (if isLeap y ∧ 2 < m then 1 else 0) + (d - 1)

/-- The days from 1970-01-01 to the date `y`-`m`-`d`. -/
def daysFromCivil (y : Int) (m d : Nat) : Int :=
  365 * (y - 1) + (y - 1) / 4 - (y - 1) / 100 + (y - 1) / 400 + yearDay y m d - 719162

/-- The month and the day of the month of the day numbered `n` (from 0) of a
year. -/
def monthDay (leap : Bool) (n : Nat) : Nat × Nat :=
  let l := if leap then 1 else 0
  if n < 31 then (1, n + 1)
  else if n < 59 + l then (2, n - 31 + 1)
  else if n < 90 + l then (3, n - (59 + l) + 1)
  else if n < 120 + l then (4, n - (90 + l) + 1)
  else if n < 151 + l then (5, n - (120 + l) + 1)
  else if n < 181 + l then (6, n - (151 + l) + 1)
  else if n < 212 + l then (7, n - (181 + l) + 1)
  else if n < 243 + l then (8, n - (212 + l) + 1)
  else if n < 273 + l then (9, n - (243 + l) + 1)
  else if n < 304 + l then (10, n - (273 + l) + 1)
  else if n < 334 + l then (11, n - (304 + l) + 1)
  else (12, n - (334 + l) + 1)

/-- The date of the day `z` days after 1970-01-01: cut off the cycles of 400,
100, 4 and 1 years, then find the month. -/
def civilFromDays (z : Int) : Int × Nat × Nat :=
  let a := z + 719162
  let n400 := a / 146097
  let r := a % 146097
  let n100 := min (r / 36524) 3
  let r1 := r - 36524 * n100
  let n4 := r1 / 1461
  let r2 := r1 % 1461
  let n1 := min (r2 / 365) 3
  let yday := r2 - 365 * n1
  let y := 400 * n400 + 100 * n100 + 4 * n4 + n1 + 1
  let md := monthDay (isLeap y) yday.toNat
  (y, md.1, md.2)

/-! ## `time.Parse` and `Time.Format` for the layout `2006-01-02T15:04:05-07:00` -/

/-- The location of a `time.Time`: the process's local zone, or a zone made up
for a fixed offset (seconds east of UTC). -/
inductive Location where
  | localZone
  | fixedZone (offset : Int)
  deriving DecidableEq, Repr

/-- A `time.Time`: the instant in nanoseconds since the Unix epoch, and the
location. -/
structure GoTime where
  nanos : Int
  loc : Location
  deriving DecidableEq, Repr

/-- The offset in force at Unix time `sec` in a location. -/
def zoneOffset (rt : Runtime) (loc : Location) (sec : Int) : Int :=
  match loc with
  | .localZone => rt.localOffset sec
  | .fixedZone off => off

/-- Go's `getnum`: one or two digits, exactly two when `fixed`. -/
def getnum (fixed : Bool) : List Char → Option (Nat × List Char)
  | [] => none
  | [a] => if isDigit a && !fixed then some (digitVal a, []) else none
  | a :: b :: rest =>
    if !isDigit a then none
    else if !isDigit b then (if fixed then none else some (digitVal a, b :: rest))
    else some (digitVal a * 10 + digitVal b, rest)

/-- The year of the layout element `2006`: exactly four digits. -/
def getYear : List Char → Option (Nat × List Char)
  | a :: b :: c :: d :: rest =>
    if isDigit a && isDigit b && isDigit c && isDigit d then
      some (digitVal a * 1000 + digitVal b * 100 + digitVal c * 10 + digitVal d, rest)
    else none
  | _ => none

/-- A literal character of the layout. -/
def expect (c : Char) : List Char → Option (List Char)
  | [] => none
  | a :: rest => if a = c then some rest else none

/-- Go's `parseNanoseconds` after the seconds, for a text that has a fraction
although the layout has none: a period or comma and at least one digit; at most
nine digits count. -/
def getFraction : List Char → Nat × List Char
  | sepc :: a :: rest =>
    if (sepc = '.' ∨ sepc = ',') ∧ isDigit a then
      let ds := (a :: rest).takeWhile isDigit
      let kept := ds.take 9
      (kept.foldl (fun acc c => acc * 10 + digitVal c) 0 * 10 ^ (9 - kept.length),
        (a :: rest).dropWhile isDigit)
    else (0, sepc :: a :: rest)
  | s => (0, s)

/-- The zone of the layout element `-07:00`: sign, two digits, colon, two
digits; hours above 24 and minutes above 60 are out of range.  The result is
the offset in seconds. -/
def getZone : List Char → Option (Int × List Char)
  | sgn :: h1 :: h2 :: col :: m1 :: m2 :: rest =>
    if col ≠ ':' then none
    else if !(isDigit h1 && isDigit h2 && isDigit m1 && isDigit m2) then none
    else
      let hr := digitVal h1 * 10 + digitVal h2
      let mm := digitVal m1 * 10 + digitVal m2
      if hr > 24 ∨ mm > 60 then none
      else if sgn = '+' then some ((((hr * 60 + mm) * 60 : Nat) : Int), rest)
      else if sgn = '-' then some (-(((hr * 60 + mm) * 60 : Nat) : Int), rest)
      else none
  | _ => none

/-- The date of the layout, `2006-01-02`: the year, the month (1 to 12) and the
day, which is checked against the month once the whole text is read. -/
def parseDatePart (s : List Char) : Option (Nat × Nat × Nat × List Char) :=
  match getYear s with
  | none => none
  | some (year, s) =>
    match expect '-' s with
    | none => none
    | some s =>
      match getnum true s with
      | none => none
      | some (month, s) =>
        if month = 0 ∨ 12 < month then none
        else
          match expect '-' s with
          | none => none
          | some s =>
            match getnum true s with
            | none => none
            | some (day, s) => some (year, month, day, s)

/-- The clock of the layout, `15:04:05`: the hour (one or two digits, below 24),
the minute and the second (below 60), and the nanoseconds of a fraction the text
may carry after the seconds. -/
def parseClockPart (s : List Char) : Option (Nat × Nat × Nat × Nat × List Char) :=
  match getnum false s with
  | none => none
  | some (hour, s) =>
    if 24 ≤ hour then none
    else
      match expect ':' s with
      | none => none
      | some s =>
        match getnum true s with
        | none => none
        | some (min, s) =>
          if 60 ≤ min then none
          else
            match expect ':' s with
            | none => none
            | some s =>
              match getnum true s with
              | none => none
              | some (sec, s) =>
                if 60 ≤ sec then none
                else some (hour, min, sec, (getFraction s).1, (getFraction s).2)

/-- Go's `time.Parse(jsonDateFormat, s)`.  When the offset of the text is the
offset the local zone has at that instant, the time is in the local zone;
otherwise it is in a zone made up for the offset. -/
def timeParse (rt : Runtime) (s : List Char) : Option GoTime :=
  match parseDatePart s with
  | none => none
  | some (year, month, day, s) =>
    match expect 'T' s with
    | none => none
    | some s =>
      match parseClockPart s with
      | none => none
      | some (hour, min, sec, nsec, s) =>
        match getZone s with
        | none => none
        | some (off, s) =>
          if s ≠ [] then none
          else if day < 1 ∨ daysIn month year < day then none
          else
            let unix : Int :=
              daysFromCivil year month day * 86400 + hour * 3600 + min * 60 + sec - off
            some { nanos := unix * 1000000000 + nsec,
                   loc := if rt.localOffset unix = off then Location.localZone
                          else Location.fixedZone off }

/-- Go's `Time.Add`. -/
def timeAdd (t : GoTime) (d : Int) : GoTime := { t with nanos := t.nanos + d }

/-- The character of a digit `0..9`. -/
def digitChar (n : Nat) : Char := Char.ofNat ('0'.toNat + n)

/-- The last `w` decimal digits of `n`. -/
def fmtDigits : Nat → Nat → List Char
  | 0, _ => []
  | w + 1, n => fmtDigits w (n / 10) ++ [digitChar (n % 10)]

/-- The number of decimal digits of `n` (`fuel` bounds the recursion). -/
def digitCount : Nat → Nat → Nat
  | 0, _ => 1
  | fuel + 1, n => if n < 10 then 1 else digitCount fuel (n / 10) + 1

/-- Go's `appendInt(b, x, width)`: a minus sign for a negative `x`, then the
digits, padded with zeros to at least `width`. -/
def appendInt (x : Int) (width : Nat) : List Char :=
  (if x < 0 then ['-'] else []) ++
    fmtDigits (max width (digitCount x.natAbs x.natAbs)) x.natAbs

/-- Go's `a / b` on integers for a positive `b`: the quotient truncated toward
zero. -/
def quoTrunc (a b : Int) : Int := if a < 0 then -((-a) / b) else a / b

/-- Go's `Time.Format(jsonDateFormat)`: the date and clock in the zone of the
time, then the offset as sign, hours and minutes. -/
def timeFormat (rt : Runtime) (t : GoTime) : List Char :=
  let unix := t.nanos / 1000000000
  let off := zoneOffset rt t.loc unix
  let wall := unix + off
  let date := civilFromDays (wall / 86400)
  let tod := wall % 86400
  let zone := quoTrunc off 60
  appendInt date.1 4 ++ ['-'] ++ appendInt date.2.1 2 ++ ['-'] ++ appendInt date.2.2 2 ++ ['T'] ++
    appendInt (tod / 3600) 2 ++ [':'] ++ appendInt (tod % 3600 / 60) 2 ++ [':'] ++
    appendInt (tod % 60) 2 ++
    [if zone < 0 then '-' else '+'] ++
    appendInt ((zone.natAbs / 60 : Nat) : Int) 2 ++ [':'] ++
    appendInt ((zone.natAbs % 60 : Nat) : Int) 2

/-! ## The event builder -/

/-- The three calls of `log.Fatal` in the loop of `makeEvents`. -/
inductive Fatal where
  /-- `time.Parse` returned an error. -/
  | badDate
  /-- The duration does not split on `:` into two parts. -/
  | badParts
  /-- `time.ParseDuration` returned an error. -/
  | badDuration
  deriving DecidableEq, Repr

/-- The body of the innermost loop of `makeEvents` for one event. -/
def makeEvent (rt : Runtime) (g : Globals) (frab : FrabSchedule) (locationMap eventMap : IdMap)
    (frabEvent : FrabEvent) : Except Fatal HackerTrackerEvent :=
  match timeParse rt frabEvent.Date.data with
  | none => .error .badDate
  | some startTime =>
    match splitOn ':' frabEvent.Duration.data with
    | [p0, p1] =>
      match ParseDuration rt (p0 ++ ['h'] ++ p1 ++ ['m']) with
      | none => .error .badDuration
      | some duration =>
        let endTime := timeAdd startTime duration
        .ok { StartDate := frabEvent.Date,
              ID := goAdd g.baseID frabEvent.ID,
              Description := frabEvent.Abstract,
              Location := mapGet locationMap frabEvent.Room,
              EndDate := ⟨timeFormat rt endTime⟩,
              Conference := frab.Schedule.Conference.Acronym,
              EventType := mapGet eventMap frabEvent.Typ,
              Title := frabEvent.Title,
              UpdatedAt := g.updatedAt,
              Link := match frabEvent.Links with
                | [] => ""
                | l :: _ => l.URL,
              Speakers := frabEvent.Persons.map (fun person => goAdd g.baseID person.ID) }
    | _ => .error .badParts

/-- The loops of `makeEvents` over the events in visiting order: every event is
built and appended to `events`; the first `log.Fatal` ends the run. -/
def eventLoop (body : FrabEvent → Except Fatal HackerTrackerEvent) :
    List FrabEvent → List HackerTrackerEvent → Except Fatal (List HackerTrackerEvent)
  | [], events => .ok events
  | frabEvent :: rest, events =>
    match body frabEvent with
    | .error err => .error err
    | .ok event => eventLoop body rest (events ++ [event])

/-- The function `makeEvents` up to the call of `HackerTrackerMarshal`: the
event records, or the `log.Fatal` that ended the run. -/
def makeEvents (rt : Runtime) (g : Globals) (frab : FrabSchedule) (ord : List (List String))
    (locationMap eventMap : IdMap) : Except Fatal (List HackerTrackerEvent) :=
  eventLoop (makeEvent rt g frab locationMap eventMap)
    (visitedEvents frab.Schedule.Conference.Days ord) []

/-! ## Specification vocabulary for the registries -/

/-- The distinct names of a sequence, in the order of their first encounter. -/
def firstEncounters : List String → List String
  | [] => []
  | n :: ns => n :: (firstEncounters ns).filter (fun k => k ≠ n)

/-- The 1-based rank of the first encounter of `n` among the distinct names. -/
def rank (names : List String) (n : String) : Nat :=
  (firstEncounters names).indexOf n + 1

/-- The entries `(k₁, c+1), (k₂, c+2), …` for the names `k₁, k₂, …`. -/
def numberFrom (c : Int) : List String → IdMap
  | [] => []
  | k :: ks => (k, c + 1) :: numberFrom (c + 1) ks

/-- The entries `(k₁, c+1), (k₂, c+2), …` with the ids wrapped to Go's `int`. -/
def numberWrapped (c : Int) : List String → IdMap
  | [] => []
  | k :: ks => (k, wrapInt (c + 1)) :: numberWrapped (c + 1) ks

/-! ## Specification vocabulary for durations -/

/-- A part is an integer written in decimal digits. -/
def IsDecimal (p : List Char) : Prop := p ≠ [] ∧ ∀ c ∈ p, isDigit c = true

/-- The characters of a number: the decimal digits and the period. -/
def numberChar (c : Char) : Bool := isDigit c || c = '.'

/-- A decimal number of a duration: digits with at most one period among them
and at least one digit, as "2", "1.5", ".5" or "1.". -/
def isNumber (n : List Char) : Bool :=
  n.all numberChar && decide (n.count '.' ≤ 1) && n.any isDigit

/-- A group of a Go duration: a decimal number and a unit name (`ns`, `us`,
`µs`, `ms`, `s`, `m`, `h`), as "1h" or "2.5ms". -/
def isGroup (g : List Char × List Char) : Bool := isNumber g.1 && (unitMap g.2).isSome

/-- The text of a sequence of groups: each number followed by its unit. -/
def groupsText (gs : List (List Char × List Char)) : List Char :=
  (gs.map (fun g => g.1 ++ g.2)).flatten

/-- A duration number: a decimal number, which complete groups may precede, as
"2", "1.5", "1h2" (the group "1h" and the number "2") or "1h30m2.5".  It is what a
part `p` of a duration `p0:p1` has to be for the texts `p0 ++ "h"` and
`p1 ++ "m"` to be sequences of groups. -/
def IsDurationNumber (p : List Char) : Prop :=
  ∃ (gs : List (List Char × List Char)) (n : List Char),
    (∀ g ∈ gs, isGroup g = true) ∧ isNumber n = true ∧ p = groupsText gs ++ n

/-- The test for a duration number: the longest run of number characters is a
decimal number, and the text ends there or goes on with the longest run of other
characters, a unit name, and a duration number (`fuel` bounds the recursion;
the length of the text is enough). -/
def durationNumber : Nat → List Char → Bool
  | 0, _ => false
  | fuel + 1, p =>
    isNumber (p.takeWhile numberChar) &&
      ((p.dropWhile numberChar).isEmpty ||
        ((unitMap ((p.dropWhile numberChar).takeWhile (fun c => !numberChar c))).isSome &&
          durationNumber fuel ((p.dropWhile numberChar).dropWhile (fun c => !numberChar c))))

/-- The loop of `time.ParseDuration` from the start of a group, with the total
`d` of the groups before it. -/
def startLoop (rt : Runtime) (d : Nat) : List Char → Option Nat
  | [] => none
  | c :: cs =>
    match openGroup c with
    | none => none
    | some ph => durLoop rt d ph cs

/-- After a group of a text that the loop reads to the result `r`: the text is
over, or a new group begins and the loop reads on to `r`. -/
def Continues (rt : Runtime) (rest : List Char) (r : Nat) : Prop :=
  rest = [] ∨ ∃ (c : Char) (cs : List Char) (d1 : Nat) (ph : DurPhase),
    rest = c :: cs ∧ openGroup c = some ph ∧ durLoop rt d1 ph cs = some r

/-- What may follow a group: nothing, or a text that begins with a number
character. -/
def Follows (rest : List Char) : Prop :=
  rest = [] ∨ ∃ (c : Char) (cs : List Char), rest = c :: cs ∧ numberChar c = true

/-- The days of month `m` in a leap (`l`) or common year. -/
def monthLength (l : Bool) (m : Nat) : Nat :=
  if m = 2 then (if l then 29 else 28)
  else if m = 4 ∨ m = 6 ∨ m = 9 ∨ m = 11 then 30
  else 31


/-! ## Specification vocabulary for timestamps -/

/-- A timestamp of the form `YYYY-MM-DDThh:mm:ss±hh:mm`, field by field; `west`
says that the sign of the offset is `-`. -/
structure Stamp where
  year : Nat
  month : Nat
  day : Nat
  hour : Nat
  minute : Nat
  second : Nat
  west : Bool
  offHour : Nat
  offMinute : Nat
  deriving DecidableEq, Repr

/-- The fields are those of a date of the calendar, a time of the day and an
offset below 24 hours. -/
def Stamp.Valid (s : Stamp) : Prop :=
  s.year ≤ 9999 ∧ 1 ≤ s.month ∧ s.month ≤ 12 ∧ 1 ≤ s.day ∧ s.day ≤ daysIn s.month s.year ∧
  s.hour ≤ 23 ∧ s.minute ≤ 59 ∧ s.second ≤ 59 ∧ s.offHour ≤ 23 ∧ s.offMinute ≤ 59

/-- The UTC offset of the timestamp in seconds, east positive. -/
def Stamp.offset (s : Stamp) : Int :=
  if s.west then -((s.offHour * 3600 + s.offMinute * 60 : Nat) : Int)
  else ((s.offHour * 3600 + s.offMinute * 60 : Nat) : Int)

/-- The text of the timestamp. -/
def Stamp.text (s : Stamp) : List Char :=
  fmtDigits 4 s.year ++ ['-'] ++ fmtDigits 2 s.month ++ ['-'] ++ fmtDigits 2 s.day ++ ['T'] ++
    fmtDigits 2 s.hour ++ [':'] ++ fmtDigits 2 s.minute ++ [':'] ++ fmtDigits 2 s.second ++
    [if s.west then '-' else '+'] ++ fmtDigits 2 s.offHour ++ [':'] ++ fmtDigits 2 s.offMinute

/-- The instant the timestamp denotes, in seconds since 1970-01-01T00:00:00Z. -/
def Stamp.instant (s : Stamp) : Int :=
  daysFromCivil s.year s.month s.day * 86400 + s.hour * 3600 + s.minute * 60 + s.second -
    s.offset

/-- The timestamp of the instant `unix` (seconds since the epoch) read at the
offset `off`. -/
def stampAt (unix off : Int) : Stamp :=
  { year := (civilFromDays ((unix + off) / 86400)).1.toNat,
    month := (civilFromDays ((unix + off) / 86400)).2.1,
    day := (civilFromDays ((unix + off) / 86400)).2.2,
    hour := ((unix + off) % 86400 / 3600).toNat,
    minute := ((unix + off) % 86400 % 3600 / 60).toNat,
    second := ((unix + off) % 86400 % 60).toNat,
    west := decide (quoTrunc off 60 < 0),
    offHour := (quoTrunc off 60).natAbs / 60,
    offMinute := (quoTrunc off 60).natAbs % 60 }

/-- The text of a duration of `hh` hours and `mm` minutes: `H:MM`, or `HH:MM`
when `two`. -/
def durationText (two : Bool) (hh mm : Nat) : List Char :=
  (if two then fmtDigits 2 hh else fmtDigits 1 hh) ++ [':'] ++ fmtDigits 2 mm

/-- The wall clock of the first instant of the year 10000, in seconds: the end of
the timestamps with a year of four digits. -/
def yearLimit : Int := 253402300800

/-- The event `e` starts at the timestamp `s`, a valid one, and lasts `mins`
minutes, written `H:MM` or `HH:MM` in decimal digits. -/
def StartsAs (e : FrabEvent) (s : Stamp) (mins : Nat) : Prop :=
  s.Valid ∧ e.Date.data = s.text ∧
  ∃ (two : Bool) (hh mm : Nat), e.Duration.data = durationText two hh mm ∧
    hh < (if two then 100 else 10) ∧ mm < 100 ∧ mins = 60 * hh + mm

/-- The end of an event that starts at `s` and lasts `mins` minutes, read at the
offset of `s`, falls before the year 10000; and the local zone of the runtime, if
it has the offset of `s` at the start, still has it at the end. -/
def Steady (rt : Runtime) (s : Stamp) (mins : Nat) : Prop :=
  s.instant + s.offset + 60 * mins < yearLimit ∧
  (rt.localOffset s.instant = s.offset → rt.localOffset (s.instant + 60 * mins) = s.offset)

/-- The end of the record `o` is the text of a valid timestamp that has the
offset of `s` and denotes the instant of `s` plus `mins` minutes. -/
def EndsAfter (s : Stamp) (mins : Nat) (o : HackerTrackerEvent) : Prop :=
  ∃ s' : Stamp, s'.Valid ∧ o.EndDate.data = s'.text ∧ s'.offset = s.offset ∧
    s'.instant = s.instant + 60 * mins

/-! ## Specification vocabulary for the builders -/

/-- The integer `x` is a value of Go's `int`: it lies in `[-2^63, 2^63)`. -/
def FitsInt (x : Int) : Prop := -2 ^ 63 ≤ x ∧ x < 2 ^ 63

/-- The id `id` stands for the source id `src`: it is the sum `base + src` of the
integers whenever that sum is a value of Go's `int`, and that sum wrapped around
otherwise. -/
def IdOf (base src id : Int) : Prop :=
  (FitsInt (base + src) → id = base + src) ∧ id = wrapInt (base + src)

/-- The link `link` of a record is the one of the source links `links`: the URL
of the first link, the empty string when there is no link. -/
def LinkOf (links : List FrabLink) (link : String) : Prop :=
  (∀ l rest, links = l :: rest → link = l.URL) ∧ (links = [] → link = "")

/-- The record `o` is the speaker record of the source speaker `s`. -/
def SpeakerRecordOf (g : Globals) (s : FrabSpeaker) (o : HackerTrackerSpeaker) : Prop :=
  IdOf g.baseID s.ID o.ID ∧ o.Name = s.PublicName ∧ o.Description = s.Abstract ∧
  LinkOf s.Links o.Link

/-- The record `o` has the id, description, link and speakers of the source
event `e`: one speaker id per person, in source order. -/
def EventRecordOf (g : Globals) (e : FrabEvent) (o : HackerTrackerEvent) : Prop :=
  IdOf g.baseID e.ID o.ID ∧ o.Description = e.Abstract ∧ LinkOf e.Links o.Link ∧
  List.Forall₂ (fun (person : FrabPerson) (id : Int) => IdOf g.baseID person.ID id)
    e.Persons o.Speakers ∧
  (e.Persons = [] → o.Speakers = [])

/-- The event parses: `time.Parse` reads its date, its duration splits on `:`
into two parts, and `time.ParseDuration` reads the text made of the parts. -/
def Parses (rt : Runtime) (e : FrabEvent) : Prop :=
  ∃ (startTime : GoTime) (p0 p1 : List Char) (duration : Int),
    timeParse rt e.Date.data = some startTime ∧
    splitOn ':' e.Duration.data = [p0, p1] ∧
    ParseDuration rt (p0 ++ ['h'] ++ p1 ++ ['m']) = some duration

/-- The number of events of a schedule. -/
def eventCount (days : List FrabDay) : Nat :=
  (days.map (fun d => (d.Rooms.map (fun p => p.2.length)).sum)).sum

/-- The records `out` are made of one block per day, the days in source order;
the block of a day is made of one block per room of the day, the rooms in some
order; the block of a room holds one record per event of the room, in source
order, related to its event by `R`. -/
def InSourceOrder (R : FrabEvent → HackerTrackerEvent → Prop) (days : List FrabDay)
    (out : List HackerTrackerEvent) : Prop :=
  ∃ blocks : List (List (List HackerTrackerEvent)),
    out = (blocks.map List.flatten).flatten ∧
    List.Forall₂
      (fun day dayBlocks => ∃ rooms : List (String × List FrabEvent),
        rooms.Perm day.Rooms ∧
        List.Forall₂ (fun room blk => List.Forall₂ R room.2 blk) rooms dayBlocks)
      days blocks

/-- The event type of the record `o` of the event `e` is a non-zero id, the one
the map holds for the type tag of `e`, and among the emitted event-type records
`types` (in whatever order) exactly one has that id: the record of that tag. -/
def TypeResolved (u : UnicodeTables) (g : Globals) (frab : FrabSchedule) (eventMap : IdMap)
    (types : List HackerTrackerEventType) (e : FrabEvent) (o : HackerTrackerEvent) : Prop :=
  o.EventType = mapGet eventMap e.Typ ∧ o.EventType ≠ 0 ∧
  ∀ recs : List HackerTrackerEventType, recs.Perm types →
    recs.filter (fun t => t.ID = o.EventType) =
      [{ Name := Title u (Replace e.Typ '_' " " 0),
         Conference := frab.Schedule.Conference.Acronym,
         ID := o.EventType, UpdatedAt := g.updatedAt }]

/-- The location of the record `o` of the event `e` is a non-zero id, the one the
map holds for the room field of `e`, and among the emitted location records
`locations` (in whatever order) exactly one has that id: the record named after
that room. -/
def LocationResolved (g : Globals) (frab : FrabSchedule) (locationMap : IdMap)
    (locations : List HackerTrackerLocation) (e : FrabEvent) (o : HackerTrackerEvent) : Prop :=
  o.Location = mapGet locationMap e.Room ∧ o.Location ≠ 0 ∧
  ∀ recs : List HackerTrackerLocation, recs.Perm locations →
    recs.filter (fun l => l.ID = o.Location) =
      [{ Name := e.Room, ID := o.Location, UpdatedAt := g.updatedAt,
         Conference := frab.Schedule.Conference.Acronym }]

/-! ## Sample data for concrete runs -/

/-- A schedule of one day, one room and one event, for concrete runs. -/
def sampleSchedule : FrabSchedule :=
  ⟨⟨{ Acronym := "tc", Days := [⟨[("Main",
      [{ ID := 7, Date := "2024-06-01T09:00:00+00:00", Duration := "0:45", Abstract := "about",
         Room := "Main", Typ := "talk", Title := "Opening", Links := [],
         Persons := [⟨5⟩] }])]⟩] }⟩⟩

/-- Three speakers, the third a repetition of the first; the second has two
links. -/
def sampleSpeakers : FrabScheduleSpeakers :=
  ⟨⟨[{ ID := 5, PublicName := "Ada", Abstract := "bio", Links := [] },
     { ID := 6, PublicName := "Bob", Abstract := "", Links := [⟨"https://b.example"⟩, ⟨"x"⟩] },
     { ID := 5, PublicName := "Ada", Abstract := "bio", Links := [] }]⟩⟩

/-- A runtime whose local zone is UTC; the fraction of a duration is computed in
float64, as Go does. -/
def utcRuntime : Runtime := ⟨fun _ => 0, fractionNanos⟩

/-- Unicode tables that leave every character outside ASCII alone. -/
def asciiTables : UnicodeTables := ⟨fun _ => false, fun _ => false, fun _ => false, id⟩

/-- The record `makeEvents` builds from the event of `sampleSchedule` with base
id 100. -/
def sampleEvent : HackerTrackerEvent :=
  { StartDate := "2024-06-01T09:00:00+00:00", ID := 107, Description := "about",
    Location := 101, EndDate := "2024-06-01T09:45:00+00:00", Conference := "tc",
    EventType := 101, Title := "Opening", UpdatedAt := "now", Link := "",
    Speakers := [105] }

/-- A schedule whose second event has a duration of three parts. -/
def badPartsSchedule : FrabSchedule :=
  ⟨⟨{ Acronym := "tc", Days := [⟨[("Main",
      [{ ID := 7, Date := "2024-06-01T09:00:00+00:00", Duration := "0:45", Abstract := "about",
         Room := "Main", Typ := "talk", Title := "Opening", Links := [], Persons := [⟨5⟩] },
       { ID := 8, Date := "2024-06-01T10:00:00+00:00", Duration := "1:2:3", Abstract := "",
         Room := "Main", Typ := "talk", Title := "Second", Links := [], Persons := [] }])]⟩] }⟩⟩

/-- A schedule of one day, one room and one event with the given duration. -/
def durationSchedule (duration : String) : FrabSchedule :=
  ⟨⟨{ Acronym := "tc", Days := [⟨[("Main",
      [{ ID := 7, Date := "2024-06-01T09:00:00+00:00", Duration := duration, Abstract := "about",
         Room := "Main", Typ := "talk", Title := "Opening", Links := [], Persons := [⟨5⟩] }])]⟩] }⟩⟩

/-- A schedule of one day, one room and one event with the given start and
duration. -/
def timedSchedule (date duration : String) : FrabSchedule :=
  ⟨⟨{ Acronym := "tc", Days := [⟨[("Main",
      [{ ID := 7, Date := date, Duration := duration, Abstract := "about",
         Room := "Main", Typ := "talk", Title := "Opening", Links := [], Persons := [⟨5⟩] }])]⟩] }⟩⟩

/-- A runtime whose local zone has the offsets of America/New_York around the
change to daylight time of 2024-03-10 (07:00 UTC): five hours west of UTC before
it, four hours after. -/
def newYorkRuntime : Runtime :=
  ⟨fun unix => if unix < 1710054000 then -18000 else -14400, fractionNanos⟩

/-- A schedule with the event types "lightning_talk" and "talk". -/
def typesSchedule : FrabSchedule :=
  ⟨⟨{ Acronym := "tc", Days := [⟨[("Main",
      [{ ID := 1, Date := "2024-06-01T09:00:00+00:00", Duration := "0:10", Abstract := "",
         Room := "Main", Typ := "lightning_talk", Title := "Short", Links := [], Persons := [] },
       { ID := 2, Date := "2024-06-01T10:00:00+00:00", Duration := "0:45", Abstract := "",
         Room := "Main", Typ := "talk", Title := "Long", Links := [], Persons := [] }])]⟩] }⟩⟩

/-! # Theorems -/

/-! ## The identifier registries -/

theorem wrapInt_of_fits (x : Int) (h1 : -2 ^ 63 ≤ x) (h2 : x < 2 ^ 63) : wrapInt x = x := by
  unfold wrapInt
  omega

theorem mapGet_eq_zero_of_not_mem (m : IdMap) (k : String) (h : k ∉ m.map Prod.fst) :
    mapGet m k = 0 := by
  induction m with
  | nil => rfl
  | cons p m ih =>
    obtain ⟨k', v⟩ := p
    simp only [List.map_cons, List.mem_cons, not_or] at h
    simp only [mapGet]
    rw [if_neg (fun e => h.1 e.symm)]
    exact ih h.2

theorem mapGet_ne_zero_of_mem (m : IdMap) (k : String) (h : k ∈ m.map Prod.fst)
    (hnz : ∀ p ∈ m, p.2 ≠ 0) : mapGet m k ≠ 0 := by
  induction m with
  | nil => simp at h
  | cons p m ih =>
    obtain ⟨k', v⟩ := p
    simp only [mapGet]
    by_cases e : k' = k
    · rw [if_pos e]; exact hnz (k', v) (List.mem_cons_self _ _)
    · rw [if_neg e]
      simp only [List.map_cons, List.mem_cons] at h
      rcases h with h | h
      · exact absurd h.symm e
      · exact ih h (fun p hp => hnz p (List.mem_cons_of_mem _ hp))

theorem mapSet_of_not_mem (m : IdMap) (k : String) (v : Int) (h : k ∉ m.map Prod.fst) :
    mapSet m k v = m ++ [(k, v)] := by
  induction m with
  | nil => rfl
  | cons p m ih =>
    obtain ⟨k', v'⟩ := p
    simp only [List.map_cons, List.mem_cons, not_or] at h
    simp only [mapSet]
    rw [if_neg (fun e => h.1 e.symm), ih h.2]
    rfl

theorem mapGet_append_of_mem (m m' : IdMap) (k : String) (h : k ∈ m.map Prod.fst) :
    mapGet (m ++ m') k = mapGet m k := by
  induction m with
  | nil => simp at h
  | cons p m ih =>
    obtain ⟨k', v⟩ := p
    simp only [List.cons_append, mapGet]
    by_cases e : k' = k
    · simp [e]
    · rw [if_neg e, if_neg e]
      simp only [List.map_cons, List.mem_cons] at h
      rcases h with h | h
      · exact absurd h.symm e
      · exact ih h

theorem mapGet_append_of_not_mem (m m' : IdMap) (k : String) (h : k ∉ m.map Prod.fst) :
    mapGet (m ++ m') k = mapGet m' k := by
  induction m with
  | nil => rfl
  | cons p m ih =>
    obtain ⟨k', v⟩ := p
    simp only [List.map_cons, List.mem_cons, not_or] at h
    simp only [List.cons_append, mapGet]
    rw [if_neg (fun e => h.1 e.symm)]
    exact ih h.2

theorem numberFrom_keys (c : Int) (ks : List String) :
    (numberFrom c ks).map Prod.fst = ks := by
  induction ks generalizing c with
  | nil => rfl
  | cons k ks ih => simp [numberFrom, ih]

theorem numberFrom_values (c : Int) (ks : List String) :
    ∀ p ∈ numberFrom c ks, c < p.2 ∧ p.2 ≤ c + ks.length := by
  induction ks generalizing c with
  | nil => simp [numberFrom]
  | cons k ks ih =>
    intro p hp
    simp only [numberFrom, List.mem_cons] at hp
    rcases hp with rfl | hp
    · simp
    · have := ih (c + 1) p hp
      simp only [List.length_cons, Nat.cast_add, Nat.cast_one]
      omega

theorem firstEncounters_mem (names : List String) (n : String) :
    n ∈ firstEncounters names ↔ n ∈ names := by
  induction names with
  | nil => simp [firstEncounters]
  | cons a ns ih =>
    simp only [firstEncounters, List.mem_cons, List.mem_filter, ih, decide_eq_true_eq]
    by_cases e : n = a
    · simp [e]
    · simp [e]

theorem firstEncounters_nodup (names : List String) : (firstEncounters names).Nodup := by
  induction names with
  | nil => simp [firstEncounters]
  | cons a ns ih =>
    simp only [firstEncounters, List.nodup_cons, List.mem_filter, decide_eq_true_eq]
    exact ⟨fun h => h.2 rfl, ih.filter _⟩

/-- The scan from any state whose stored ids are non-zero, as long as the counter
does not overflow. -/
theorem foldl_register (names : List String) (m : IdMap) (c : Int)
    (hnz : ∀ p ∈ m, p.2 ≠ 0) (hc : 0 ≤ c)
    (hfit : c + ((firstEncounters names).filter (fun k => k ∉ m.map Prod.fst)).length < 2 ^ 63) :
    names.foldl register { ids := m, count := c } =
      { ids := m ++ numberFrom c ((firstEncounters names).filter (fun k => k ∉ m.map Prod.fst)),
        count := c + ((firstEncounters names).filter (fun k => k ∉ m.map Prod.fst)).length } := by
  induction names generalizing m c with
  | nil => simp [firstEncounters, numberFrom]
  | cons n ns ih =>
    simp only [List.foldl_cons]
    by_cases hmem : n ∈ m.map Prod.fst
    · have hne : mapGet m n ≠ 0 := mapGet_ne_zero_of_mem m n hmem hnz
      have hfil : (firstEncounters (n :: ns)).filter (fun k => k ∉ m.map Prod.fst) =
          (firstEncounters ns).filter (fun k => k ∉ m.map Prod.fst) := by
        simp only [firstEncounters]
        rw [List.filter_cons_of_neg (by simpa using hmem), List.filter_filter]
        apply List.filter_congr
        intro x _
        by_cases hx : x ∈ m.map Prod.fst
        · simp [hx]
        · have : x ≠ n := fun e => hx (e ▸ hmem)
          simp [hx, this]
      rw [hfil] at hfit ⊢
      have hreg : register { ids := m, count := c } n = { ids := m, count := c } := by
        simp only [register]; rw [if_neg hne]
      rw [hreg]
      exact ih m c hnz hc hfit
    · have h0 : mapGet m n = 0 := mapGet_eq_zero_of_not_mem m n hmem
      have hfil : (firstEncounters (n :: ns)).filter (fun k => k ∉ m.map Prod.fst) =
          n :: (firstEncounters ns).filter (fun k => k ∉ (m ++ [(n, c + 1)]).map Prod.fst) := by
        simp only [firstEncounters]
        rw [List.filter_cons_of_pos (by simpa using hmem), List.filter_filter]
        congr 1
        apply List.filter_congr
        intro x _
        by_cases hx : x ∈ m.map Prod.fst
        · simp [hx]
        · by_cases e : x = n
          · simp [e]
          · simp [hx, e]
      rw [hfil] at hfit ⊢
      simp only [List.length_cons, Nat.cast_add, Nat.cast_one] at hfit
      have hw : goAdd c 1 = c + 1 := by
        unfold goAdd
        apply wrapInt_of_fits <;> omega
      have hreg : register { ids := m, count := c } n =
          { ids := m ++ [(n, c + 1)], count := c + 1 } := by
        simp only [register]; rw [if_pos h0, hw, mapSet_of_not_mem m n _ hmem]
      rw [hreg, ih (m ++ [(n, c + 1)]) (c + 1) _ (by omega) (by omega)]
      · simp only [numberFrom, List.append_assoc, List.singleton_append, List.length_cons,
          Nat.cast_add, Nat.cast_one, Registry.mk.injEq, true_and]
        omega
      · intro p hp
        simp only [List.mem_append, List.mem_singleton] at hp
        rcases hp with hp | rfl
        · exact hnz p hp
        · simp; omega

theorem scan_eq (base : Int) (names : List String) (hb : 0 ≤ base)
    (hfit : base + (firstEncounters names).length < 2 ^ 63) :
    scan base names =
      { ids := numberFrom base (firstEncounters names),
        count := base + (firstEncounters names).length } := by
  have h := foldl_register names [] base (by simp) hb (by simpa using hfit)
  simpa [scan] using h

theorem mapGet_numberFrom (c : Int) (ks : List String) (n : String) (hn : n ∈ ks) :
    mapGet (numberFrom c ks) n = c + ((ks.indexOf n : Nat) + 1) := by
  induction ks generalizing c with
  | nil => simp at hn
  | cons k ks ih =>
    simp only [numberFrom, mapGet]
    by_cases e : k = n
    · subst e; simp
    · rw [if_neg e]
      have hn' : n ∈ ks := by
        simp only [List.mem_cons] at hn
        rcases hn with h | h
        · exact absurd h.symm e
        · exact h
      rw [ih (c + 1) hn', List.indexOf_cons_ne _ (fun h => e h)]
      push_cast
      omega

theorem firstEncounters_append (p q : List String) :
    firstEncounters (p ++ q) = firstEncounters p ++ (firstEncounters q).filter (fun k => k ∉ p) := by
  induction p with
  | nil => simp [firstEncounters]
  | cons a p ih =>
    show firstEncounters (a :: (p ++ q)) = _
    simp only [firstEncounters, ih, List.filter_append, List.filter_filter, List.cons_append]
    congr 2
    apply List.filter_congr
    intro x _
    by_cases e : x = a <;> by_cases hx : x ∈ p <;> simp [e, hx]

theorem rank_append (p q : List String) (n : String) (hn : n ∈ p) :
    rank (p ++ q) n = rank p n := by
  unfold rank
  rw [firstEncounters_append, List.indexOf_append_of_mem ((firstEncounters_mem p n).2 hn)]

theorem firstEncounters_length_append (p q : List String) :
    (firstEncounters p).length ≤ (firstEncounters (p ++ q)).length := by
  rw [firstEncounters_append, List.length_append]
  omega

theorem goAdd_wrapInt_one (c : Int) : goAdd (wrapInt c) 1 = wrapInt (c + 1) := by
  unfold goAdd wrapInt
  omega

theorem wrapInt_ne_zero (x : Int) (h1 : 0 < x) (h2 : x < 2 ^ 64) : wrapInt x ≠ 0 := by
  unfold wrapInt
  omega

theorem wrapInt_ne_of_lt (x : Int) (i : Nat) (h1 : 0 < i) (h2 : (i : Int) < 2 ^ 64) :
    wrapInt (x + i) ≠ wrapInt x := by
  unfold wrapInt
  omega

theorem numberWrapped_keys (c : Int) (ks : List String) :
    (numberWrapped c ks).map Prod.fst = ks := by
  induction ks generalizing c with
  | nil => rfl
  | cons k ks ih => simp [numberWrapped, ih]

theorem numberWrapped_values (c : Int) (ks : List String) :
    ∀ p ∈ numberWrapped c ks, ∃ i : Nat, 0 < i ∧ i ≤ ks.length ∧ p.2 = wrapInt (c + i) := by
  induction ks generalizing c with
  | nil => simp [numberWrapped]
  | cons k ks ih =>
    intro p hp
    simp only [numberWrapped, List.mem_cons] at hp
    rcases hp with rfl | hp
    · exact ⟨1, by omega, by simp, by simp⟩
    · obtain ⟨i, h1, h2, h3⟩ := ih (c + 1) p hp
      refine ⟨i + 1, by omega, by simp; omega, ?_⟩
      rw [h3]
      congr 1
      push_cast
      omega

theorem numberWrapped_values_nodup (c : Int) (ks : List String)
    (hlen : (ks.length : Int) < 2 ^ 64) : ((numberWrapped c ks).map Prod.snd).Nodup := by
  induction ks generalizing c with
  | nil => simp [numberWrapped]
  | cons k ks ih =>
    simp only [List.length_cons, Nat.cast_add, Nat.cast_one] at hlen
    simp only [numberWrapped, List.map_cons, List.nodup_cons, List.mem_map, not_exists, not_and]
    refine ⟨?_, ih (c + 1) (by omega)⟩
    intro p hp heq
    obtain ⟨i, h1, h2, h3⟩ := numberWrapped_values (c + 1) ks p hp
    rw [h3] at heq
    exact wrapInt_ne_of_lt (c + 1) i h1 (by omega) heq

theorem numberWrapped_values_ne_zero (c : Int) (ks : List String) (hc : 0 ≤ c)
    (hfit : c + ks.length < 2 ^ 64) : ∀ p ∈ numberWrapped c ks, p.2 ≠ 0 := by
  intro p hp
  obtain ⟨i, h1, h2, h3⟩ := numberWrapped_values c ks p hp
  rw [h3]
  apply wrapInt_ne_zero <;> omega

theorem foldl_register_wrapped (names : List String) (m : IdMap) (c : Int)
    (hnz : ∀ p ∈ m, p.2 ≠ 0) (hc : 0 ≤ c)
    (hfit : c + ((firstEncounters names).filter (fun k => k ∉ m.map Prod.fst)).length < 2 ^ 64) :
    names.foldl register { ids := m, count := wrapInt c } =
      { ids := m ++ numberWrapped c ((firstEncounters names).filter (fun k => k ∉ m.map Prod.fst)),
        count := wrapInt
          (c + ((firstEncounters names).filter (fun k => k ∉ m.map Prod.fst)).length) } := by
  induction names generalizing m c with
  | nil => simp [firstEncounters, numberWrapped]
  | cons n ns ih =>
    simp only [List.foldl_cons]
    by_cases hmem : n ∈ m.map Prod.fst
    · have hne : mapGet m n ≠ 0 := mapGet_ne_zero_of_mem m n hmem hnz
      have hfil : (firstEncounters (n :: ns)).filter (fun k => k ∉ m.map Prod.fst) =
          (firstEncounters ns).filter (fun k => k ∉ m.map Prod.fst) := by
        simp only [firstEncounters]
        rw [List.filter_cons_of_neg (by simpa using hmem), List.filter_filter]
        apply List.filter_congr
        intro x _
        by_cases hx : x ∈ m.map Prod.fst
        · simp [hx]
        · have : x ≠ n := fun e => hx (e ▸ hmem)
          simp [hx, this]
      rw [hfil] at hfit ⊢
      have hreg : register { ids := m, count := wrapInt c } n =
          { ids := m, count := wrapInt c } := by
        simp only [register]; rw [if_neg hne]
      rw [hreg]
      exact ih m c hnz hc hfit
    · have h0 : mapGet m n = 0 := mapGet_eq_zero_of_not_mem m n hmem
      have hfil : (firstEncounters (n :: ns)).filter (fun k => k ∉ m.map Prod.fst) =
          n :: (firstEncounters ns).filter
            (fun k => k ∉ (m ++ [(n, wrapInt (c + 1))]).map Prod.fst) := by
        simp only [firstEncounters]
        rw [List.filter_cons_of_pos (by simpa using hmem), List.filter_filter]
        congr 1
        apply List.filter_congr
        intro x _
        by_cases hx : x ∈ m.map Prod.fst
        · simp [hx]
        · by_cases e : x = n
          · simp [e]
          · simp [hx, e]
      rw [hfil] at hfit ⊢
      simp only [List.length_cons, Nat.cast_add, Nat.cast_one] at hfit
      have hreg : register { ids := m, count := wrapInt c } n =
          { ids := m ++ [(n, wrapInt (c + 1))], count := wrapInt (c + 1) } := by
        simp only [register]
        rw [if_pos h0, goAdd_wrapInt_one, mapSet_of_not_mem m n _ hmem]
      rw [hreg, ih (m ++ [(n, wrapInt (c + 1))]) (c + 1) _ (by omega) (by omega)]
      · simp only [numberWrapped, List.append_assoc, List.singleton_append, List.length_cons,
          Nat.cast_add, Nat.cast_one, Registry.mk.injEq, true_and]
        congr 1
        omega
      · intro p hp
        simp only [List.mem_append, List.mem_singleton] at hp
        rcases hp with hp | rfl
        · exact hnz p hp
        · exact wrapInt_ne_zero _ (by omega) (by omega)

theorem firstEncounters_length_le (names : List String) :
    (firstEncounters names).length ≤ names.length := by
  induction names with
  | nil => simp [firstEncounters]
  | cons n ns ih =>
    simp only [firstEncounters, List.length_cons]
    have := List.length_filter_le (fun k => decide (k ≠ n)) (firstEncounters ns)
    omega

theorem scan_wrapped (base : Int) (names : List String) (hb : 0 ≤ base) (hint : base < 2 ^ 63)
    (hlen : (names.length : Int) < 2 ^ 63) :
    (scan base names).ids = numberWrapped base (firstEncounters names) := by
  have hle := firstEncounters_length_le names
  have hw : wrapInt base = base := wrapInt_of_fits base (by omega) hint
  have h := foldl_register_wrapped names [] base (by simp) hb (by simp; omega)
  rw [hw] at h
  simp only [scan, h]
  simp

theorem mem_of_key (m : IdMap) (k : String) (hk : k ∈ m.map Prod.fst) :
    (k, mapGet m k) ∈ m := by
  induction m with
  | nil => simp at hk
  | cons p m ih =>
    obtain ⟨k', v⟩ := p
    simp only [mapGet]
    by_cases e : k' = k
    · subst e; simp
    · rw [if_neg e]
      simp only [List.map_cons, List.mem_cons] at hk
      rcases hk with h | h
      · exact absurd h.symm e
      · exact List.mem_cons_of_mem _ (ih h)

theorem filter_by_id (m : IdMap) (k : String) (hk : k ∈ m.map Prod.fst)
    (hvals : (m.map Prod.snd).Nodup) :
    m.filter (fun p => p.2 = mapGet m k) = [(k, mapGet m k)] := by
  induction m with
  | nil => simp at hk
  | cons p m ih =>
    obtain ⟨k', v⟩ := p
    simp only [List.map_cons, List.nodup_cons] at hvals
    by_cases e : k' = k
    · subst e
      have hg : mapGet ((k', v) :: m) k' = v := by simp [mapGet]
      rw [hg]
      rw [List.filter_cons_of_pos (by simp)]
      congr 1
      rw [List.filter_eq_nil_iff]
      intro p hp
      simp only [decide_eq_true_eq]
      intro h
      exact hvals.1 (List.mem_map.2 ⟨p, hp, h⟩)
    · have hg : mapGet ((k', v) :: m) k = mapGet m k := by simp [mapGet, e]
      rw [hg]
      simp only [List.map_cons, List.mem_cons] at hk
      have hk' : k ∈ m.map Prod.fst := by
        rcases hk with h | h
        · exact absurd h.symm e
        · exact h
      have hv : v ≠ mapGet m k := by
        intro h
        exact hvals.1 (List.mem_map.2 ⟨(k, mapGet m k), mem_of_key m k hk', h.symm⟩)
      rw [List.filter_cons_of_neg (by simpa using hv)]
      exact ih hk' hvals.2

theorem forall₂_mem_left {α β : Type} (R : α → β → Prop) (l : List α) (out : List β)
    (h : List.Forall₂ R l out) : List.Forall₂ (fun a b => a ∈ l ∧ R a b) l out := by
  induction h with
  | nil => exact List.Forall₂.nil
  | cons hab _ ih =>
    exact List.Forall₂.cons ⟨List.mem_cons_self _ _, hab⟩
      (ih.imp (fun a b h => ⟨List.mem_cons_of_mem _ h.1, h.2⟩))

/-! ## The builders -/

theorem eventLoop_ok (body : FrabEvent → Except Fatal HackerTrackerEvent)
    (es : List FrabEvent) (acc out : List HackerTrackerEvent) :
    eventLoop body es acc = .ok out ↔
      ∃ outs, List.Forall₂ (fun e o => body e = .ok o) es outs ∧ out = acc ++ outs := by
  induction es generalizing acc with
  | nil =>
    simp only [eventLoop, Except.ok.injEq, List.forall₂_nil_left_iff]
    constructor
    · intro h; exact ⟨[], rfl, by simp [h]⟩
    · rintro ⟨outs, rfl, h⟩; simp [h]
  | cons e es ih =>
    simp only [eventLoop]
    cases hb : body e with
    | error err =>
      simp only [false_iff, not_exists, not_and, reduceCtorEq]
      intro outs h
      cases h with
      | cons h1 _ => rw [hb] at h1; cases h1
    | ok o =>
      simp only [ih]
      constructor
      · rintro ⟨outs, h, rfl⟩
        exact ⟨o :: outs, List.Forall₂.cons hb h, by simp⟩
      · rintro ⟨outs, h, rfl⟩
        cases h with
        | cons h1 h2 =>
          rw [hb, Except.ok.injEq] at h1
          subst h1
          exact ⟨_, h2, by simp⟩

theorem eventLoop_error (body : FrabEvent → Except Fatal HackerTrackerEvent)
    (es : List FrabEvent) (acc : List HackerTrackerEvent) (e : FrabEvent) (he : e ∈ es)
    (err : Fatal) (hb : body e = .error err) :
    ∃ err', eventLoop body es acc = .error err' := by
  induction es generalizing acc with
  | nil => simp at he
  | cons a es ih =>
    simp only [eventLoop]
    cases ha : body a with
    | error x => exact ⟨x, rfl⟩
    | ok o =>
      simp only [List.mem_cons] at he
      rcases he with rfl | he
      · rw [hb] at ha; cases ha
      · exact ih _ he

theorem roomEvents_of_mem (rooms : List (String × List FrabEvent)) (room : String)
    (evs : List FrabEvent) (hnd : (rooms.map Prod.fst).Nodup) (h : (room, evs) ∈ rooms) :
    roomEvents rooms room = evs := by
  induction rooms with
  | nil => simp at h
  | cons p rooms ih =>
    obtain ⟨k, v⟩ := p
    simp only [List.map_cons, List.nodup_cons] at hnd
    simp only [roomEvents]
    simp only [List.mem_cons, Prod.mk.injEq] at h
    rcases h with ⟨rfl, rfl⟩ | h
    · simp
    · have : k ≠ room := by
        rintro rfl
        exact hnd.1 (List.mem_map.2 ⟨(k, evs), h, rfl⟩)
      rw [if_neg this]
      exact ih hnd.2 h

theorem mem_visitedRooms (days : List FrabDay) (ord : List (List String))
    (hord : ValidOrder days ord) (day : FrabDay) (room : String) :
    (day, room) ∈ visitedRooms days ord ↔ day ∈ days ∧ room ∈ roomNames day := by
  induction days generalizing ord with
  | nil =>
    cases ord <;> simp [visitedRooms]
  | cons d days ih =>
    cases ord with
    | nil => simp [ValidOrder] at hord
    | cons o ord =>
      simp only [ValidOrder] at hord
      simp only [visitedRooms, List.mem_append, List.mem_map, Prod.mk.injEq, List.mem_cons,
        ih ord hord.2]
      constructor
      · rintro (⟨r, hr, rfl, rfl⟩ | ⟨h1, h2⟩)
        · exact ⟨Or.inl rfl, hord.1.mem_iff.1 hr⟩
        · exact ⟨Or.inr h1, h2⟩
      · rintro ⟨rfl | h1, h2⟩
        · exact Or.inl ⟨room, hord.1.mem_iff.2 h2, rfl, rfl⟩
        · exact Or.inr ⟨h1, h2⟩

theorem mem_visitedEvents (days : List FrabDay) (ord : List (List String))
    (hwf : WellFormed days) (hord : ValidOrder days ord) (e : FrabEvent) :
    e ∈ visitedEvents days ord ↔ ∃ day ∈ days, ∃ p ∈ day.Rooms, e ∈ p.2 := by
  simp only [visitedEvents, List.mem_flatMap]
  constructor
  · rintro ⟨⟨day, room⟩, hv, he⟩
    rw [mem_visitedRooms days ord hord] at hv
    obtain ⟨hd, hr⟩ := hv
    simp only [roomNames, List.mem_map] at hr
    obtain ⟨⟨k, evs⟩, hp, rfl⟩ := hr
    refine ⟨day, hd, (k, evs), hp, ?_⟩
    simpa [roomEvents_of_mem day.Rooms k evs (hwf day hd) hp] using he
  · rintro ⟨day, hd, ⟨k, evs⟩, hp, he⟩
    refine ⟨(day, k), (mem_visitedRooms days ord hord day k).2 ⟨hd, ?_⟩, ?_⟩
    · exact List.mem_map.2 ⟨(k, evs), hp, rfl⟩
    · simpa [roomEvents_of_mem day.Rooms k evs (hwf day hd) hp] using he

theorem splitOn_length (sep : Char) (s : List Char) :
    (splitOn sep s).length = s.count sep + 1 := by
  induction s with
  | nil => rfl
  | cons c cs ih =>
    simp only [splitOn]
    by_cases h : c = sep
    · subst h
      simp [ih]
    · rw [if_neg h]
      have hc : (c :: cs).count sep = cs.count sep := by
        rw [List.count_cons_of_ne (fun e => h e.symm)]
      rw [hc]
      cases hs : splitOn sep cs with
      | nil => rw [hs] at ih; simp at ih
      | cons p ps => rw [hs] at ih; simpa using ih

theorem makeEvent_badParts (rt : Runtime) (g : Globals) (frab : FrabSchedule)
    (locationMap eventMap : IdMap) (e : FrabEvent)
    (h : (splitOn ':' e.Duration.data).length ≠ 2) :
    ∃ err, makeEvent rt g frab locationMap eventMap e = .error err := by
  unfold makeEvent
  cases timeParse rt e.Date.data with
  | none => exact ⟨_, rfl⟩
  | some t =>
    simp only
    split
    · rename_i p0 p1 heq
      rw [heq] at h
      simp at h
    · exact ⟨_, rfl⟩

theorem makeEvent_fields (rt : Runtime) (g : Globals) (frab : FrabSchedule)
    (locationMap eventMap : IdMap) (e : FrabEvent) (o : HackerTrackerEvent)
    (h : makeEvent rt g frab locationMap eventMap e = .ok o) :
    o.ID = goAdd g.baseID e.ID ∧ o.Description = e.Abstract ∧
    o.Link = (e.Links.head?.map FrabLink.URL).getD "" ∧
    o.Speakers = e.Persons.map (fun person => goAdd g.baseID person.ID) ∧
    o.Location = mapGet locationMap e.Room ∧ o.EventType = mapGet eventMap e.Typ := by
  unfold makeEvent at h
  split at h
  · cases h
  · split at h
    · split at h
      · cases h
      · simp only [Except.ok.injEq] at h
        subst h
        refine ⟨rfl, rfl, ?_, rfl, rfl, rfl⟩
        cases e.Links <;> rfl
    · cases h

theorem makeEvent_parses (rt : Runtime) (g : Globals) (frab : FrabSchedule)
    (locationMap eventMap : IdMap) (e : FrabEvent) (h : Parses rt e) :
    ∃ o, makeEvent rt g frab locationMap eventMap e = .ok o := by
  obtain ⟨t, p0, p1, d, ht, hs, hd⟩ := h
  unfold makeEvent
  simp only [ht, hs, hd]
  exact ⟨_, rfl⟩

theorem sample_run :
    makeEvents utcRuntime ⟨100, "now"⟩ sampleSchedule [["Main"]] [("Main", 101)] [("talk", 101)] =
      .ok [{ StartDate := "2024-06-01T09:00:00+00:00", ID := 107, Description := "about",
             Location := 101, EndDate := "2024-06-01T09:45:00+00:00", Conference := "tc",
             EventType := 101, Title := "Opening", UpdatedAt := "now", Link := "",
             Speakers := [105] }] := by
  rfl

theorem forall₂_append_split {α β : Type} (R : α → β → Prop) (l1 l2 : List α) (out : List β)
    (h : List.Forall₂ R (l1 ++ l2) out) :
    ∃ o1 o2, out = o1 ++ o2 ∧ List.Forall₂ R l1 o1 ∧ List.Forall₂ R l2 o2 := by
  induction l1 generalizing out with
  | nil => exact ⟨[], out, rfl, List.Forall₂.nil, h⟩
  | cons a l1 ih =>
    cases h with
    | cons hab ht =>
      obtain ⟨o1, o2, rfl, h1, h2⟩ := ih _ ht
      exact ⟨_ :: o1, o2, rfl, List.Forall₂.cons hab h1, h2⟩

theorem forall₂_flatMap_split {α β γ : Type} (R : β → γ → Prop) (f : α → List β)
    (l : List α) (out : List γ) (h : List.Forall₂ R (l.flatMap f) out) :
    ∃ blocks : List (List γ), out = blocks.flatten ∧
      List.Forall₂ (fun a blk => List.Forall₂ R (f a) blk) l blocks := by
  induction l generalizing out with
  | nil =>
    simp only [List.flatMap_nil, List.forall₂_nil_left_iff] at h
    exact ⟨[], by simp [h], List.Forall₂.nil⟩
  | cons a l ih =>
    rw [List.flatMap_cons] at h
    obtain ⟨o1, o2, rfl, h1, h2⟩ := forall₂_append_split R _ _ _ h
    obtain ⟨blocks, rfl, hb⟩ := ih _ h2
    exact ⟨o1 :: blocks, by simp, List.Forall₂.cons h1 hb⟩

theorem visitedEvents_cons (d : FrabDay) (days : List FrabDay) (o : List String)
    (ord : List (List String)) :
    visitedEvents (d :: days) (o :: ord) =
      o.flatMap (fun room => roomEvents d.Rooms room) ++ visitedEvents days ord := by
  simp [visitedEvents, visitedRooms, List.flatMap_append, List.flatMap_map]

theorem rooms_of_order (d : FrabDay) (o : List String) (hnd : (roomNames d).Nodup)
    (ho : o.Perm (roomNames d)) :
    (o.map (fun room => (room, roomEvents d.Rooms room))).Perm d.Rooms := by
  have h1 : (o.map (fun room => (room, roomEvents d.Rooms room))).Perm
      ((roomNames d).map (fun room => (room, roomEvents d.Rooms room))) := ho.map _
  have h2 : (roomNames d).map (fun room => (room, roomEvents d.Rooms room)) = d.Rooms := by
    unfold roomNames
    rw [List.map_map]
    conv_rhs => rw [← List.map_id d.Rooms]
    apply List.map_congr_left
    rintro ⟨k, evs⟩ hp
    simp [roomEvents_of_mem d.Rooms k evs hnd hp]
  rw [h2] at h1
  exact h1

theorem visitedEvents_blocks (R : FrabEvent → HackerTrackerEvent → Prop)
    (days : List FrabDay) (ord : List (List String))
    (hwf : WellFormed days) (hord : ValidOrder days ord) (out : List HackerTrackerEvent)
    (h : List.Forall₂ R (visitedEvents days ord) out) :
    ∃ blocks : List (List (List HackerTrackerEvent)),
      out = (blocks.map List.flatten).flatten ∧
      List.Forall₂
        (fun day dayBlocks => ∃ rooms : List (String × List FrabEvent),
          rooms.Perm day.Rooms ∧
          List.Forall₂ (fun room blk => List.Forall₂ R room.2 blk) rooms dayBlocks)
        days blocks := by
  induction days generalizing ord out with
  | nil =>
    cases ord with
    | nil =>
      simp only [visitedEvents, visitedRooms, List.flatMap_nil, List.forall₂_nil_left_iff] at h
      exact ⟨[], by simp [h], List.Forall₂.nil⟩
    | cons o ord => simp [ValidOrder] at hord
  | cons d days ih =>
    cases ord with
    | nil => simp [ValidOrder] at hord
    | cons o ord =>
      simp only [ValidOrder] at hord
      rw [visitedEvents_cons] at h
      obtain ⟨o1, o2, rfl, h1, h2⟩ := forall₂_append_split R _ _ _ h
      obtain ⟨blocks, rfl, hb⟩ :=
        ih ord (fun day hd => hwf day (List.mem_cons_of_mem _ hd)) hord.2 o2 h2
      obtain ⟨dayBlocks, rfl, hd⟩ := forall₂_flatMap_split R _ o o1 h1
      refine ⟨dayBlocks :: blocks, by simp, List.Forall₂.cons ?_ hb⟩
      refine ⟨o.map (fun room => (room, roomEvents d.Rooms room)),
        rooms_of_order d o (hwf d (List.mem_cons_self _ _)) hord.1, ?_⟩
      rw [List.forall₂_map_left_iff]
      exact hd

theorem visitedEvents_length (days : List FrabDay) (ord : List (List String))
    (hwf : WellFormed days) (hord : ValidOrder days ord) :
    (visitedEvents days ord).length =
      (days.map (fun d => (d.Rooms.map (fun p => p.2.length)).sum)).sum := by
  induction days generalizing ord with
  | nil =>
    cases ord with
    | nil => rfl
    | cons o ord => simp [ValidOrder] at hord
  | cons d days ih =>
    cases ord with
    | nil => simp [ValidOrder] at hord
    | cons o ord =>
      simp only [ValidOrder] at hord
      rw [visitedEvents_cons, List.length_append,
        ih ord (fun day hd => hwf day (List.mem_cons_of_mem _ hd)) hord.2]
      simp only [List.map_cons, List.sum_cons, Nat.add_right_cancel_iff]
      have hp := rooms_of_order d o (hwf d (List.mem_cons_self _ _)) hord.1
      have hs := (hp.map (fun p => p.2.length)).sum_eq
      rw [← hs]
      simp [List.flatMap, List.length_flatten, List.map_map, Function.comp_def]

theorem filter_records {ρ : Type} (m : IdMap) (f : String × Int → ρ) (idOf : ρ → Int)
    (hid : ∀ p, idOf (f p) = p.2) (k : String) (hk : k ∈ m.map Prod.fst)
    (hvals : (m.map Prod.snd).Nodup) (recs : List ρ) (hperm : recs.Perm (m.map f)) :
    recs.filter (fun r => idOf r = mapGet m k) = [f (k, mapGet m k)] := by
  have h1 : (m.map f).filter (fun r => idOf r = mapGet m k) = [f (k, mapGet m k)] := by
    rw [List.filter_map]
    have : ((fun r => decide (idOf r = mapGet m k)) ∘ f) = (fun p => decide (p.2 = mapGet m k)) := by
      funext p
      simp [hid]
    rw [this, filter_by_id m k hk hvals]
    rfl
  have h2 := hperm.filter (fun r => decide (idOf r = mapGet m k))
  rw [h1] at h2
  exact List.perm_singleton.1 h2

theorem mem_eventTypeNames (days : List FrabDay) (ord : List (List String))
    (hwf : WellFormed days) (hord : ValidOrder days ord) (e : FrabEvent)
    (day : FrabDay) (hday : day ∈ days) (p : String × List FrabEvent) (hp : p ∈ day.Rooms)
    (he : e ∈ p.2) : e.Typ ∈ eventTypeNames days ord :=
  List.mem_map.2 ⟨e, (mem_visitedEvents days ord hwf hord e).2 ⟨day, hday, p, hp, he⟩, rfl⟩

theorem mem_locationNames (days : List FrabDay) (ord : List (List String))
    (hord : ValidOrder days ord) (day : FrabDay) (hday : day ∈ days) (room : String)
    (hroom : room ∈ roomNames day) : room ∈ locationNames days ord :=
  List.mem_map.2 ⟨(day, room), (mem_visitedRooms days ord hord day room).2 ⟨hday, hroom⟩, rfl⟩

theorem sample_wellFormed : WellFormed sampleSchedule.Schedule.Conference.Days := by
  intro day hday
  have : day = ⟨[("Main", _)]⟩ := List.mem_singleton.1 hday
  subst this
  decide

theorem sample_validOrder : ValidOrder sampleSchedule.Schedule.Conference.Days [["Main"]] :=
  ⟨List.Perm.refl _, trivial⟩

theorem sample_pipeline :
    makeEvents utcRuntime ⟨100, "now"⟩ sampleSchedule [["Main"]]
      (makeLocations ⟨100, "now"⟩ sampleSchedule [["Main"]]).1
      (makeEventTypes asciiTables ⟨100, "now"⟩ sampleSchedule [["Main"]]).1 = .ok [sampleEvent] := by
  rfl

/-! ## Durations: what `time.ParseDuration` accepts -/

theorem stripSign_compose (p0 t : List Char) :
    stripSign (p0 ++ 'h' :: t) = stripSign p0 ++ 'h' :: t := by
  cases p0 with
  | nil => simp [stripSign]
  | cons c r =>
    simp only [List.cons_append, stripSign]
    split_ifs <;> rfl

theorem numberChar_of_digit (c : Char) (h : isDigit c = true) : numberChar c = true := by
  simp [numberChar, h]

theorem digit_ne_period (c : Char) (h : isDigit c = true) : c ≠ '.' := by
  intro hc
  subst hc
  revert h
  decide

theorem count_period_digits (a : List Char) (h : ∀ c ∈ a, isDigit c = true) :
    a.count '.' = 0 := by
  rw [List.count_eq_zero]
  intro hmem
  exact digit_ne_period _ (h _ hmem) rfl

theorem isNumber_int (a : List Char) (ha : ∀ c ∈ a, isDigit c = true) (hne : a ≠ []) :
    isNumber a = true := by
  obtain ⟨c, rest, rfl⟩ := List.exists_cons_of_ne_nil hne
  simp only [isNumber, Bool.and_eq_true, List.all_eq_true, decide_eq_true_eq, List.any_eq_true]
  refine ⟨⟨fun x hx => numberChar_of_digit x (ha x hx), ?_⟩, c, by simp, ha c (by simp)⟩
  rw [count_period_digits _ ha]
  omega

theorem isNumber_frac (a b : List Char) (ha : ∀ c ∈ a, isDigit c = true)
    (hb : ∀ c ∈ b, isDigit c = true) (hne : a ≠ [] ∨ b ≠ []) :
    isNumber (a ++ '.' :: b) = true := by
  simp only [isNumber, Bool.and_eq_true, List.all_eq_true, decide_eq_true_eq, List.any_eq_true]
  refine ⟨⟨?_, ?_⟩, ?_⟩
  · intro x hx
    simp only [List.mem_append, List.mem_cons] at hx
    rcases hx with hx | rfl | hx
    · exact numberChar_of_digit x (ha x hx)
    · decide
    · exact numberChar_of_digit x (hb x hx)
  · rw [List.count_append, List.count_cons_self, count_period_digits _ ha,
      count_period_digits _ hb]
  · rcases hne with h | h
    · obtain ⟨c, rest, rfl⟩ := List.exists_cons_of_ne_nil h
      exact ⟨c, by simp, ha c (by simp)⟩
    · obtain ⟨c, rest, rfl⟩ := List.exists_cons_of_ne_nil h
      exact ⟨c, by simp, hb c (by simp)⟩

/-! ### What the loop accepts -/

theorem durLoop_int_run (rt : Runtime) (cs : List Char) :
    ∀ (d v r : Nat), durLoop rt d (.int v) cs = some r →
      ∃ (a : List Char) (c : Char) (rest : List Char) (v1 : Nat),
        cs = a ++ c :: rest ∧ (∀ x ∈ a, isDigit x = true) ∧ isDigit c = false ∧
        durLoop rt d (.int v1) (c :: rest) = some r := by
  induction cs with
  | nil => intro d v r h; simp [durLoop] at h
  | cons c cs ih =>
    intro d v r h
    by_cases hc : isDigit c = true
    · simp only [durLoop, hc, if_true] at h
      split_ifs at h
      obtain ⟨a, c1, rest, v1, rfl, ha, hc1, hrun⟩ := ih _ _ _ h
      refine ⟨c :: a, c1, rest, v1, rfl, ?_, hc1, hrun⟩
      intro x hx
      rcases List.mem_cons.1 hx with rfl | hx
      · exact hc
      · exact ha x hx
    · exact ⟨[], c, cs, v, rfl, by simp, by simpa using hc, h⟩

theorem durLoop_frac_run (rt : Runtime) (cs : List Char) :
    ∀ (d v : Nat) (pre : Bool) (f k : Nat) (over post : Bool) (r : Nat),
      durLoop rt d (.frac v pre f k over post) cs = some r →
      ∃ (b : List Char) (c : Char) (rest : List Char) (f1 k1 : Nat) (over1 : Bool),
        cs = b ++ c :: rest ∧ (∀ x ∈ b, isDigit x = true) ∧ isDigit c = false ∧
        durLoop rt d (.frac v pre f1 k1 over1 (post || !b.isEmpty)) (c :: rest) = some r := by
  induction cs with
  | nil => intro d v pre f k over post r h; simp [durLoop] at h
  | cons c cs ih =>
    intro d v pre f k over post r h
    by_cases hc : isDigit c = true
    · have key : ∃ f1 k1 over1, durLoop rt d (.frac v pre f1 k1 over1 true) cs = some r := by
        simp only [durLoop, hc, if_true] at h
        split_ifs at h
        all_goals exact ⟨_, _, _, h⟩
      obtain ⟨f1, k1, over1, h1⟩ := key
      obtain ⟨b, c1, rest, f2, k2, over2, rfl, hb, hc1, hrun⟩ := ih _ _ _ _ _ _ _ _ h1
      refine ⟨c :: b, c1, rest, f2, k2, over2, rfl, ?_, hc1, ?_⟩
      · intro x hx
        rcases List.mem_cons.1 hx with rfl | hx
        · exact hc
        · exact hb x hx
      · simpa using hrun
    · exact ⟨[], c, cs, f, k, over, rfl, by simp, by simpa using hc, by simpa using h⟩

theorem closeGroup_some (rt : Runtime) (d v f k : Nat) (u : List Char) (r : Nat)
    (h : closeGroup rt d v f k u = some r) : (unitMap u).isSome = true := by
  unfold closeGroup at h
  cases hu : unitMap u with
  | none => rw [hu] at h; cases h
  | some x => rfl

theorem durLoop_unit_run (rt : Runtime) (cs : List Char) :
    ∀ (d v f k : Nat) (u : List Char) (r : Nat),
      durLoop rt d (.unit v f k u) cs = some r →
      ∃ (w rest : List Char), cs = w ++ rest ∧ (∀ x ∈ w, numberChar x = false) ∧
        (unitMap (u ++ w)).isSome = true ∧ Continues rt rest r := by
  induction cs with
  | nil =>
    intro d v f k u r h
    simp only [durLoop] at h
    exact ⟨[], [], rfl, by simp, by simpa using closeGroup_some rt d v f k u r h, Or.inl rfl⟩
  | cons c cs ih =>
    intro d v f k u r h
    by_cases hc : numberChar c = true
    · have hc1 : (isDigit c || decide (c = '.')) = true := hc
      simp only [durLoop, hc1, if_true] at h
      cases hg : closeGroup rt d v f k u with
      | none => rw [hg] at h; cases h
      | some d1 =>
        rw [hg] at h
        cases ho : openGroup c with
        | none => rw [ho] at h; cases h
        | some ph =>
          rw [ho] at h
          exact ⟨[], c :: cs, rfl, by simp, by simpa using closeGroup_some rt d v f k u d1 hg,
            Or.inr ⟨c, cs, d1, ph, rfl, ho, h⟩⟩
    · have hc1 : (isDigit c || decide (c = '.')) = false := by
        simpa [numberChar] using hc
      simp only [durLoop, hc1, Bool.false_eq_true, if_false] at h
      obtain ⟨w, rest, rfl, hw, hu, hcont⟩ := ih _ _ _ _ _ _ h
      refine ⟨c :: w, rest, rfl, ?_, by simpa using hu, hcont⟩
      intro x hx
      rcases List.mem_cons.1 hx with rfl | hx
      · simpa using hc
      · exact hw x hx

theorem isNumber_ne_nil (n : List Char) (h : isNumber n = true) : n ≠ [] := by
  intro hn
  subst hn
  simp [isNumber] at h

theorem isNumber_chars (n : List Char) (h : isNumber n = true) :
    ∀ c ∈ n, numberChar c = true := by
  simp only [isNumber, Bool.and_eq_true, List.all_eq_true] at h
  exact h.1.1

/-- One group of an accepted text: a number, a unit name, and what follows. -/
theorem durLoop_group (rt : Runtime) (c : Char) (cs : List Char) (d : Nat) (ph : DurPhase)
    (r : Nat) (ho : openGroup c = some ph) (h : durLoop rt d ph cs = some r) :
    ∃ (n u rest : List Char), c :: cs = n ++ u ++ rest ∧ isNumber n = true ∧
      (unitMap u).isSome = true ∧ Continues rt rest r := by
  unfold openGroup at ho
  by_cases hc : isDigit c = true
  · rw [if_pos hc] at ho
    cases ho
    obtain ⟨a, c2, rest2, v1, rfl, ha, hc2, hrun⟩ := durLoop_int_run rt cs _ _ _ h
    have hca : ∀ x ∈ c :: a, isDigit x = true := by
      intro x hx
      rcases List.mem_cons.1 hx with rfl | hx
      · exact hc
      · exact ha x hx
    by_cases hp : c2 = '.'
    · subst hp
      simp only [durLoop, hc2, Bool.false_eq_true, if_false, if_true] at hrun
      obtain ⟨b, c3, rest3, f1, k1, over1, rfl, hb, hc3, hrun3⟩ :=
        durLoop_frac_run rt rest2 _ _ _ _ _ _ _ _ hrun
      simp only [durLoop, hc3, Bool.false_eq_true, if_false, Bool.not_true, Bool.false_and]
        at hrun3
      split_ifs at hrun3 with hp3
      obtain ⟨w, rest4, rfl, hw, hu, hcont⟩ := durLoop_unit_run rt rest3 _ _ _ _ _ _ hrun3
      refine ⟨c :: a ++ '.' :: b, c3 :: w, rest4, by simp, ?_, by simpa using hu, hcont⟩
      exact isNumber_frac (c :: a) b hca hb (Or.inl (by simp))
    · simp only [durLoop, hc2, Bool.false_eq_true, if_false, hp] at hrun
      obtain ⟨w, rest4, rfl, hw, hu, hcont⟩ := durLoop_unit_run rt rest2 _ _ _ _ _ _ hrun
      refine ⟨c :: a, c2 :: w, rest4, by simp, ?_, by simpa using hu, hcont⟩
      exact isNumber_int (c :: a) hca (by simp)
  · rw [if_neg hc] at ho
    split_ifs at ho with hp
    cases ho
    subst hp
    obtain ⟨b, c3, rest3, f1, k1, over1, rfl, hb, hc3, hrun3⟩ :=
      durLoop_frac_run rt cs _ _ _ _ _ _ _ _ h
    simp only [durLoop, hc3, Bool.false_eq_true, if_false, Bool.not_false, Bool.true_and,
      Bool.false_or] at hrun3
    split_ifs at hrun3 with hpost hp3
    obtain ⟨w, rest4, rfl, hw, hu, hcont⟩ := durLoop_unit_run rt rest3 _ _ _ _ _ _ hrun3
    refine ⟨'.' :: b, c3 :: w, rest4, by simp, ?_, by simpa using hu, hcont⟩
    have hb0 : b ≠ [] := by
      intro hb0
      subst hb0
      simp at hpost
    exact isNumber_frac [] b (by simp) hb (Or.inr hb0)

/-- An accepted text is a sequence of groups. -/
theorem durLoop_groups (rt : Runtime) :
    ∀ (m : Nat) (c : Char) (cs : List Char) (d : Nat) (ph : DurPhase) (r : Nat),
      cs.length ≤ m → openGroup c = some ph → durLoop rt d ph cs = some r →
      ∃ gs : List (List Char × List Char),
        (∀ g ∈ gs, isGroup g = true) ∧ c :: cs = groupsText gs := by
  intro m
  induction m with
  | zero =>
    intro c cs d ph r hm ho h
    obtain ⟨n, u, rest, heq, hn, hu, hcont⟩ := durLoop_group rt c cs d ph r ho h
    have hcs : cs = [] := List.length_eq_zero.1 (Nat.le_zero.1 hm)
    subst hcs
    have hn0 := isNumber_ne_nil n hn
    have hlen := congrArg List.length heq
    simp only [List.length_cons, List.length_nil, List.length_append] at hlen
    have hnl : 0 < n.length := List.length_pos.2 hn0
    have hul : 0 < u.length := by
      apply List.length_pos.2
      intro hu0
      subst hu0
      revert hu
      decide
    omega
  | succ m ih =>
    intro c cs d ph r hm ho h
    obtain ⟨n, u, rest, heq, hn, hu, hcont⟩ := durLoop_group rt c cs d ph r ho h
    rcases hcont with hrest | ⟨c1, cs1, d1, ph1, hrest, ho1, h1⟩
    · subst hrest
      refine ⟨[(n, u)], ?_, ?_⟩
      · intro g hg
        rw [List.mem_singleton.1 hg]
        simp [isGroup, hn, hu]
      · simpa [groupsText] using heq
    · subst hrest
      have hn0 := isNumber_ne_nil n hn
      have hnl : 0 < n.length := List.length_pos.2 hn0
      have hlen := congrArg List.length heq
      simp only [List.length_cons, List.length_append] at hlen
      obtain ⟨gs, hgs, hgt⟩ := ih c1 cs1 d1 ph1 r (by omega) ho1 h1
      refine ⟨(n, u) :: gs, ?_, ?_⟩
      · intro g hg
        rcases List.mem_cons.1 hg with rfl | hg
        · simp [isGroup, hn, hu]
        · exact hgs g hg
      · rw [heq, hgt]
        simp [groupsText]

/-! ### The parts of an accepted text -/

theorem unitMap_names (u : List Char) (h : (unitMap u).isSome = true) :
    u = ['n', 's'] ∨ u = ['u', 's'] ∨ u = ['µ', 's'] ∨ u = ['μ', 's'] ∨ u = ['m', 's'] ∨
      u = ['s'] ∨ u = ['m'] ∨ u = ['h'] := by
  unfold unitMap at h
  split_ifs at h with h1 h2 h3 h4 h5 h6 h7 h8
  · exact Or.inl h1
  · exact Or.inr (Or.inl h2)
  · exact Or.inr (Or.inr (Or.inl h3))
  · exact Or.inr (Or.inr (Or.inr (Or.inl h4)))
  · exact Or.inr (Or.inr (Or.inr (Or.inr (Or.inl h5))))
  · exact Or.inr (Or.inr (Or.inr (Or.inr (Or.inr (Or.inl h6)))))
  · exact Or.inr (Or.inr (Or.inr (Or.inr (Or.inr (Or.inr (Or.inl h7))))))
  · exact Or.inr (Or.inr (Or.inr (Or.inr (Or.inr (Or.inr (Or.inr h8))))))
  · cases h

theorem unitMap_chars (u : List Char) (h : (unitMap u).isSome = true) :
    ∀ c ∈ u, numberChar c = false := by
  rcases unitMap_names u h with h | h | h | h | h | h | h | h <;> subst h <;> decide

theorem unitMap_ne_nil (u : List Char) (h : (unitMap u).isSome = true) : u ≠ [] := by
  rcases unitMap_names u h with h | h | h | h | h | h | h | h <;> subst h <;> decide

/-- The only unit name with an `h` in it is "h". -/
theorem unitMap_with_h (a c : List Char) (h : (unitMap (a ++ 'h' :: c)).isSome = true) :
    a = [] ∧ c = [] := by
  have hmem : 'h' ∈ a ++ 'h' :: c := by simp
  rcases unitMap_names _ h with h | h | h | h | h | h | h | h
  all_goals first
    | (exfalso; rw [h] at hmem; revert hmem; decide)
    | (have hl := congrArg List.length h
       simp only [List.length_append, List.length_cons, List.length_nil] at hl
       exact ⟨List.length_eq_zero.1 (by omega), List.length_eq_zero.1 (by omega)⟩)

/-- The only unit name that ends in `m` is "m". -/
theorem unitMap_ends_m (a : List Char) (h : (unitMap (a ++ ['m'])).isSome = true) : a = [] := by
  have hlast : (a ++ ['m']).getLast? = some 'm' := by simp
  rcases unitMap_names _ h with h | h | h | h | h | h | h | h
  all_goals first
    | (exfalso; rw [h] at hlast; revert hlast; decide)
    | (have hl := congrArg List.length h
       simp only [List.length_append, List.length_cons, List.length_nil] at hl
       exact List.length_eq_zero.1 (by omega))

theorem groupsText_cons (g : List Char × List Char) (gs : List (List Char × List Char)) :
    groupsText (g :: gs) = g.1 ++ g.2 ++ groupsText gs := by
  simp [groupsText]

theorem groupsText_append (gs hs : List (List Char × List Char)) :
    groupsText (gs ++ hs) = groupsText gs ++ groupsText hs := by
  simp [groupsText]

theorem isDurationNumber_cons (g : List Char × List Char) (p : List Char)
    (hg : isGroup g = true) (hp : IsDurationNumber p) : IsDurationNumber (g.1 ++ g.2 ++ p) := by
  obtain ⟨gs, n, hgs, hn, rfl⟩ := hp
  refine ⟨g :: gs, n, ?_, hn, ?_⟩
  · intro x hx
    rcases List.mem_cons.1 hx with rfl | hx
    · exact hg
    · exact hgs x hx
  · rw [groupsText_cons]
    simp

/-- The part before the `h` that closes the first part of a sequence of groups. -/
theorem groups_before_h (gs : List (List Char × List Char)) :
    ∀ (x t : List Char), (∀ g ∈ gs, isGroup g = true) → groupsText gs = x ++ 'h' :: t →
      IsDurationNumber x ∧
        ∃ hs : List (List Char × List Char), (∀ g ∈ hs, isGroup g = true) ∧ t = groupsText hs := by
  induction gs with
  | nil =>
    intro x t _ h
    simp [groupsText] at h
  | cons g gs ih =>
    intro x t hgs h
    have hg : isGroup g = true := hgs g (List.mem_cons_self _ _)
    have hgs1 : ∀ y ∈ gs, isGroup y = true := fun y hy => hgs y (List.mem_cons_of_mem _ hy)
    have hg1 : isNumber g.1 = true := by
      simp only [isGroup, Bool.and_eq_true] at hg; exact hg.1
    have hg2 : (unitMap g.2).isSome = true := by
      simp only [isGroup, Bool.and_eq_true] at hg; exact hg.2
    rw [groupsText_cons] at h
    rcases List.append_eq_append_iff.1 h with ⟨a1, hx, ht⟩ | ⟨c1, hgx, ht⟩
    · -- the group ends inside `x`
      obtain ⟨hxa, hs, hhs, hths⟩ := ih a1 t hgs1 ht
      refine ⟨?_, hs, hhs, hths⟩
      rw [hx]
      exact isDurationNumber_cons g a1 hg hxa
    · cases c1 with
      | nil =>
        simp only [List.nil_append] at ht
        simp only [List.append_nil] at hgx
        obtain ⟨hxa, hs, hhs, hths⟩ := ih [] t hgs1 (by simpa using ht.symm)
        refine ⟨?_, hs, hhs, hths⟩
        have := isDurationNumber_cons g [] hg hxa
        rw [← hgx]
        simpa using this
      | cons ch c2 =>
        simp only [List.cons_append, List.cons.injEq] at ht
        obtain ⟨hch, ht2⟩ := ht
        subst hch
        -- `g.1 ++ g.2 = x ++ 'h' :: c2`
        rcases List.append_eq_append_iff.1 hgx with ⟨a3, hx3, hg3⟩ | ⟨c3, hg13, hc3⟩
        · -- `x = g.1 ++ a3`, `g.2 = a3 ++ 'h' :: c2`
          rw [hg3] at hg2
          obtain ⟨ha3, hc2⟩ := unitMap_with_h a3 c2 hg2
          subst ha3 hc2
          simp only [List.append_nil] at hx3
          simp only [List.nil_append] at ht2
          refine ⟨⟨[], g.1, by simp, hg1, by simp [groupsText, hx3]⟩, gs, hgs1, ht2⟩
        · cases c3 with
          | nil =>
            simp only [List.append_nil] at hg13
            simp only [List.nil_append] at hc3
            have hg2' : (unitMap ([] ++ 'h' :: c2)).isSome = true := by
              simpa [hc3] using hg2
            obtain ⟨_, hc2⟩ := unitMap_with_h [] c2 hg2'
            subst hc2
            simp only [List.nil_append] at ht2
            refine ⟨⟨[], g.1, by simp, hg1, by simp [groupsText, hg13]⟩, gs, hgs1, ht2⟩
          | cons ch3 c4 =>
            simp only [List.cons_append, List.cons.injEq] at hc3
            exfalso
            have hmem : 'h' ∈ g.1 := by
              rw [hg13, ← hc3.1]
              simp
            have := isNumber_chars g.1 hg1 'h' hmem
            revert this
            decide

/-- The part before the `m` that closes a sequence of groups. -/
theorem groups_before_m (gs : List (List Char × List Char)) (y : List Char)
    (hgs : ∀ g ∈ gs, isGroup g = true) (h : groupsText gs = y ++ ['m']) :
    IsDurationNumber y := by
  rcases List.eq_nil_or_concat gs with hnil | ⟨init, g, hgs0⟩
  · subst hnil
    simp [groupsText] at h
  · rw [List.concat_eq_append] at hgs0
    subst hgs0
    have hg : isGroup g = true := hgs g (by simp)
    have hg1 : isNumber g.1 = true := by
      simp only [isGroup, Bool.and_eq_true] at hg; exact hg.1
    have hg2 : (unitMap g.2).isSome = true := by
      simp only [isGroup, Bool.and_eq_true] at hg; exact hg.2
    rcases List.eq_nil_or_concat g.2 with hu | ⟨u1, z, hu⟩
    · exact absurd hu (unitMap_ne_nil g.2 hg2)
    · rw [List.concat_eq_append] at hu
      rw [groupsText_append, groupsText_cons] at h
      simp only [groupsText, List.map_nil, List.flatten_nil, List.append_nil] at h
      rw [hu] at h hg2
      have h2 : (List.flatten (List.map (fun g => g.1 ++ g.2) init) ++ g.1 ++ u1) ++ [z] =
          y ++ ['m'] := by
        simpa [List.append_assoc] using h
      have h3 := List.append_inj' h2 rfl
      have hz : z = 'm' := by simpa using h3.2
      subst hz
      have hu1 := unitMap_ends_m u1 hg2
      subst hu1
      refine ⟨init, g.1, fun x hx => hgs x (by simp [hx]), hg1, ?_⟩
      rw [← h3.1]
      simp [groupsText]

/-- A text `p0 ++ "h" ++ p1 ++ "m"` that `time.ParseDuration` accepts is made of
two duration numbers (the first after its sign). -/
theorem ParseDuration_parts (rt : Runtime) (p0 p1 : List Char) (d : Int)
    (h : ParseDuration rt (p0 ++ ['h'] ++ p1 ++ ['m']) = some d) :
    IsDurationNumber (stripSign p0) ∧ IsDurationNumber p1 := by
  have hbody : stripSign (p0 ++ ['h'] ++ p1 ++ ['m']) = stripSign p0 ++ 'h' :: (p1 ++ ['m']) := by
    have : p0 ++ ['h'] ++ p1 ++ ['m'] = p0 ++ 'h' :: (p1 ++ ['m']) := by simp
    rw [this, stripSign_compose]
  have h0 : stripSign p0 ++ 'h' :: (p1 ++ ['m']) ≠ ['0'] := by
    intro h0
    have hl := congrArg List.length h0
    simp only [List.length_append, List.length_cons, List.length_nil] at hl
    omega
  unfold ParseDuration at h
  simp only [hbody] at h
  rw [if_neg h0] at h
  · cases hb : stripSign p0 ++ 'h' :: (p1 ++ ['m']) with
    | nil => simp at hb
    | cons c cs =>
      rw [hb] at h
      simp only at h
      cases ho : openGroup c with
      | none => rw [ho] at h; cases h
      | some ph =>
        rw [ho] at h
        simp only at h
        cases hr : durLoop rt 0 ph cs with
        | none => rw [hr] at h; cases h
        | some r =>
          obtain ⟨gs, hgs, hgt⟩ := durLoop_groups rt cs.length c cs 0 ph r (Nat.le_refl _) ho hr
          rw [← hb] at hgt
          obtain ⟨hx, hs, hhs, ht⟩ := groups_before_h gs (stripSign p0) (p1 ++ ['m']) hgs hgt.symm
          exact ⟨hx, groups_before_m hs p1 hhs ht.symm⟩

/-! ### A test for duration numbers -/

theorem durationNumber_sound (fuel : Nat) :
    ∀ p : List Char, durationNumber fuel p = true → IsDurationNumber p := by
  induction fuel with
  | zero => intro p h; simp [durationNumber] at h
  | succ fuel ih =>
    intro p h
    simp only [durationNumber, Bool.and_eq_true, Bool.or_eq_true] at h
    obtain ⟨hn, hrest⟩ := h
    have hp : p = p.takeWhile numberChar ++ p.dropWhile numberChar :=
      (List.takeWhile_append_dropWhile _ _).symm
    rcases hrest with hr | ⟨hu, hrec⟩
    · have hr0 : p.dropWhile numberChar = [] := by simpa using hr
      rw [hr0, List.append_nil] at hp
      exact ⟨[], p.takeWhile numberChar, by simp, hn, by simpa [groupsText] using hp⟩
    · have hr : p.dropWhile numberChar =
          (p.dropWhile numberChar).takeWhile (fun c => !numberChar c) ++
            (p.dropWhile numberChar).dropWhile (fun c => !numberChar c) :=
        (List.takeWhile_append_dropWhile _ _).symm
      have := isDurationNumber_cons
        (p.takeWhile numberChar, (p.dropWhile numberChar).takeWhile (fun c => !numberChar c))
        _ (by simp [isGroup, hn, hu]) (ih _ hrec)
      simp only [List.append_assoc] at this
      rw [← hr, ← hp] at this
      exact this

theorem isDurationNumber_head (gs : List (List Char × List Char)) (n : List Char)
    (hgs : ∀ g ∈ gs, isGroup g = true) (hn : isNumber n = true) :
    ∃ c rest, groupsText gs ++ n = c :: rest ∧ numberChar c = true := by
  cases gs with
  | nil =>
    obtain ⟨c, rest, rfl⟩ := List.exists_cons_of_ne_nil (isNumber_ne_nil n hn)
    exact ⟨c, rest, by simp [groupsText], isNumber_chars _ hn c (by simp)⟩
  | cons g gs =>
    have hg : isGroup g = true := hgs g (List.mem_cons_self _ _)
    have hg1 : isNumber g.1 = true := by
      simp only [isGroup, Bool.and_eq_true] at hg; exact hg.1
    obtain ⟨c, rest, hc⟩ := List.exists_cons_of_ne_nil (isNumber_ne_nil g.1 hg1)
    refine ⟨c, rest ++ g.2 ++ groupsText gs ++ n, ?_, isNumber_chars _ hg1 c (by simp [hc])⟩
    rw [groupsText_cons, hc]
    simp

theorem durationNumber_complete (gs : List (List Char × List Char)) :
    ∀ (n p : List Char) (fuel : Nat), (∀ g ∈ gs, isGroup g = true) → isNumber n = true →
      p = groupsText gs ++ n → p.length ≤ fuel → durationNumber fuel p = true := by
  induction gs with
  | nil =>
    intro n p fuel _ hn hp hlen
    simp only [groupsText, List.map_nil, List.flatten_nil, List.nil_append] at hp
    subst hp
    have h0 : 0 < p.length := List.length_pos.2 (isNumber_ne_nil p hn)
    obtain ⟨fuel, rfl⟩ : ∃ f, fuel = f + 1 := ⟨fuel - 1, by omega⟩
    have ht : p.takeWhile numberChar = p :=
      List.takeWhile_eq_self_iff.2 (fun c hc => isNumber_chars p hn c hc)
    have hd : p.dropWhile numberChar = [] :=
      List.dropWhile_eq_nil_iff.2 (fun c hc => isNumber_chars p hn c hc)
    simp [durationNumber, ht, hd, hn]
  | cons g gs ih =>
    intro n p fuel hgs hn hp hlen
    have hg : isGroup g = true := hgs g (List.mem_cons_self _ _)
    have hgs1 : ∀ y ∈ gs, isGroup y = true := fun y hy => hgs y (List.mem_cons_of_mem _ hy)
    have hg1 : isNumber g.1 = true := by
      simp only [isGroup, Bool.and_eq_true] at hg; exact hg.1
    have hg2 : (unitMap g.2).isSome = true := by
      simp only [isGroup, Bool.and_eq_true] at hg; exact hg.2
    obtain ⟨u0, u1, hu⟩ := List.exists_cons_of_ne_nil (unitMap_ne_nil g.2 hg2)
    have hu0 : numberChar u0 = false := unitMap_chars g.2 hg2 u0 (by simp [hu])
    obtain ⟨c, rest, hc, hcn⟩ := isDurationNumber_head gs n hgs1 hn
    have h0 : 0 < g.1.length := List.length_pos.2 (isNumber_ne_nil g.1 hg1)
    have hp1 : p = g.1 ++ (g.2 ++ (groupsText gs ++ n)) := by
      rw [hp, groupsText_cons]; simp
    have ht : p.takeWhile numberChar = g.1 := by
      rw [hp1, List.takeWhile_append_of_pos (fun c hc => isNumber_chars g.1 hg1 c hc), hu]
      simp [List.takeWhile_cons, hu0]
    have hd : p.dropWhile numberChar = g.2 ++ (groupsText gs ++ n) := by
      rw [hp1, List.dropWhile_append_of_pos (fun c hc => isNumber_chars g.1 hg1 c hc), hu]
      simp [List.dropWhile_cons, hu0]
    have ht2 : (g.2 ++ (groupsText gs ++ n)).takeWhile (fun c => !numberChar c) = g.2 := by
      rw [List.takeWhile_append_of_pos (fun c hc => by simp [unitMap_chars g.2 hg2 c hc]), hc]
      simp [List.takeWhile_cons, hcn]
    have hd2 : (g.2 ++ (groupsText gs ++ n)).dropWhile (fun c => !numberChar c) =
        groupsText gs ++ n := by
      rw [List.dropWhile_append_of_pos (fun c hc => by simp [unitMap_chars g.2 hg2 c hc]), hc]
      simp [List.dropWhile_cons, hcn]
    have hlen1 := congrArg List.length hp1
    simp only [List.length_append] at hlen1
    obtain ⟨fuel, rfl⟩ : ∃ f, fuel = f + 1 := ⟨fuel - 1, by omega⟩
    have hrec := ih n (groupsText gs ++ n) fuel hgs1 hn rfl
      (by simp only [List.length_append]; omega)
    simp only [durationNumber, ht, hd, ht2, hd2, hg1, hg2, hrec, Bool.and_true, Bool.or_true]

/-- The test decides the duration numbers. -/
theorem durationNumber_iff (p : List Char) :
    durationNumber p.length p = true ↔ IsDurationNumber p := by
  constructor
  · exact durationNumber_sound _ p
  · rintro ⟨gs, n, hgs, hn, hp⟩
    exact durationNumber_complete gs n p p.length hgs hn hp (Nat.le_refl _)

/-! ### The fraction in float64 -/

theorem roundAt_le (p q : Nat) (s : Int) (hq : 0 < q) :
    roundAt p q s * (q * 2 ^ (-s).toNat) ≤ 2 * (p * 2 ^ s.toNat) := by
  unfold roundAt
  generalize p * 2 ^ s.toNat = num
  generalize hden : q * 2 ^ (-s).toNat = den
  have hd : 0 < den := by
    rw [← hden]
    positivity
  have h := Nat.div_add_mod num den
  simp only
  generalize num / den = m at h ⊢
  generalize num % den = r at h ⊢
  split_ifs with hc
  · have h2 : den ≤ 2 * r := by
      rcases hc with hc | hc
      · omega
      · omega
    have h3 : (m + 1) * den = den * m + den := by ring
    have h4 := Nat.zero_le (den * m)
    rw [h3]
    linarith
  · have h3 : m * den = den * m := by ring
    rw [h3]
    linarith

theorem roundFloat64_le (p q : Nat) (x : Nat × Nat) (hq : 0 < q)
    (h : roundFloat64 p q = some x) : x.1 * q ≤ 2 * p * 2 ^ x.2 := by
  unfold roundFloat64 at h
  split_ifs at h with h0
  · cases h
    simp
  · simp only at h
    split_ifs at h with h1
    simp only [Option.some.injEq] at h
    subst h
    have := roundAt_le p q (roundShift p q) hq
    simp only
    calc roundAt p q (roundShift p q) * 2 ^ (-roundShift p q).toNat * q
        = roundAt p q (roundShift p q) * (q * 2 ^ (-roundShift p q).toNat) := by ring
      _ ≤ 2 * (p * 2 ^ (roundShift p q).toNat) := this
      _ = 2 * p * 2 ^ (roundShift p q).toNat := by ring

set_option maxRecDepth 100000 in
theorem scaleFloat64_small : ∀ k < 6,
    (match scaleFloat64 k with
     | some s => decide (s.1 = 10 ^ k * 2 ^ s.2)
     | none => false) = true := by
  decide

theorem fractionNanos_le (f k unit : Nat) (hk : k < 6) (hf : f < 10 ^ k) :
    fractionNanos f k unit ≤ 16 * unit := by
  unfold fractionNanos
  have hs := scaleFloat64_small k hk
  cases ha : roundFloat64 f 1 with
  | none => simp
  | some a =>
    cases hu : roundFloat64 unit 1 with
    | none => simp
    | some u =>
      cases hsc : scaleFloat64 k with
      | none => simp
      | some s =>
        rw [hsc] at hs
        simp only [decide_eq_true_eq] at hs
        simp only
        have hs0 : 0 < s.1 * 2 ^ u.2 := by
          rw [hs]
          positivity
        cases hq : roundFloat64 (u.1 * 2 ^ s.2) (s.1 * 2 ^ u.2) with
        | none => simp
        | some q =>
          simp only
          cases hr : roundFloat64 (a.1 * q.1) (2 ^ (a.2 + q.2)) with
          | none => simp
          | some r =>
            simp only
            have ea := roundFloat64_le f 1 a (by norm_num) ha
            have eu := roundFloat64_le unit 1 u (by norm_num) hu
            have eq := roundFloat64_le _ _ q hs0 hq
            have er := roundFloat64_le _ _ r (by positivity) hr
            rw [hs] at eq
            rw [Nat.mul_one] at ea eu
            apply Nat.div_le_of_le_mul
            -- all quantities as reals
            have A : (a.1 : ℝ) ≤ 2 * f * 2 ^ a.2 := by exact_mod_cast ea
            have U : (u.1 : ℝ) ≤ 2 * unit * 2 ^ u.2 := by exact_mod_cast eu
            have Q : (q.1 : ℝ) * (10 ^ k * 2 ^ s.2 * 2 ^ u.2) ≤ 2 * (u.1 * 2 ^ s.2) * 2 ^ q.2 := by
              exact_mod_cast eq
            have R : (r.1 : ℝ) * 2 ^ (a.2 + q.2) ≤ 2 * (a.1 * q.1) * 2 ^ r.2 := by
              exact_mod_cast er
            have F : (f : ℝ) ≤ 10 ^ k := by exact_mod_cast hf.le
            have goal : (r.1 : ℝ) ≤ 2 ^ r.2 * (16 * unit) := by
              have p1 : (0 : ℝ) < 2 ^ s.2 := by positivity
              have p2 : (0 : ℝ) < 2 ^ u.2 := by positivity
              have p3 : (0 : ℝ) < 2 ^ q.2 := by positivity
              have p4 : (0 : ℝ) < 2 ^ a.2 := by positivity
              have p5 : (0 : ℝ) < 10 ^ k := by positivity
              have p6 : (0 : ℝ) < 2 ^ r.2 := by positivity
              have hq1 : (q.1 : ℝ) * 10 ^ k ≤ 4 * unit * 2 ^ q.2 := by
                have : (q.1 : ℝ) * 10 ^ k * (2 ^ s.2 * 2 ^ u.2) ≤
                    4 * unit * 2 ^ q.2 * (2 ^ s.2 * 2 ^ u.2) := by
                  calc (q.1 : ℝ) * 10 ^ k * (2 ^ s.2 * 2 ^ u.2)
                      = q.1 * (10 ^ k * 2 ^ s.2 * 2 ^ u.2) := by ring
                    _ ≤ 2 * (u.1 * 2 ^ s.2) * 2 ^ q.2 := Q
                    _ ≤ 2 * ((2 * unit * 2 ^ u.2) * 2 ^ s.2) * 2 ^ q.2 := by gcongr
                    _ = 4 * unit * 2 ^ q.2 * (2 ^ s.2 * 2 ^ u.2) := by ring
                exact le_of_mul_le_mul_right this (by positivity)
              have hr1 : (r.1 : ℝ) * 2 ^ q.2 ≤ 4 * f * q.1 * 2 ^ r.2 := by
                have : (r.1 : ℝ) * 2 ^ q.2 * 2 ^ a.2 ≤ 4 * f * q.1 * 2 ^ r.2 * 2 ^ a.2 := by
                  calc (r.1 : ℝ) * 2 ^ q.2 * 2 ^ a.2 = r.1 * 2 ^ (a.2 + q.2) := by
                        rw [pow_add]; ring
                    _ ≤ 2 * (a.1 * q.1) * 2 ^ r.2 := R
                    _ ≤ 2 * ((2 * f * 2 ^ a.2) * q.1) * 2 ^ r.2 := by gcongr
                    _ = 4 * f * q.1 * 2 ^ r.2 * 2 ^ a.2 := by ring
                exact le_of_mul_le_mul_right this p4
              have : (r.1 : ℝ) * (2 ^ q.2 * 10 ^ k) ≤ 2 ^ r.2 * (16 * unit) * (2 ^ q.2 * 10 ^ k) := by
                calc (r.1 : ℝ) * (2 ^ q.2 * 10 ^ k) = (r.1 * 2 ^ q.2) * 10 ^ k := by ring
                  _ ≤ (4 * f * q.1 * 2 ^ r.2) * 10 ^ k := by gcongr
                  _ = 4 * f * 2 ^ r.2 * (q.1 * 10 ^ k) := by ring
                  _ ≤ 4 * f * 2 ^ r.2 * (4 * unit * 2 ^ q.2) := by gcongr
                  _ = 16 * unit * 2 ^ r.2 * 2 ^ q.2 * f := by ring
                  _ ≤ 16 * unit * 2 ^ r.2 * 2 ^ q.2 * 10 ^ k := by gcongr
                  _ = 2 ^ r.2 * (16 * unit) * (2 ^ q.2 * 10 ^ k) := by ring
              exact le_of_mul_le_mul_right this (by positivity)
            exact_mod_cast goal

/-! ### Duration numbers are accepted -/

theorem digitVal_le (c : Char) (h : isDigit c = true) : digitVal c ≤ 9 := by
  simp only [isDigit, Bool.and_eq_true, decide_eq_true_eq] at h
  unfold digitVal
  have h1 : '0'.toNat = 48 := by decide
  have h2 : '9'.toNat = 57 := by decide
  omega

theorem isNumber_cases (n : List Char) (h : isNumber n = true) :
    ∃ a b : List Char, (∀ c ∈ a, isDigit c = true) ∧ (∀ c ∈ b, isDigit c = true) ∧
      ((n = a ∧ a ≠ []) ∨ (n = a ++ '.' :: b ∧ (a ≠ [] ∨ b ≠ []))) := by
  simp only [isNumber, Bool.and_eq_true, List.all_eq_true, decide_eq_true_eq,
    List.any_eq_true] at h
  obtain ⟨⟨hall, hcount⟩, c0, hc0, hd0⟩ := h
  have hdig : ∀ c ∈ n, c ≠ '.' → isDigit c = true := by
    intro c hc hne
    have := hall c hc
    simp only [numberChar, Bool.or_eq_true, decide_eq_true_eq] at this
    rcases this with h | h
    · exact h
    · exact absurd h hne
  by_cases hp : '.' ∈ n
  · obtain ⟨a, b, rfl⟩ := List.append_of_mem hp
    rw [List.count_append, List.count_cons_self] at hcount
    have ha0 : a.count '.' = 0 := by omega
    have hb0 : b.count '.' = 0 := by omega
    rw [List.count_eq_zero] at ha0 hb0
    have ha : ∀ c ∈ a, isDigit c = true := fun c hc =>
      hdig c (by simp [hc]) (fun h => ha0 (h ▸ hc))
    have hb : ∀ c ∈ b, isDigit c = true := fun c hc =>
      hdig c (by simp [hc]) (fun h => hb0 (h ▸ hc))
    refine ⟨a, b, ha, hb, Or.inr ⟨rfl, ?_⟩⟩
    simp only [List.mem_append, List.mem_cons] at hc0
    rcases hc0 with h | h | h
    · exact Or.inl (List.ne_nil_of_mem h)
    · exact absurd hd0 (by rw [h]; decide)
    · exact Or.inr (List.ne_nil_of_mem h)
  · refine ⟨n, [], fun c hc => hdig c hc (fun h => hp (h ▸ hc)), by simp,
      Or.inl ⟨rfl, List.ne_nil_of_mem hc0⟩⟩

theorem countP_digits (a : List Char) (ha : ∀ c ∈ a, isDigit c = true) :
    a.countP isDigit = a.length := by
  rw [List.countP_eq_length]
  exact ha

theorem durLoop_int_digits (rt : Runtime) (a : List Char) (ha : ∀ c ∈ a, isDigit c = true) :
    ∀ (d v j : Nat) (rest : List Char), v < 10 ^ j → j + a.length ≤ 5 →
      ∃ v1, v1 < 10 ^ (j + a.length) ∧
        durLoop rt d (.int v) (a ++ rest) = durLoop rt d (.int v1) rest := by
  induction a with
  | nil => intro d v j rest hv _; exact ⟨v, by simpa using hv, rfl⟩
  | cons c a ih =>
    intro d v j rest hv hj
    have hc : isDigit c = true := ha c (List.mem_cons_self _ _)
    have hdv := digitVal_le c hc
    simp only [List.length_cons] at hj
    have hpow : 10 ^ j ≤ 10 ^ 5 := Nat.pow_le_pow_right (by norm_num) (by omega)
    have hpow5 : (10 : Nat) ^ 5 = 100000 := by norm_num
    have hnext : v * 10 + digitVal c < 10 ^ (j + 1) := by
      rw [pow_succ]; omega
    obtain ⟨v1, hv1, hrun⟩ := ih (fun x hx => ha x (List.mem_cons_of_mem _ hx)) d
      (v * 10 + digitVal c) (j + 1) rest hnext (by omega)
    refine ⟨v1, ?_, ?_⟩
    · have : j + (c :: a).length = j + 1 + a.length := by simp; omega
      rw [this]; exact hv1
    · have h1 : ¬ v > 2 ^ 63 / 10 := by omega
      have h2 : ¬ v * 10 + digitVal c > 2 ^ 63 := by omega
      show durLoop rt d (.int v) (c :: (a ++ rest)) = _
      rw [← hrun]
      simp only [durLoop, hc, if_true, h1, h2, if_false]

theorem durLoop_frac_digits (rt : Runtime) (b : List Char) (hb : ∀ c ∈ b, isDigit c = true) :
    ∀ (d v : Nat) (pre : Bool) (f k : Nat) (post : Bool) (rest : List Char),
      f < 10 ^ k → k + b.length ≤ 5 →
      ∃ f1, f1 < 10 ^ (k + b.length) ∧
        durLoop rt d (.frac v pre f k false post) (b ++ rest) =
          durLoop rt d (.frac v pre f1 (k + b.length) false (post || !b.isEmpty)) rest := by
  induction b with
  | nil => intro d v pre f k post rest hf _; exact ⟨f, by simpa using hf, by simp⟩
  | cons c b ih =>
    intro d v pre f k post rest hf hk
    have hc : isDigit c = true := hb c (List.mem_cons_self _ _)
    have hdv := digitVal_le c hc
    simp only [List.length_cons] at hk
    have hpow : 10 ^ k ≤ 10 ^ 5 := Nat.pow_le_pow_right (by norm_num) (by omega)
    have hpow5 : (10 : Nat) ^ 5 = 100000 := by norm_num
    have hnext : f * 10 + digitVal c < 10 ^ (k + 1) := by
      rw [pow_succ]; omega
    obtain ⟨f1, hf1, hrun⟩ := ih (fun x hx => hb x (List.mem_cons_of_mem _ hx)) d v pre
      (f * 10 + digitVal c) (k + 1) true rest hnext (by omega)
    have hlen : k + (c :: b).length = k + 1 + b.length := by simp; omega
    refine ⟨f1, ?_, ?_⟩
    · rw [hlen]; exact hf1
    · rw [hlen]
      have h1 : ¬ f > (2 ^ 63 - 1) / 10 := by omega
      have h2 : ¬ f * 10 + digitVal c > 2 ^ 63 := by omega
      show durLoop rt d (.frac v pre f k false post) (c :: (b ++ rest)) = _
      simp only [durLoop, hc, if_true, h1, h2, if_false, Bool.false_eq_true]
      rw [hrun]
      simp

theorem durLoop_unit_letters (rt : Runtime) (w : List Char)
    (hw : ∀ c ∈ w, numberChar c = false) :
    ∀ (d v f k : Nat) (u rest : List Char),
      durLoop rt d (.unit v f k u) (w ++ rest) = durLoop rt d (.unit v f k (u ++ w)) rest := by
  induction w with
  | nil => intro d v f k u rest; simp
  | cons c w ih =>
    intro d v f k u rest
    have hc : (isDigit c || decide (c = '.')) = false := by
      simpa [numberChar] using hw c (List.mem_cons_self _ _)
    show durLoop rt d (.unit v f k u) (c :: (w ++ rest)) = _
    simp only [durLoop, hc, Bool.false_eq_true, if_false]
    rw [ih (fun x hx => hw x (List.mem_cons_of_mem _ hx))]
    simp

theorem unitMap_bound (u : List Char) (unit : Nat) (h : unitMap u = some unit) :
    0 < unit ∧ unit ≤ 3600000000000 := by
  unfold unitMap at h
  split_ifs at h <;> simp only [Option.some.injEq] at h <;> omega

theorem closeGroup_small (rt : Runtime) (hrt : rt.fracNanos = fractionNanos)
    (d v f k : Nat) (u : List Char) (hu : (unitMap u).isSome = true) (hv : v < 100000)
    (hk : k < 6) (hf : f < 10 ^ k) (hd : d ≤ 4 * 360054000000000000) :
    ∃ d1, closeGroup rt d v f k u = some d1 ∧ d1 ≤ d + 360054000000000000 := by
  obtain ⟨unit, hunit⟩ := Option.isSome_iff_exists.1 hu
  obtain ⟨hu0, hu1⟩ := unitMap_bound u unit hunit
  have hfr := fractionNanos_le f k unit hk hf
  have hx : v * unit ≤ 99999 * 3600000000000 := Nat.mul_le_mul (by omega) hu1
  have hdiv : 2 ^ 63 / 3600000000000 ≤ 2 ^ 63 / unit := Nat.div_le_div_left hu1 hu0
  have h1 : ¬ v > 2 ^ 63 / unit := by
    have : 2 ^ 63 / 3600000000000 = 2562047 := by norm_num
    omega
  unfold closeGroup
  rw [hunit]
  simp only [h1, if_false, hrt]
  generalize v * unit = x at hx ⊢
  generalize fractionNanos f k unit = y at hfr ⊢
  have hm : (x + y) % 2 ^ 64 = x + y := Nat.mod_eq_of_lt (by omega)
  have hm0 : (d + (x + y)) % 2 ^ 64 = d + (x + y) := Nat.mod_eq_of_lt (by omega)
  have hm1 : (d + x) % 2 ^ 64 = d + x := Nat.mod_eq_of_lt (by omega)
  split_ifs with hf0 hov
  · exfalso; rw [hm] at hov; omega
  · rw [hm]
    unfold addTotal
    rw [hm0, if_neg (by omega)]
    exact ⟨_, rfl, by omega⟩
  · unfold addTotal
    rw [hm1, if_neg (by omega)]
    exact ⟨_, rfl, by omega⟩

theorem durLoop_unit_end (rt : Runtime) (d v f k : Nat) (u rest : List Char) (d1 : Nat)
    (hrest : Follows rest) (hclose : closeGroup rt d v f k u = some d1) :
    durLoop rt d (.unit v f k u) rest = if rest = [] then some d1 else startLoop rt d1 rest := by
  rcases hrest with h | ⟨c, cs, h, hc⟩
  · subst h
    simp [durLoop, hclose]
  · subst h
    have hc1 : (isDigit c || decide (c = '.')) = true := hc
    simp only [durLoop, hc1, if_true, hclose, startLoop]
    cases openGroup c <;> simp

theorem durLoop_int_tail (rt : Runtime) (d v : Nat) (u0 : Char) (u1 rest : List Char)
    (hu : ∀ c ∈ u0 :: u1, numberChar c = false) :
    durLoop rt d (.int v) (u0 :: u1 ++ rest) = durLoop rt d (.unit v 0 0 (u0 :: u1)) rest := by
  have h0 := hu u0 (List.mem_cons_self _ _)
  simp only [numberChar, Bool.or_eq_false_iff, decide_eq_false_iff_not] at h0
  show durLoop rt d (.int v) (u0 :: (u1 ++ rest)) = _
  simp only [durLoop, h0.1, h0.2, Bool.false_eq_true, if_false]
  rw [durLoop_unit_letters rt u1 (fun c hc => hu c (List.mem_cons_of_mem _ hc))]
  simp

theorem durLoop_frac_tail (rt : Runtime) (d v : Nat) (pre : Bool) (f k : Nat) (over post : Bool)
    (u0 : Char) (u1 rest : List Char) (hu : ∀ c ∈ u0 :: u1, numberChar c = false)
    (hpp : (pre || post) = true) :
    durLoop rt d (.frac v pre f k over post) (u0 :: u1 ++ rest) =
      durLoop rt d (.unit v f k (u0 :: u1)) rest := by
  have h0 := hu u0 (List.mem_cons_self _ _)
  simp only [numberChar, Bool.or_eq_false_iff, decide_eq_false_iff_not] at h0
  have hpp1 : (!pre && !post) = false := by
    cases pre <;> cases post <;> simp_all
  show durLoop rt d (.frac v pre f k over post) (u0 :: (u1 ++ rest)) = _
  simp only [durLoop, h0.1, h0.2, hpp1, Bool.false_eq_true, if_false]
  rw [durLoop_unit_letters rt u1 (fun c hc => hu c (List.mem_cons_of_mem _ hc))]
  simp

theorem pow_le_five (i : Nat) (h : i ≤ 5) : 10 ^ i ≤ 100000 := by
  have := Nat.pow_le_pow_right (show 0 < 10 by norm_num) h
  norm_num at this
  exact this

/-- A group: the loop reads it and goes on after it. -/
theorem startLoop_group (rt : Runtime) (hrt : rt.fracNanos = fractionNanos)
    (n u rest : List Char) (hn : isNumber n = true) (hu : (unitMap u).isSome = true)
    (hrest : Follows rest) (d : Nat) (hdig : n.countP isDigit ≤ 5)
    (hd : d ≤ 4 * 360054000000000000) :
    ∃ d1, d1 ≤ d + 360054000000000000 ∧
      startLoop rt d (n ++ u ++ rest) = if rest = [] then some d1 else startLoop rt d1 rest := by
  obtain ⟨u0, u1, hu01⟩ := List.exists_cons_of_ne_nil (unitMap_ne_nil u hu)
  have huc := unitMap_chars u hu
  rw [hu01] at huc
  obtain ⟨a, b, ha, hb, hcase | hcase⟩ := isNumber_cases n hn
  · -- digits only
    obtain ⟨hna, hne⟩ := hcase
    subst hna
    obtain ⟨c, a1, rfl⟩ := List.exists_cons_of_ne_nil hne
    have hc : isDigit c = true := ha c (List.mem_cons_self _ _)
    rw [countP_digits _ ha, List.length_cons] at hdig
    obtain ⟨v1, hv1, hrun⟩ := durLoop_int_digits rt a1
      (fun x hx => ha x (List.mem_cons_of_mem _ hx)) d (digitVal c) 1 (u ++ rest)
      (by have := digitVal_le c hc; omega) (by omega)
    have hv5 := pow_le_five (1 + a1.length) (by omega)
    obtain ⟨d1, hclose, hd1⟩ := closeGroup_small rt hrt d v1 0 0 u hu (by omega) (by omega)
      (by norm_num) hd
    refine ⟨d1, hd1, ?_⟩
    have hstart : startLoop rt d (c :: a1 ++ u ++ rest) =
        durLoop rt d (.int (digitVal c)) (a1 ++ (u ++ rest)) := by
      show startLoop rt d (c :: (a1 ++ u ++ rest)) = _
      simp [startLoop, openGroup, hc]
    rw [hstart, hrun, hu01, durLoop_int_tail rt d v1 u0 u1 rest huc, ← hu01]
    exact durLoop_unit_end rt d v1 0 0 u rest d1 hrest hclose
  · -- with a period
    obtain ⟨hna, hne⟩ := hcase
    subst hna
    have hcount : (a ++ '.' :: b).countP isDigit = a.length + b.length := by
      rw [List.countP_append, List.countP_cons, countP_digits _ ha, countP_digits _ hb]
      simp only [show isDigit '.' = false by decide, Bool.false_eq_true, if_false]
      omega
    rw [hcount] at hdig
    cases a with
    | nil =>
      have hb0 : b ≠ [] := by
        rcases hne with h | h
        · exact absurd rfl h
        · exact h
      obtain ⟨f1, hf1, hrun⟩ := durLoop_frac_digits rt b hb d 0 false 0 0 false (u ++ rest)
        (by norm_num) (by simp at hdig; omega)
      simp only [List.length_nil, Nat.zero_add] at hdig hf1 hrun
      obtain ⟨d1, hclose, hd1⟩ := closeGroup_small rt hrt d 0 f1 b.length u hu (by omega)
        (by omega) hf1 hd
      refine ⟨d1, hd1, ?_⟩
      have hstart : startLoop rt d ([] ++ '.' :: b ++ u ++ rest) =
          durLoop rt d (.frac 0 false 0 0 false false) (b ++ (u ++ rest)) := by
        show startLoop rt d ('.' :: (b ++ u ++ rest)) = _
        simp [startLoop, openGroup, show isDigit '.' = false by decide]
      have hpost : (false || !b.isEmpty) = true := by
        cases b with
        | nil => exact absurd rfl hb0
        | cons x y => rfl
      rw [hstart, hrun, hu01,
        durLoop_frac_tail rt d 0 false f1 b.length false _ u0 u1 rest huc (by simp [hpost]),
        ← hu01]
      exact durLoop_unit_end rt d 0 f1 b.length u rest d1 hrest hclose
    | cons c a1 =>
      have hc : isDigit c = true := ha c (List.mem_cons_self _ _)
      simp only [List.length_cons] at hdig
      obtain ⟨v1, hv1, hrun⟩ := durLoop_int_digits rt a1
        (fun x hx => ha x (List.mem_cons_of_mem _ hx)) d (digitVal c) 1 ('.' :: b ++ (u ++ rest))
        (by have := digitVal_le c hc; omega) (by omega)
      have hv5 := pow_le_five (1 + a1.length) (by omega)
      obtain ⟨f1, hf1, hrun2⟩ := durLoop_frac_digits rt b hb d v1 true 0 0 false (u ++ rest)
        (by norm_num) (by omega)
      simp only [Nat.zero_add] at hf1 hrun2
      obtain ⟨d1, hclose, hd1⟩ := closeGroup_small rt hrt d v1 f1 b.length u hu (by omega)
        (by omega) hf1 hd
      refine ⟨d1, hd1, ?_⟩
      have hstart : startLoop rt d (c :: a1 ++ '.' :: b ++ u ++ rest) =
          durLoop rt d (.int (digitVal c)) (a1 ++ ('.' :: b ++ (u ++ rest))) := by
        show startLoop rt d (c :: (a1 ++ '.' :: b ++ u ++ rest)) = _
        simp [startLoop, openGroup, hc]
      have hdot : durLoop rt d (.int v1) ('.' :: b ++ (u ++ rest)) =
          durLoop rt d (.frac v1 true 0 0 false false) (b ++ (u ++ rest)) := by
        show durLoop rt d (.int v1) ('.' :: (b ++ (u ++ rest))) = _
        simp [durLoop, show isDigit '.' = false by decide]
      rw [hstart, hrun, hdot, hrun2, hu01,
        durLoop_frac_tail rt d v1 true f1 b.length false _ u0 u1 rest huc (by simp), ← hu01]
      exact durLoop_unit_end rt d v1 f1 b.length u rest d1 hrest hclose

theorem countP_unit (u : List Char) (hu : (unitMap u).isSome = true) :
    u.countP isDigit = 0 := by
  rw [List.countP_eq_zero]
  intro c hc
  have := unitMap_chars u hu c hc
  simp only [numberChar, Bool.or_eq_false_iff] at this
  simp [this.1]

theorem countP_number_pos (n : List Char) (hn : isNumber n = true) : 0 < n.countP isDigit := by
  simp only [isNumber, Bool.and_eq_true, List.any_eq_true] at hn
  obtain ⟨_, c, hc, hd⟩ := hn
  exact List.countP_pos_iff.2 ⟨c, hc, hd⟩

theorem groupsText_follows (gs : List (List Char × List Char))
    (hgs : ∀ g ∈ gs, isGroup g = true) : Follows (groupsText gs) := by
  cases gs with
  | nil => exact Or.inl rfl
  | cons g gs =>
    have hg : isGroup g = true := hgs g (List.mem_cons_self _ _)
    have hg1 : isNumber g.1 = true := by
      simp only [isGroup, Bool.and_eq_true] at hg; exact hg.1
    obtain ⟨c, rest, hc⟩ := List.exists_cons_of_ne_nil (isNumber_ne_nil g.1 hg1)
    refine Or.inr ⟨c, rest ++ g.2 ++ groupsText gs, ?_, isNumber_chars _ hg1 c (by simp [hc])⟩
    rw [groupsText_cons, hc]
    simp

theorem groupsText_ne_nil (gs : List (List Char × List Char))
    (hgs : ∀ g ∈ gs, isGroup g = true) (hne : gs ≠ []) : groupsText gs ≠ [] := by
  obtain ⟨g, gs1, rfl⟩ := List.exists_cons_of_ne_nil hne
  have hg : isGroup g = true := hgs g (List.mem_cons_self _ _)
  have hg1 : isNumber g.1 = true := by
    simp only [isGroup, Bool.and_eq_true] at hg; exact hg.1
  rw [groupsText_cons]
  have := isNumber_ne_nil g.1 hg1
  simp [this]

/-- A sequence of groups with at most five digits: the loop reads it to the
end. -/
theorem startLoop_groups (rt : Runtime) (hrt : rt.fracNanos = fractionNanos)
    (gs : List (List Char × List Char)) :
    ∀ (d D : Nat), (∀ g ∈ gs, isGroup g = true) → gs ≠ [] → d ≤ D * 360054000000000000 →
      D + (groupsText gs).countP isDigit ≤ 5 →
      ∃ r, startLoop rt d (groupsText gs) = some r ∧ r ≤ 5 * 360054000000000000 := by
  induction gs with
  | nil => intro d D _ hne; exact absurd rfl hne
  | cons g gs ih =>
    intro d D hgs _ hd hdig
    have hg : isGroup g = true := hgs g (List.mem_cons_self _ _)
    have hgs1 : ∀ y ∈ gs, isGroup y = true := fun y hy => hgs y (List.mem_cons_of_mem _ hy)
    have hg1 : isNumber g.1 = true := by
      simp only [isGroup, Bool.and_eq_true] at hg; exact hg.1
    have hg2 : (unitMap g.2).isSome = true := by
      simp only [isGroup, Bool.and_eq_true] at hg; exact hg.2
    have he := countP_number_pos g.1 hg1
    rw [groupsText_cons, List.countP_append, List.countP_append, countP_unit g.2 hg2] at hdig
    obtain ⟨d1, hd1, hrun⟩ := startLoop_group rt hrt g.1 g.2 (groupsText gs) hg1 hg2
      (groupsText_follows gs hgs1) d (by omega) (by omega)
    rw [groupsText_cons, hrun]
    by_cases hnil : gs = []
    · subst hnil
      refine ⟨d1, by simp [groupsText], by omega⟩
    · rw [if_neg (groupsText_ne_nil gs hgs1 hnil)]
      exact ih d1 (D + List.countP isDigit g.1) hgs1 hnil (by
        have : (D + List.countP isDigit g.1) * 360054000000000000 =
            D * 360054000000000000 + List.countP isDigit g.1 * 360054000000000000 := by ring
        omega) (by omega)

theorem countP_stripSign (p : List Char) : (stripSign p).countP isDigit ≤ p.countP isDigit := by
  cases p with
  | nil => simp [stripSign]
  | cons c r =>
    simp only [stripSign]
    split_ifs
    · rw [List.countP_cons]; omega
    · exact Nat.le_refl _

/-- A text `p0 ++ "h" ++ p1 ++ "m"` made of two duration numbers (the first
after its sign) with at most five digits in all is a duration for
`time.ParseDuration`. -/
theorem ParseDuration_numbers (rt : Runtime) (hrt : rt.fracNanos = fractionNanos)
    (p0 p1 : List Char) (h0 : IsDurationNumber (stripSign p0)) (h1 : IsDurationNumber p1)
    (hdig : p0.countP isDigit + p1.countP isDigit ≤ 5) :
    ∃ d, ParseDuration rt (p0 ++ ['h'] ++ p1 ++ ['m']) = some d := by
  have hbody : stripSign (p0 ++ ['h'] ++ p1 ++ ['m']) = stripSign p0 ++ 'h' :: (p1 ++ ['m']) := by
    have : p0 ++ ['h'] ++ p1 ++ ['m'] = p0 ++ 'h' :: (p1 ++ ['m']) := by simp
    rw [this, stripSign_compose]
  have hne : stripSign p0 ++ 'h' :: (p1 ++ ['m']) ≠ ['0'] := by
    intro h
    have hl := congrArg List.length h
    simp only [List.length_append, List.length_cons, List.length_nil] at hl
    omega
  obtain ⟨gs0, n0, hgs0, hn0, hp0⟩ := h0
  obtain ⟨gs1, n1, hgs1, hn1, hp1⟩ := h1
  have hstrip := countP_stripSign p0
  have hgroups : ∀ g ∈ gs0 ++ [(n0, ['h'])] ++ gs1 ++ [(n1, ['m'])], isGroup g = true := by
    intro g hg
    simp only [List.mem_append, List.mem_singleton] at hg
    rcases hg with ((hg | hg) | hg) | hg
    · exact hgs0 g hg
    · subst hg
      simp only [isGroup, hn0, Bool.true_and]
      decide
    · exact hgs1 g hg
    · subst hg
      simp only [isGroup, hn1, Bool.true_and]
      decide
  have htext : stripSign p0 ++ 'h' :: (p1 ++ ['m']) =
      groupsText (gs0 ++ [(n0, ['h'])] ++ gs1 ++ [(n1, ['m'])]) := by
    rw [hp0, hp1]
    simp [groupsText]
  have hcount : (groupsText (gs0 ++ [(n0, ['h'])] ++ gs1 ++ [(n1, ['m'])])).countP isDigit ≤ 5 := by
    rw [← htext]
    simp only [List.countP_append, List.countP_cons, List.countP_nil,
      show isDigit 'h' = false by decide, show isDigit 'm' = false by decide,
      Bool.false_eq_true, if_false]
    omega
  obtain ⟨r, hrun, hr⟩ := startLoop_groups rt hrt _ 0 0 hgroups (by simp) (by omega)
    (by omega)
  rw [← htext] at hrun
  unfold ParseDuration
  simp only [hbody]
  rw [if_neg hne]
  cases hb : stripSign p0 ++ 'h' :: (p1 ++ ['m']) with
  | nil => simp at hb
  | cons c cs =>
    rw [hb] at hrun
    simp only [startLoop] at hrun
    simp only
    cases ho : openGroup c with
    | none => rw [ho] at hrun; cases hrun
    | some ph =>
      rw [ho] at hrun
      simp only at hrun
      simp only [hrun]
      split_ifs with hneg hbig
      · exact ⟨_, rfl⟩
      · exfalso; omega
      · exact ⟨_, rfl⟩

/-- The loop body fails on an event one of whose duration parts is no duration
number. -/
theorem makeEvent_bad_number (rt : Runtime) (g : Globals) (frab : FrabSchedule)
    (locationMap eventMap : IdMap) (e : FrabEvent) (p0 p1 : List Char)
    (hsplit : splitOn ':' e.Duration.data = [p0, p1])
    (hbad : ¬ IsDurationNumber (stripSign p0) ∨ ¬ IsDurationNumber p1) :
    ∃ err, makeEvent rt g frab locationMap eventMap e = .error err := by
  unfold makeEvent
  cases timeParse rt e.Date.data with
  | none => exact ⟨_, rfl⟩
  | some t =>
    cases hd : ParseDuration rt (p0 ++ ['h'] ++ p1 ++ ['m']) with
    | none =>
      simp only [hsplit, hd]
      exact ⟨_, rfl⟩
    | some d =>
      obtain ⟨h0, h1⟩ := ParseDuration_parts rt p0 p1 d hd
      rcases hbad with h | h
      · exact absurd h0 h
      · exact absurd h1 h

/-- Parts that are duration numbers and parts that are none. -/
theorem duration_number_samples :
    IsDurationNumber "2".data ∧ IsDurationNumber "1.5".data ∧ IsDurationNumber ".5".data ∧
    IsDurationNumber "1.".data ∧ IsDurationNumber "1h2".data ∧
    IsDurationNumber "1h30m2.5".data ∧
    ¬ IsDurationNumber "".data ∧ ¬ IsDurationNumber "a".data ∧ ¬ IsDurationNumber "h".data ∧
    ¬ IsDurationNumber "m".data ∧ ¬ IsDurationNumber "1m".data ∧
    ¬ IsDurationNumber "1h".data ∧ ¬ IsDurationNumber "3s".data ∧
    ¬ IsDurationNumber "30m".data ∧ ¬ IsDurationNumber "1..5".data ∧
    ¬ IsDurationNumber ".".data ∧ ¬ IsDurationNumber "1x2".data ∧
    ¬ IsDurationNumber "-1".data := by
  simp only [← durationNumber_iff]
  decide

/-! ## The calendar -/

theorem civil_cycles (a : Int) :
    let n400 := a / 146097
    let r := a % 146097
    let n100 := min (r / 36524) 3
    let r1 := r - 36524 * n100
    let n4 := r1 / 1461
    let r2 := r1 % 1461
    let n1 := min (r2 / 365) 3
    let yday := r2 - 365 * n1
    let y := 400 * n400 + 100 * n100 + 4 * n4 + n1 + 1
    365 * (y - 1) + (y - 1) / 4 - (y - 1) / 100 + (y - 1) / 400 + yday = a ∧
    0 ≤ yday ∧ yday ≤ 365 ∧
    (yday = 365 → y % 4 = 0 ∧ (y % 100 ≠ 0 ∨ y % 400 = 0)) := by
  intro n400 r n100 r1 n4 r2 n1 yday y
  have h1 : 0 ≤ r := Int.emod_nonneg _ (by norm_num)
  have h2 : r < 146097 := Int.emod_lt_of_pos _ (by norm_num)
  have h3 : a = 146097 * n400 + r := by
    have := Int.ediv_add_emod a 146097
    omega
  have b100 : 0 ≤ n100 ∧ n100 ≤ 3 := by omega
  have br1 : 0 ≤ r1 ∧ r1 ≤ 36524 ∧ (n100 < 3 → r1 ≤ 36523) := by omega
  have b4 : 0 ≤ n4 ∧ n4 ≤ 24 := by omega
  have br2 : 0 ≤ r2 ∧ r2 ≤ 1460 ∧ r1 = 1461 * n4 + r2 := by omega
  have b1 : 0 ≤ n1 ∧ n1 ≤ 3 := by omega
  have byd : 0 ≤ yday ∧ yday ≤ 365 ∧ r2 = 365 * n1 + yday ∧ (yday = 365 → n1 = 3) := by omega
  have hy : y - 1 = 400 * n400 + (100 * n100 + 4 * n4 + n1) := by omega
  have hw : 0 ≤ 100 * n100 + 4 * n4 + n1 ∧ 100 * n100 + 4 * n4 + n1 ≤ 399 := by
    constructor
    · omega
    · by_cases h : n100 < 3
      · omega
      · have : n100 = 3 := by omega
        omega
  have q400 : (y - 1) / 400 = n400 := by omega
  have q100 : (y - 1) / 100 = 4 * n400 + n100 := by omega
  have q4 : (y - 1) / 4 = 100 * n400 + 25 * n100 + n4 := by omega
  refine ⟨?_, byd.1, byd.2.1, ?_⟩
  · rw [q400, q100, q4]
    omega
  · intro h365
    have hn1 : n1 = 3 := byd.2.2.2 h365
    refine ⟨by omega, ?_⟩
    by_cases h24 : n4 = 24
    · right
      have : n100 = 3 := by
        by_contra hne
        have : r1 ≤ 36523 := br1.2.2 (by omega)
        omega
      omega
    · left
      omega


set_option maxRecDepth 100000 in
theorem monthDay_table : ∀ l : Bool, ∀ n < 366, n < 365 + (if l then 1 else 0) →
    1 ≤ (monthDay l n).1 ∧ (monthDay l n).1 ≤ 12 ∧ 1 ≤ (monthDay l n).2 ∧
    (monthDay l n).2 ≤ monthLength l (monthDay l n).1 ∧
    daysBefore (monthDay l n).1 + (if l = true ∧ 2 < (monthDay l n).1 then 1 else 0) +
      ((monthDay l n).2 - 1) = n := by
  decide

theorem daysIn_eq (m : Nat) (y : Int) : daysIn m y = monthLength (isLeap y) m := by
  unfold daysIn monthLength
  rfl

theorem isLeap_iff (y : Int) :
    isLeap y = true ↔ (y % 4 = 0 ∧ (y % 100 ≠ 0 ∨ y % 400 = 0)) := by
  simp [isLeap]

/-- The date of a day number is a date of the calendar, and it is the date of
that day. -/
theorem civilFromDays_spec (z : Int) :
    1 ≤ (civilFromDays z).2.1 ∧ (civilFromDays z).2.1 ≤ 12 ∧
    1 ≤ (civilFromDays z).2.2 ∧
    (civilFromDays z).2.2 ≤ daysIn (civilFromDays z).2.1 (civilFromDays z).1 ∧
    daysFromCivil (civilFromDays z).1 (civilFromDays z).2.1 (civilFromDays z).2.2 = z := by
  obtain ⟨hsum, h0, h365, hleap⟩ := civil_cycles (z + 719162)
  generalize hy : 400 * ((z + 719162) / 146097) +
      100 * min ((z + 719162) % 146097 / 36524) 3 +
      4 * (((z + 719162) % 146097 - 36524 * min ((z + 719162) % 146097 / 36524) 3) / 1461) +
      min (((z + 719162) % 146097 - 36524 * min ((z + 719162) % 146097 / 36524) 3) % 1461 / 365) 3
      + 1 = y at hsum hleap
  generalize hyd : ((z + 719162) % 146097 - 36524 * min ((z + 719162) % 146097 / 36524) 3) % 1461 -
      365 * min (((z + 719162) % 146097 -
        36524 * min ((z + 719162) % 146097 / 36524) 3) % 1461 / 365) 3 = yday at hsum h0 h365 hleap
  have hc : civilFromDays z = (y, (monthDay (isLeap y) yday.toNat).1,
      (monthDay (isLeap y) yday.toNat).2) := by
    unfold civilFromDays
    simp only [hy, hyd]
  rw [hc]
  simp only
  have hn : yday.toNat < 365 + (if isLeap y then 1 else 0) := by
    by_cases h : yday = 365
    · have := (isLeap_iff y).2 (hleap h)
      rw [this]
      simp only [if_true]
      omega
    · split_ifs <;> omega
  obtain ⟨t1, t2, t3, t4, t5⟩ := monthDay_table (isLeap y) yday.toNat (by omega) hn
  refine ⟨t1, t2, t3, by rw [daysIn_eq]; exact t4, ?_⟩
  unfold daysFromCivil yearDay
  have h5 : ((daysBefore (monthDay (isLeap y) yday.toNat).1 +
      (if isLeap y = true ∧ 2 < (monthDay (isLeap y) yday.toNat).1 then 1 else 0) +
      ((monthDay (isLeap y) yday.toNat).2 - 1) : Nat) : Int) = yday := by
    rw [t5]
    omega
  rw [h5]
  omega

theorem civilFromDays_year_bounds (z : Int) :
    (-719528 ≤ z → 0 ≤ (civilFromDays z).1) ∧ (z < 2932897 → (civilFromDays z).1 ≤ 9999) := by
  obtain ⟨hsum, h0, h365, _⟩ := civil_cycles (z + 719162)
  generalize hy : 400 * ((z + 719162) / 146097) +
      100 * min ((z + 719162) % 146097 / 36524) 3 +
      4 * (((z + 719162) % 146097 - 36524 * min ((z + 719162) % 146097 / 36524) 3) / 1461) +
      min (((z + 719162) % 146097 - 36524 * min ((z + 719162) % 146097 / 36524) 3) % 1461 / 365) 3
      + 1 = y at hsum
  generalize hyd : ((z + 719162) % 146097 - 36524 * min ((z + 719162) % 146097 / 36524) 3) % 1461 -
      365 * min (((z + 719162) % 146097 -
        36524 * min ((z + 719162) % 146097 / 36524) 3) % 1461 / 365) 3 = yday at hsum h0 h365
  have hc : (civilFromDays z).1 = y := by
    unfold civilFromDays
    simp only [hy]
  rw [hc]
  constructor <;> intro h <;> omega

theorem daysFromCivil_lower (y : Nat) (m d : Nat) : -719528 ≤ daysFromCivil y m d := by
  unfold daysFromCivil
  have : (0 : Int) ≤ (yearDay y m d : Nat) := Int.natCast_nonneg _
  omega

/-! ## Digits -/

theorem digitChar_facts : ∀ n < 10,
    isDigit (digitChar n) = true ∧ digitVal (digitChar n) = n ∧
    digitChar n ≠ ':' ∧ digitChar n ≠ '-' ∧ digitChar n ≠ '+' ∧ digitChar n ≠ '.' ∧
    digitChar n ≠ ',' := by
  decide

theorem isDigit_digitChar (n : Nat) (h : n < 10) : isDigit (digitChar n) = true :=
  (digitChar_facts n h).1

theorem digitVal_digitChar (n : Nat) (h : n < 10) : digitVal (digitChar n) = n :=
  (digitChar_facts n h).2.1

theorem fmtDigits_one (n : Nat) : fmtDigits 1 n = [digitChar (n % 10)] := by
  simp [fmtDigits]

theorem fmtDigits_two (n : Nat) :
    fmtDigits 2 n = [digitChar (n / 10 % 10), digitChar (n % 10)] := by
  simp [fmtDigits]

theorem fmtDigits_four (n : Nat) :
    fmtDigits 4 n = [digitChar (n / 10 / 10 / 10 % 10), digitChar (n / 10 / 10 % 10),
      digitChar (n / 10 % 10), digitChar (n % 10)] := by
  simp [fmtDigits]

theorem digitCount_le (fuel : Nat) : ∀ (n w : Nat), 1 ≤ w → n < 10 ^ w → digitCount fuel n ≤ w := by
  induction fuel with
  | zero => intro n w hw _; simpa [digitCount] using hw
  | succ fuel ih =>
    intro n w hw hn
    simp only [digitCount]
    split_ifs with h
    · exact hw
    · have hw2 : 2 ≤ w := by
        by_contra hlt
        have : w = 1 := by omega
        subst this
        simp at hn
        omega
      have : n / 10 < 10 ^ (w - 1) := by
        have h10 : 10 ^ w = 10 ^ (w - 1) * 10 := by
          rw [← pow_succ]
          congr 1
          omega
        rw [h10] at hn
        exact Nat.div_lt_of_lt_mul (by omega)
      have := ih (n / 10) (w - 1) (by omega) this
      omega

theorem appendInt_of_fits (x : Int) (w : Nat) (hw : 1 ≤ w) (h0 : 0 ≤ x) (h1 : x < 10 ^ w) :
    appendInt x w = fmtDigits w x.toNat := by
  unfold appendInt
  have hn : x.natAbs = x.toNat := by omega
  have hlt : x.toNat < 10 ^ w := by
    have : ((x.toNat : Nat) : Int) < ((10 ^ w : Nat) : Int) := by
      rw [Int.toNat_of_nonneg h0]
      push_cast
      exact h1
    exact_mod_cast this
  rw [if_neg (by omega), hn, List.nil_append,
    Nat.max_eq_left (digitCount_le _ _ _ hw hlt)]

/-! ## Reading what was written -/

theorem getYear_fmt (y : Nat) (hy : y ≤ 9999) (rest : List Char) :
    getYear (fmtDigits 4 y ++ rest) = some (y, rest) := by
  rw [fmtDigits_four]
  simp only [List.cons_append, List.nil_append, getYear]
  rw [isDigit_digitChar _ (Nat.mod_lt _ (by norm_num)),
    isDigit_digitChar _ (Nat.mod_lt _ (by norm_num)),
    isDigit_digitChar _ (Nat.mod_lt _ (by norm_num)),
    isDigit_digitChar _ (Nat.mod_lt _ (by norm_num)),
    digitVal_digitChar _ (Nat.mod_lt _ (by norm_num)),
    digitVal_digitChar _ (Nat.mod_lt _ (by norm_num)),
    digitVal_digitChar _ (Nat.mod_lt _ (by norm_num)),
    digitVal_digitChar _ (Nat.mod_lt _ (by norm_num))]
  simp only [Bool.and_self, if_true, Option.some.injEq, Prod.mk.injEq, and_true]
  omega

theorem getnum_fmt (fixed : Bool) (n : Nat) (hn : n ≤ 99) (rest : List Char) :
    getnum fixed (fmtDigits 2 n ++ rest) = some (n, rest) := by
  rw [fmtDigits_two]
  simp only [List.cons_append, List.nil_append, getnum]
  rw [isDigit_digitChar _ (Nat.mod_lt _ (by norm_num)),
    isDigit_digitChar _ (Nat.mod_lt _ (by norm_num)),
    digitVal_digitChar _ (Nat.mod_lt _ (by norm_num)),
    digitVal_digitChar _ (Nat.mod_lt _ (by norm_num))]
  simp only [Bool.not_true, Bool.false_eq_true, if_false, Option.some.injEq, Prod.mk.injEq,
    and_true]
  omega

theorem expect_cons (c : Char) (rest : List Char) : expect c (c :: rest) = some rest := by
  simp [expect]

theorem getFraction_sign (west : Bool) (rest : List Char) :
    getFraction ((if west then '-' else '+') :: rest) = (0, (if west then '-' else '+') :: rest) := by
  cases rest with
  | nil => cases west <;> rfl
  | cons a rest =>
    cases west <;> simp [getFraction]

theorem getZone_fmt (west : Bool) (oh om : Nat) (hoh : oh ≤ 23) (hom : om ≤ 59) :
    getZone ([if west then '-' else '+'] ++ fmtDigits 2 oh ++ [':'] ++ fmtDigits 2 om) =
      some (if west then -((oh * 3600 + om * 60 : Nat) : Int)
            else ((oh * 3600 + om * 60 : Nat) : Int), []) := by
  rw [fmtDigits_two, fmtDigits_two]
  simp only [List.cons_append, List.nil_append, getZone]
  rw [isDigit_digitChar _ (Nat.mod_lt _ (by norm_num)),
    isDigit_digitChar _ (Nat.mod_lt _ (by norm_num)),
    isDigit_digitChar _ (Nat.mod_lt _ (by norm_num)),
    isDigit_digitChar _ (Nat.mod_lt _ (by norm_num)),
    digitVal_digitChar _ (Nat.mod_lt _ (by norm_num)),
    digitVal_digitChar _ (Nat.mod_lt _ (by norm_num)),
    digitVal_digitChar _ (Nat.mod_lt _ (by norm_num)),
    digitVal_digitChar _ (Nat.mod_lt _ (by norm_num))]
  have e1 : oh / 10 % 10 * 10 + oh % 10 = oh := by omega
  have e2 : om / 10 % 10 * 10 + om % 10 = om := by omega
  rw [e1, e2]
  have e3 : (oh * 60 + om) * 60 = oh * 3600 + om * 60 := by omega
  cases west
  · simp [e3]
    omega
  · simp [e3]
    omega


theorem timeParse_text (rt : Runtime) (s : Stamp) (hv : s.Valid) :
    timeParse rt s.text =
      some { nanos := s.instant * 1000000000,
             loc := if rt.localOffset s.instant = s.offset then Location.localZone
                    else Location.fixedZone s.offset } := by
  obtain ⟨hy, hm1, hm2, hd1, hd2, hh, hmi, hs, hoh, hom⟩ := hv
  have hdim : daysIn s.month s.year ≤ 31 := by
    unfold daysIn
    split_ifs <;> omega
  have hdate : ∀ rest, parseDatePart (fmtDigits 4 s.year ++ '-' :: (fmtDigits 2 s.month ++
      '-' :: (fmtDigits 2 s.day ++ rest))) = some (s.year, s.month, s.day, rest) := by
    intro rest
    unfold parseDatePart
    simp only [getYear_fmt _ hy, expect_cons, getnum_fmt true s.month (by omega),
      getnum_fmt true s.day (by omega)]
    rw [if_neg (by omega)]
  have hclock : ∀ rest, parseClockPart (fmtDigits 2 s.hour ++ ':' :: (fmtDigits 2 s.minute ++
      ':' :: (fmtDigits 2 s.second ++ (if s.west then '-' else '+') :: rest))) =
      some (s.hour, s.minute, s.second, 0, (if s.west then '-' else '+') :: rest) := by
    intro rest
    unfold parseClockPart
    simp only [expect_cons, getnum_fmt false s.hour (by omega),
      getnum_fmt true s.minute (by omega), getnum_fmt true s.second (by omega),
      getFraction_sign]
    rw [if_neg (by omega), if_neg (by omega), if_neg (by omega)]
  have hzone := getZone_fmt s.west s.offHour s.offMinute hoh hom
  simp only [List.append_assoc, List.singleton_append, List.cons_append, List.nil_append]
    at hzone
  unfold timeParse Stamp.text
  simp only [List.append_assoc, List.singleton_append, List.cons_append, List.nil_append,
    hdate, expect_cons, hclock, hzone]
  rw [if_neg (by simp), if_neg (by omega)]
  simp only [Stamp.instant, Stamp.offset, Nat.cast_zero, add_zero]

theorem splitOn_no_sep (sep : Char) (q : List Char) (hq : ∀ c ∈ q, c ≠ sep) :
    splitOn sep q = [q] := by
  induction q with
  | nil => rfl
  | cons c q ih =>
    have hc : c ≠ sep := hq c (List.mem_cons_self _ _)
    simp only [splitOn, if_neg hc, ih (fun x hx => hq x (List.mem_cons_of_mem _ hx))]

theorem splitOn_two (sep : Char) (p q : List Char) (hp : ∀ c ∈ p, c ≠ sep)
    (hq : ∀ c ∈ q, c ≠ sep) : splitOn sep (p ++ sep :: q) = [p, q] := by
  induction p with
  | nil => simp [splitOn, splitOn_no_sep sep q hq]
  | cons c p ih =>
    have hc : c ≠ sep := hp c (List.mem_cons_self _ _)
    have h := ih (fun x hx => hp x (List.mem_cons_of_mem _ hx))
    show splitOn sep (c :: (p ++ sep :: q)) = [c :: p, q]
    simp only [splitOn, if_neg hc, h]

theorem fmtDigits_no_colon (w n : Nat) : ∀ c ∈ fmtDigits w n, c ≠ ':' := by
  induction w generalizing n with
  | zero => simp [fmtDigits]
  | succ w ih =>
    intro c hc
    simp only [fmtDigits, List.mem_append, List.mem_singleton] at hc
    rcases hc with hc | rfl
    · exact ih _ c hc
    · exact (digitChar_facts _ (Nat.mod_lt _ (by norm_num))).2.2.1

theorem splitOn_durationText (two : Bool) (hh mm : Nat) :
    splitOn ':' (durationText two hh mm) =
      [if two then fmtDigits 2 hh else fmtDigits 1 hh, fmtDigits 2 mm] := by
  unfold durationText
  rw [List.append_assoc, List.singleton_append]
  apply splitOn_two
  · cases two
    · exact fmtDigits_no_colon 1 hh
    · exact fmtDigits_no_colon 2 hh
  · exact fmtDigits_no_colon 2 mm

theorem openGroup_digit (n : Nat) (hn : n < 10) : openGroup (digitChar n) = some (.int n) := by
  simp [openGroup, isDigit_digitChar n hn, digitVal_digitChar n hn]

theorem durLoop_int_digit (rt : Runtime) (d v n : Nat) (hn : n < 10) (hv : v ≤ 1000)
    (cs : List Char) :
    durLoop rt d (.int v) (digitChar n :: cs) = durLoop rt d (.int (v * 10 + n)) cs := by
  simp only [durLoop, isDigit_digitChar n hn, digitVal_digitChar n hn, if_true]
  rw [if_neg (by omega), if_neg (by omega)]

theorem durLoop_int_h (rt : Runtime) (d v : Nat) (cs : List Char) :
    durLoop rt d (.int v) ('h' :: cs) = durLoop rt d (.unit v 0 0 ['h']) cs := by
  simp [durLoop, isDigit]

theorem durLoop_int_m (rt : Runtime) (d v : Nat) :
    durLoop rt d (.int v) ['m'] = closeGroup rt d v 0 0 ['m'] := by
  simp [durLoop, isDigit]

theorem closeGroup_h (rt : Runtime) (v : Nat) (hv : v ≤ 1000) :
    closeGroup rt 0 v 0 0 ['h'] = some (v * 3600000000000) := by
  have hu : unitMap ['h'] = some 3600000000000 := by decide
  have hlt : 0 + v * 3600000000000 < 2 ^ 64 := by omega
  simp only [closeGroup, hu, addTotal, Nat.mod_eq_of_lt hlt]
  rw [if_neg (by omega), if_neg (by omega), if_neg (by omega), Option.some.injEq]
  omega

theorem closeGroup_m (rt : Runtime) (d v : Nat) (hd : d ≤ 3600000000000000) (hv : v ≤ 1000) :
    closeGroup rt d v 0 0 ['m'] = some (d + v * 60000000000) := by
  have hu : unitMap ['m'] = some 60000000000 := by decide
  have hlt : d + v * 60000000000 < 2 ^ 64 := by omega
  simp only [closeGroup, hu, addTotal, Nat.mod_eq_of_lt hlt]
  rw [if_neg (by omega), if_neg (by omega), if_neg (by omega)]

theorem durLoop_unit_digit (rt : Runtime) (d v n : Nat) (hn : n < 10) (u cs : List Char) :
    durLoop rt d (.unit v 0 0 u) (digitChar n :: cs) =
      match closeGroup rt d v 0 0 u with
      | none => none
      | some d1 => durLoop rt d1 (.int n) cs := by
  simp only [durLoop, isDigit_digitChar n hn, Bool.true_or, if_true, openGroup_digit n hn]

/-- The text `H h MM m` built from a duration `H:MM` or `HH:MM` is the duration
of `60 * hh + mm` minutes. -/
theorem ParseDuration_durationText (rt : Runtime) (two : Bool) (hh mm : Nat)
    (hhh : hh < (if two then 100 else 10)) (hmm : mm < 100) :
    ParseDuration rt ((if two then fmtDigits 2 hh else fmtDigits 1 hh) ++ ['h'] ++
        fmtDigits 2 mm ++ ['m']) =
      some ((((60 * hh + mm) * 60000000000 : Nat) : Int)) := by
  have hmd1 : mm / 10 % 10 < 10 := Nat.mod_lt _ (by norm_num)
  have hmd2 : mm % 10 < 10 := Nat.mod_lt _ (by norm_num)
  have hhd1 : hh / 10 % 10 < 10 := Nat.mod_lt _ (by norm_num)
  have hhd2 : hh % 10 < 10 := Nat.mod_lt _ (by norm_num)
  have hsign : ∀ n, n < 10 → ∀ cs, stripSign (digitChar n :: cs) = digitChar n :: cs := by
    intro n hn cs
    have := digitChar_facts n hn
    simp [stripSign, this.2.2.2.1, this.2.2.2.2.1]
  have hneg : ∀ n, n < 10 → ∀ cs, ((digitChar n :: cs).head? = some '-') = False := by
    intro n hn cs
    have := digitChar_facts n hn
    simp [this.2.2.2.1]
  have tail : ∀ v, v ≤ 99 → durLoop rt 0 (.int v) ('h' :: (fmtDigits 2 mm ++ ['m'])) =
      some (v * 3600000000000 + mm * 60000000000) := by
    intro v hv
    rw [durLoop_int_h, fmtDigits_two]
    simp only [List.cons_append, List.nil_append]
    rw [durLoop_unit_digit rt 0 v _ hmd1, closeGroup_h rt v (by omega)]
    simp only
    rw [durLoop_int_digit rt _ _ _ hmd2 (by omega), durLoop_int_m,
      closeGroup_m rt _ _ (by omega) (by omega)]
    rw [Option.some.injEq]
    omega
  cases two with
  | false =>
    simp only [Bool.false_eq_true, if_false] at hhh ⊢
    rw [fmtDigits_one]
    have hbody : [digitChar (hh % 10)] ++ ['h'] ++ fmtDigits 2 mm ++ ['m'] =
        digitChar (hh % 10) :: ('h' :: (fmtDigits 2 mm ++ ['m'])) := by simp
    rw [hbody]
    unfold ParseDuration
    simp only [hsign _ hhd2, hneg _ hhd2, openGroup_digit _ hhd2, tail _ (by omega : hh % 10 ≤ 99)]
    rw [if_neg (by simp)]
    simp only [decide_False, Bool.false_eq_true, if_false]
    rw [if_neg (by omega), Option.some.injEq]
    omega
  | true =>
    simp only [if_true] at hhh ⊢
    rw [fmtDigits_two]
    have hbody : [digitChar (hh / 10 % 10), digitChar (hh % 10)] ++ ['h'] ++ fmtDigits 2 mm ++
        ['m'] = digitChar (hh / 10 % 10) ::
          (digitChar (hh % 10) :: ('h' :: (fmtDigits 2 mm ++ ['m']))) := by simp
    rw [hbody]
    unfold ParseDuration
    simp only [hsign _ hhd1, hneg _ hhd1, openGroup_digit _ hhd1,
      durLoop_int_digit rt 0 _ _ hhd2 (by omega : hh / 10 % 10 ≤ 1000),
      tail _ (by omega : hh / 10 % 10 * 10 + hh % 10 ≤ 99)]
    rw [if_neg (by simp)]
    simp only [decide_False, Bool.false_eq_true, if_false]
    rw [if_neg (by omega), Option.some.injEq]
    omega

/-! ## Writing a time -/

/-- The timestamp of an instant at an offset below a day and of whole minutes is a
valid timestamp of that instant and offset, as long as its year has four digits. -/
theorem stampAt_spec (unix off : Int)
    (hlo : -719528 * 86400 ≤ unix + off) (hhi : unix + off < yearLimit)
    (habs : -86400 < off ∧ off < 86400) (hmin : off % 60 = 0) :
    (stampAt unix off).Valid ∧ (stampAt unix off).offset = off ∧
    (stampAt unix off).instant = unix := by
  obtain ⟨c1, c2, c3, c4, c5⟩ := civilFromDays_spec ((unix + off) / 86400)
  have hb := civilFromDays_year_bounds ((unix + off) / 86400)
  unfold yearLimit at hhi
  have hy0 : 0 ≤ (civilFromDays ((unix + off) / 86400)).1 := hb.1 (by omega)
  have hy1 : (civilFromDays ((unix + off) / 86400)).1 ≤ 9999 := hb.2 (by omega)
  have hyear : (((civilFromDays ((unix + off) / 86400)).1.toNat : Nat) : Int) =
      (civilFromDays ((unix + off) / 86400)).1 := Int.toNat_of_nonneg hy0
  have hoff : (stampAt unix off).offset = off := by
    simp only [stampAt, Stamp.offset, quoTrunc, decide_eq_true_eq]
    split_ifs <;> omega
  refine ⟨?_, hoff, ?_⟩
  · simp only [Stamp.Valid, stampAt, quoTrunc]
    rw [hyear]
    refine ⟨by omega, c1, c2, c3, c4, by omega, by omega, by omega, ?_, ?_⟩
    · split_ifs <;> omega
    · split_ifs <;> omega
  · simp only [Stamp.instant, hoff]
    simp only [stampAt]
    rw [hyear, c5]
    omega

theorem appendInt_nat (n w : Nat) (hw : 1 ≤ w) (h : n < 10 ^ w) :
    appendInt (n : Int) w = fmtDigits w n := by
  rw [appendInt_of_fits (n : Int) w hw (Int.natCast_nonneg n) (by exact_mod_cast h)]
  simp

theorem timeFormat_text (rt : Runtime) (t : GoTime) (off : Int)
    (hoff : zoneOffset rt t.loc (t.nanos / 1000000000) = off)
    (hlo : -719528 * 86400 ≤ t.nanos / 1000000000 + off)
    (hhi : t.nanos / 1000000000 + off < yearLimit)
    (habs : -86400 < off ∧ off < 86400) :
    timeFormat rt t = (stampAt (t.nanos / 1000000000) off).text := by
  generalize hu : t.nanos / 1000000000 = unix at hoff hlo hhi
  obtain ⟨c1, c2, c3, c4, c5⟩ := civilFromDays_spec ((unix + off) / 86400)
  have hb := civilFromDays_year_bounds ((unix + off) / 86400)
  unfold yearLimit at hhi
  have hy0 : 0 ≤ (civilFromDays ((unix + off) / 86400)).1 := hb.1 (by omega)
  have hy1 : (civilFromDays ((unix + off) / 86400)).1 ≤ 9999 := hb.2 (by omega)
  have hdim : daysIn (civilFromDays ((unix + off) / 86400)).2.1
      (civilFromDays ((unix + off) / 86400)).1 ≤ 31 := by
    unfold daysIn
    split_ifs <;> omega
  have hz : (quoTrunc off 60).natAbs < 1440 := by
    unfold quoTrunc
    split_ifs <;> omega
  unfold timeFormat Stamp.text stampAt
  simp only [hu, hoff]
  rw [appendInt_of_fits _ 4 (by norm_num) hy0 (by omega),
    appendInt_nat _ 2 (by norm_num) (by omega),
    appendInt_nat _ 2 (by norm_num) (by omega),
    appendInt_of_fits ((unix + off) % 86400 / 3600) 2 (by norm_num) (by omega) (by omega),
    appendInt_of_fits ((unix + off) % 86400 % 3600 / 60) 2 (by norm_num) (by omega) (by omega),
    appendInt_of_fits ((unix + off) % 86400 % 60) 2 (by norm_num) (by omega) (by omega),
    appendInt_nat _ 2 (by norm_num) (by omega),
    appendInt_nat _ 2 (by norm_num) (by omega)]
  simp only [decide_eq_true_eq]

/-! ## The end of an event -/

theorem eventLoop_all_ok (body : FrabEvent → Except Fatal HackerTrackerEvent)
    (es : List FrabEvent) (h : ∀ e ∈ es, ∃ o, body e = .ok o) :
    ∃ outs, List.Forall₂ (fun e o => body e = .ok o) es outs := by
  induction es with
  | nil => exact ⟨[], List.Forall₂.nil⟩
  | cons e es ih =>
    obtain ⟨o, ho⟩ := h e (List.mem_cons_self _ _)
    obtain ⟨outs, houts⟩ := ih (fun x hx => h x (List.mem_cons_of_mem _ hx))
    exact ⟨o :: outs, List.Forall₂.cons ho houts⟩

theorem stamp_offset_bounds (s : Stamp) (hv : s.Valid) :
    -86400 < s.offset ∧ s.offset < 86400 ∧ s.offset % 60 = 0 := by
  obtain ⟨_, _, _, _, _, _, _, _, hoh, hom⟩ := hv
  unfold Stamp.offset
  split_ifs <;> omega

theorem stamp_wall_lower (s : Stamp) : -719528 * 86400 ≤ s.instant + s.offset := by
  unfold Stamp.instant
  have := daysFromCivil_lower s.year s.month s.day
  omega

/-- The loop body does not fail on an event with a valid start and a duration
`H:MM`/`HH:MM`; the end it writes is the start plus the duration, formatted. -/
theorem makeEvent_built (rt : Runtime) (g : Globals) (frab : FrabSchedule)
    (locationMap eventMap : IdMap) (e : FrabEvent) (s : Stamp) (mins : Nat)
    (h : StartsAs e s mins) :
    ∃ o, makeEvent rt g frab locationMap eventMap e = .ok o ∧
      o.EndDate.data = timeFormat rt
        { nanos := s.instant * 1000000000 + ((mins * 60000000000 : Nat) : Int),
          loc := if rt.localOffset s.instant = s.offset then Location.localZone
                 else Location.fixedZone s.offset } := by
  obtain ⟨hv, hdate, two, hh, mm, hdur, hhh, hmm, hmins⟩ := h
  subst hmins
  unfold makeEvent
  simp only [hdate, timeParse_text rt s hv, hdur, splitOn_durationText,
    ParseDuration_durationText rt two hh mm hhh hmm]
  exact ⟨_, rfl, rfl⟩

/-- The end the loop body writes, when the zone and the year stay the same. -/
theorem makeEvent_end (rt : Runtime) (g : Globals) (frab : FrabSchedule)
    (locationMap eventMap : IdMap) (e : FrabEvent) (s : Stamp) (mins : Nat)
    (h : StartsAs e s mins) (hs : Steady rt s mins) :
    ∃ o, makeEvent rt g frab locationMap eventMap e = .ok o ∧ EndsAfter s mins o := by
  obtain ⟨o, ho, hend'⟩ := makeEvent_built rt g frab locationMap eventMap e s mins h
  obtain ⟨hv, -, -⟩ := h
  obtain ⟨hend, hzone⟩ := hs
  obtain ⟨hob1, hob2, hob3⟩ := stamp_offset_bounds s hv
  have hwall := stamp_wall_lower s
  have hnanos : (s.instant * 1000000000 + ((mins * 60000000000 : Nat) : Int)) /
      1000000000 = s.instant + 60 * mins := by
    push_cast
    omega
  have hoff : zoneOffset rt
      (if rt.localOffset s.instant = s.offset then Location.localZone
       else Location.fixedZone s.offset) (s.instant + 60 * mins) = s.offset := by
    by_cases hl : rt.localOffset s.instant = s.offset
    · rw [if_pos hl]
      exact hzone hl
    · rw [if_neg hl]
      rfl
  have hfmt := timeFormat_text rt
    { nanos := s.instant * 1000000000 + ((mins * 60000000000 : Nat) : Int),
      loc := if rt.localOffset s.instant = s.offset then Location.localZone
             else Location.fixedZone s.offset } s.offset
    (by simp only; rw [hnanos]; exact hoff)
    (by simp only; rw [hnanos]; omega)
    (by simp only; rw [hnanos]; omega)
    ⟨hob1, hob2⟩
  simp only at hfmt
  rw [hnanos] at hfmt
  obtain ⟨sv, so, si⟩ := stampAt_spec (s.instant + 60 * mins) s.offset (by omega) (by omega)
    ⟨hob1, hob2⟩ hob3
  exact ⟨o, ho, stampAt (s.instant + 60 * mins) s.offset, sv, hend'.trans hfmt, so, si⟩

/-! ## Durations with a fraction -/

set_option maxRecDepth 10000 in
/-- The duration "1.5:00" is read as one hour and a half. -/
theorem fraction_run :
    (makeEvents utcRuntime ⟨0, "now"⟩ (durationSchedule "1.5:00") [["Main"]] [] []).map
      (fun out => out.map HackerTrackerEvent.EndDate) = .ok ["2024-06-01T10:30:00+00:00"] := by
  rfl

set_option maxRecDepth 10000 in
/-- The fraction is computed in float64: the exact quotient of the duration
"0.0002777777777777777777:00" is a nanosecond short of a second, the float64
product is the whole second. -/
theorem fraction_rounding :
    2777777777777777777 * 3600000000000 / 10 ^ 22 = 999999999 ∧
    fractionNanos 2777777777777777777 22 3600000000000 = 1000000000 ∧
    (makeEvents utcRuntime ⟨0, "now"⟩ (durationSchedule "0.0002777777777777777777:00")
        [["Main"]] [] []).map
      (fun out => out.map HackerTrackerEvent.EndDate) = .ok ["2024-06-01T09:00:01+00:00"] := by
  refine ⟨by decide, by rfl, by rfl⟩

/-! # The claims -/

/-- C1 (amended): for every base id `0 ≤ base` and every sequence of visited
names whose counter stays below `2^63` (`base + number of distinct names < 2^63`),
the scan maps each visited name to `base +` the 1-based rank of its first
encounter among the distinct names and holds no other key; a name that is seen
again keeps the id it had after any earlier part of the scan; names first seen
later get strictly larger ids; and the registries of `makeLocations` and of
`makeEventTypes` are two such scans, each started from the base id. -/
theorem registry_first_encounter_rank (base : Int) (names : List String)
    (hb : 0 ≤ base) (hfit : base + (firstEncounters names).length < 2 ^ 63) :
    (∀ n ∈ names, mapGet (scan base names).ids n = base + rank names n) ∧
    (∀ n, n ∉ names → n ∉ (scan base names).ids.map Prod.fst) ∧
    (∀ p q n, names = p ++ q → n ∈ p →
      mapGet (scan base names).ids n = mapGet (scan base p).ids n) ∧
    (∀ a ∈ names, ∀ b ∈ names, rank names a < rank names b →
      mapGet (scan base names).ids a < mapGet (scan base names).ids b) ∧
    (∀ (g : Globals) (frab : FrabSchedule) (ord : List (List String)),
      (makeLocations g frab ord).1 =
        (scan g.baseID (locationNames frab.Schedule.Conference.Days ord)).ids) ∧
    (∀ (u : UnicodeTables) (g : Globals) (frab : FrabSchedule) (ord : List (List String)),
      (makeEventTypes u g frab ord).1 =
        (scan g.baseID (eventTypeNames frab.Schedule.Conference.Days ord)).ids) := by
  have key : ∀ l : List String, base + (firstEncounters l).length < 2 ^ 63 →
      ∀ n ∈ l, mapGet (scan base l).ids n = base + rank l n := by
    intro l hl n hn
    rw [scan_eq base l hb hl]
    simp only [rank]
    rw [mapGet_numberFrom base _ n ((firstEncounters_mem l n).2 hn)]
    push_cast
    rfl
  refine ⟨key names hfit, ?_, ?_, ?_, fun _ _ _ => rfl, fun _ _ _ _ => rfl⟩
  · intro n hn
    rw [scan_eq base names hb hfit]
    simp only [numberFrom_keys]
    exact fun h => hn ((firstEncounters_mem names n).1 h)
  · intro p q n hpq hn
    subst hpq
    have hp : base + (firstEncounters p).length < 2 ^ 63 := by
      have := firstEncounters_length_append p q
      omega
    rw [key (p ++ q) hfit n (List.mem_append_left q hn), key p hp n hn, rank_append p q n hn]
  · intro a ha b hb' hlt
    rw [key names hfit a ha, key names hfit b hb']
    omega

/-- A concrete run of C1: base 0 and the names A, B, A, C. -/
theorem registry_first_encounter_rank_witness :
    mapGet (scan 0 ["A", "B", "A", "C"]).ids "A" = 0 + (1 : Nat) ∧
    mapGet (scan 0 ["A", "B", "A", "C"]).ids "B" = 0 + (2 : Nat) ∧
    mapGet (scan 0 ["A", "B", "A", "C"]).ids "C" = 0 + (3 : Nat) :=
  have h := (registry_first_encounter_rank 0 ["A", "B", "A", "C"] (by decide) (by decide)).1
  ⟨h "A" (by decide), h "B" (by decide), h "C" (by decide)⟩

/-- C1 as stated fails at a base id near the top of Go's `int`: with base
`2^63 - 2` and the names A, B the counter overflows at B; A gets the id
`2^63 - 1` and B, seen later, the id `-2^63`, which is not larger.  So "newly seen
names get strictly increasing ids" does not hold for every base id `>= 0`. -/
theorem registry_overflow_counterexample :
    ¬ (∀ (base : Int) (names : List String), 0 ≤ base → base < 2 ^ 63 →
        ∀ a ∈ names, ∀ b ∈ names, rank names a < rank names b →
          mapGet (scan base names).ids a < mapGet (scan base names).ids b) ∧
    rank ["A", "B"] "A" = 1 ∧ rank ["A", "B"] "B" = 2 ∧
    mapGet (scan (2 ^ 63 - 2) ["A", "B"]).ids "A" = 2 ^ 63 - 1 ∧
    mapGet (scan (2 ^ 63 - 2) ["A", "B"]).ids "B" = -2 ^ 63 := by
  refine ⟨?_, by decide, by decide, by decide, by decide⟩
  intro h
  have h2 := h (2 ^ 63 - 2) ["A", "B"] (by decide) (by decide) "A" (by decide) "B" (by decide)
    (by decide)
  revert h2
  decide

/-- C8: the zero-id sentinel.  With base `-1`, a schedule whose rooms are visited
in the order A, B, A (two days) and whose events have the types A, B, A, the first
id given to A is `0 = base + 1`; on the next encounter A is taken for unassigned,
the counter moves on to 2, A ends up with id 2 instead of 0, and no name is mapped
to 0. -/
theorem zero_id_sentinel :
    let ev : String → FrabEvent := fun t =>
      { ID := 1, Date := "", Duration := "", Abstract := "", Room := "R", Typ := t,
        Title := "", Links := [], Persons := [] }
    let rooms : FrabSchedule :=
      ⟨⟨{ Acronym := "c", Days := [⟨[("A", []), ("B", [])]⟩, ⟨[("A", [])]⟩] }⟩⟩
    let types : FrabSchedule :=
      ⟨⟨{ Acronym := "c", Days := [⟨[("R", [ev "A", ev "B", ev "A"])]⟩] }⟩⟩
    let g : Globals := { baseID := -1, updatedAt := "" }
    let u : UnicodeTables := ⟨fun _ => false, fun _ => false, fun _ => false, id⟩
    locationNames rooms.Schedule.Conference.Days [["A", "B"], ["A"]] = ["A", "B", "A"] ∧
    eventTypeNames types.Schedule.Conference.Days [["R"]] = ["A", "B", "A"] ∧
    mapGet (scan (-1) ["A"]).ids "A" = 0 ∧
    (-1 : Int) + rank ["A", "B", "A"] "A" = 0 ∧
    (scan (-1) ["A", "B", "A"]).count = 2 ∧
    mapGet (makeLocations g rooms [["A", "B"], ["A"]]).1 "A" = 2 ∧
    mapGet (makeEventTypes u g types [["R"]]).1 "A" = 2 ∧
    (∀ p ∈ (makeLocations g rooms [["A", "B"], ["A"]]).1, p.2 ≠ 0) ∧
    (∀ p ∈ (makeEventTypes u g types [["R"]]).1, p.2 ≠ 0) := by
  decide

/-- C7 (amended): `makeSpeakers` emits exactly one record per source speaker, in
the same order and without deduplication; the record of a speaker has the id
`base + source id` whenever that sum is a value of Go's `int` (the sum wrapped
around otherwise), the public name as name, the abstract as description, and as
link the URL of the first link, or the empty string when there is none. -/
theorem makeSpeakers_one_to_one (g : Globals) (frab : FrabSchedule)
    (frabSpeakers : FrabScheduleSpeakers) :
    (makeSpeakers g frab frabSpeakers).length =
      frabSpeakers.ScheduleSpeakers.Speakers.length ∧
    List.Forall₂ (SpeakerRecordOf g)
      frabSpeakers.ScheduleSpeakers.Speakers (makeSpeakers g frab frabSpeakers) := by
  unfold makeSpeakers
  generalize frabSpeakers.ScheduleSpeakers.Speakers = l
  refine ⟨List.length_map _ _, ?_⟩
  induction l with
  | nil => exact List.Forall₂.nil
  | cons s l ih =>
    refine List.Forall₂.cons ⟨⟨fun h => wrapInt_of_fits _ h.1 h.2, rfl⟩, rfl, rfl, ?_, ?_⟩ ih
    · intro l rest h
      show (match s.Links with
        | [] => ""
        | l :: _ => l.URL) = _
      rw [h]
    · intro h
      show (match s.Links with
        | [] => ""
        | l :: _ => l.URL) = _
      rw [h]

/-- A concrete run of C7: base id 100 and three speakers, the third a
repetition of the first; the ids are 105, 106, 105. -/
theorem makeSpeakers_one_to_one_witness :
    ((makeSpeakers ⟨100, "now"⟩ sampleSchedule sampleSpeakers).length =
        sampleSpeakers.ScheduleSpeakers.Speakers.length ∧
      List.Forall₂ (SpeakerRecordOf ⟨100, "now"⟩)
        sampleSpeakers.ScheduleSpeakers.Speakers
        (makeSpeakers ⟨100, "now"⟩ sampleSchedule sampleSpeakers)) ∧
    (makeSpeakers ⟨100, "now"⟩ sampleSchedule sampleSpeakers).map
        (fun o => (o.ID, o.Name, o.Description, o.Link)) =
      [(105, "Ada", "bio", ""), (106, "Bob", "", "https://b.example"),
       (105, "Ada", "bio", "")] :=
  ⟨makeSpeakers_one_to_one ⟨100, "now"⟩ sampleSchedule sampleSpeakers, by decide⟩

/-- C7 as stated fails at a base id near the top of Go's `int`: with base
`2^63 - 1` and a speaker of source id 1 the sum overflows, and the record gets the
id `-2^63`, not `base + 1 = 2^63`.  So "id = base + source id" does not hold for
every base. -/
theorem speaker_id_overflow_counterexample :
    ¬ (∀ (g : Globals) (frab : FrabSchedule) (frabSpeakers : FrabScheduleSpeakers),
        FitsInt g.baseID → (∀ s ∈ frabSpeakers.ScheduleSpeakers.Speakers, FitsInt s.ID) →
        List.Forall₂ (fun s o => o.ID = g.baseID + s.ID)
          frabSpeakers.ScheduleSpeakers.Speakers (makeSpeakers g frab frabSpeakers)) ∧
    FitsInt (2 ^ 63 - 1) ∧ FitsInt 1 ∧
    (makeSpeakers ⟨2 ^ 63 - 1, "now"⟩ sampleSchedule
        ⟨⟨[{ ID := 1, PublicName := "Ada", Abstract := "bio", Links := [] }]⟩⟩).map
      HackerTrackerSpeaker.ID = [-2 ^ 63] ∧
    (2 ^ 63 - 1 : Int) + 1 = 2 ^ 63 := by
  refine ⟨?_, ⟨by decide, by decide⟩, ⟨by decide, by decide⟩, by decide, by decide⟩
  intro h
  have h2 := h ⟨2 ^ 63 - 1, "now"⟩ sampleSchedule
    ⟨⟨[{ ID := 1, PublicName := "Ada", Abstract := "bio", Links := [] }]⟩⟩
    ⟨by decide, by decide⟩
    (by
      intro s hs
      rw [List.mem_singleton.1 hs]
      exact ⟨by decide, by decide⟩)
  cases h2 with
  | cons h3 _ => exact absurd h3 (by decide)

/-- C4 (amended): when every visited event parses, `makeEvents` does not fail,
and the emitted records stand one for one, in order, against the visited source
events; the record of an event is the one the loop body builds from it, and it
has the id `base + source id` whenever that sum is a value of Go's `int` (the sum
wrapped around otherwise), the abstract as description, as link the URL of the
first link or the empty string when there is none, and as speakers one id per
person in source order, `base + person id` whenever that sum is a value of Go's
`int`; the speakers are the empty list when the event has no persons. -/
theorem makeEvents_record_mapping (rt : Runtime) (g : Globals) (frab : FrabSchedule)
    (ord : List (List String)) (locationMap eventMap : IdMap)
    (hall : ∀ e ∈ visitedEvents frab.Schedule.Conference.Days ord, Parses rt e) :
    ∃ out, makeEvents rt g frab ord locationMap eventMap = .ok out ∧
      List.Forall₂
        (fun e o => makeEvent rt g frab locationMap eventMap e = .ok o ∧ EventRecordOf g e o)
        (visitedEvents frab.Schedule.Conference.Days ord) out := by
  have hok : ∀ e ∈ visitedEvents frab.Schedule.Conference.Days ord,
      ∃ o, makeEvent rt g frab locationMap eventMap e = .ok o :=
    fun e he => makeEvent_parses rt g frab locationMap eventMap e (hall e he)
  obtain ⟨outs, houts⟩ := eventLoop_all_ok _ _ hok
  refine ⟨outs, ?_, houts.imp ?_⟩
  · unfold makeEvents
    exact (eventLoop_ok _ _ _ _).2 ⟨outs, houts, rfl⟩
  · intro e o h
    obtain ⟨h1, h2, h3, h4, _, _⟩ := makeEvent_fields rt g frab locationMap eventMap e o h
    refine ⟨h, ⟨fun hf => ?_, h1⟩, h2, ⟨?_, ?_⟩, ?_, ?_⟩
    · rw [h1]; exact wrapInt_of_fits _ hf.1 hf.2
    · intro l rest hl; rw [h3, hl]; rfl
    · intro hl; rw [h3, hl]; rfl
    · rw [h4, List.forall₂_map_right_iff, List.forall₂_same]
      exact fun person _ => ⟨fun hf => wrapInt_of_fits _ hf.1 hf.2, rfl⟩
    · intro hp; rw [h4, hp]; rfl

/-- A concrete run of C4: the sample schedule with base id 100; the event of
source id 7 with one person of id 5 and no link gives the record with id 107,
speakers 105 and an empty link. -/
theorem makeEvents_record_mapping_witness :
    (∃ out, makeEvents utcRuntime ⟨100, "now"⟩ sampleSchedule [["Main"]]
          [("Main", 101)] [("talk", 101)] = .ok out ∧
        List.Forall₂
          (fun e o => makeEvent utcRuntime ⟨100, "now"⟩ sampleSchedule
              [("Main", 101)] [("talk", 101)] e = .ok o ∧ EventRecordOf ⟨100, "now"⟩ e o)
          (visitedEvents sampleSchedule.Schedule.Conference.Days [["Main"]]) out) ∧
    makeEvents utcRuntime ⟨100, "now"⟩ sampleSchedule [["Main"]]
      [("Main", 101)] [("talk", 101)] = .ok [sampleEvent] ∧
    sampleEvent.ID = 107 ∧ sampleEvent.Link = "" ∧ sampleEvent.Speakers = [105] :=
  ⟨makeEvents_record_mapping utcRuntime ⟨100, "now"⟩ sampleSchedule [["Main"]]
      [("Main", 101)] [("talk", 101)]
      (by
        intro e he
        rw [List.mem_singleton.1 he]
        exact ⟨_, _, _, _, rfl, rfl, rfl⟩),
    rfl, rfl, rfl, rfl⟩

/-- C4 as stated fails at a base id near the top of Go's `int`: with base
`2^63 - 1` the event of source id 7 with a person of id 5 parses, and its record
gets the id `-9223372036854775802` and the speaker `-9223372036854775804`, not the
sums `base + 7` and `base + 5`. -/
theorem event_id_overflow_counterexample :
    ¬ (∀ (rt : Runtime) (g : Globals) (frab : FrabSchedule) (locationMap eventMap : IdMap)
        (e : FrabEvent) (o : HackerTrackerEvent), FitsInt g.baseID → FitsInt e.ID →
        makeEvent rt g frab locationMap eventMap e = .ok o → o.ID = g.baseID + e.ID) ∧
    FitsInt (2 ^ 63 - 1) ∧ FitsInt 7 ∧ FitsInt 5 ∧
    (makeEvents utcRuntime ⟨2 ^ 63 - 1, "now"⟩ sampleSchedule [["Main"]] [] []).map
        (fun out => out.map (fun o => (o.ID, o.Speakers))) =
      .ok [(-9223372036854775802, [-9223372036854775804])] ∧
    (2 ^ 63 - 1 : Int) + 7 = 9223372036854775814 ∧
    (2 ^ 63 - 1 : Int) + 5 = 9223372036854775812 := by
  refine ⟨?_, ⟨by decide, by decide⟩, ⟨by decide, by decide⟩, ⟨by decide, by decide⟩,
    by rfl, by decide, by decide⟩
  intro h
  have h2 := h utcRuntime ⟨2 ^ 63 - 1, "now"⟩ sampleSchedule [] []
    { ID := 7, Date := "2024-06-01T09:00:00+00:00", Duration := "0:45", Abstract := "about",
      Room := "Main", Typ := "talk", Title := "Opening", Links := [], Persons := [⟨5⟩] }
    { StartDate := "2024-06-01T09:00:00+00:00", ID := -9223372036854775802,
      Description := "about", Location := 0, EndDate := "2024-06-01T09:45:00+00:00",
      Conference := "tc", EventType := 0, Title := "Opening", UpdatedAt := "now", Link := "",
      Speakers := [-9223372036854775804] }
    ⟨by decide, by decide⟩ ⟨by decide, by decide⟩ (by rfl)
  exact absurd h2 (by decide)

/-- C10: when `makeEvents` succeeds on a schedule whose rooms are visited in any
order, it emits exactly one record per source event (as many records as the
schedule has events); the records are the blocks of the days in source order,
the block of a day is made of one block per room of the day (the rooms in the
order visited, a permutation of the day's rooms), and the block of a room holds
the records built from the room's events, one for one in source order. -/
theorem makeEvents_order_complete (rt : Runtime) (g : Globals) (frab : FrabSchedule)
    (ord : List (List String)) (locationMap eventMap : IdMap) (out : List HackerTrackerEvent)
    (hwf : WellFormed frab.Schedule.Conference.Days)
    (hord : ValidOrder frab.Schedule.Conference.Days ord)
    (hok : makeEvents rt g frab ord locationMap eventMap = .ok out) :
    out.length = eventCount frab.Schedule.Conference.Days ∧
    InSourceOrder
      (fun e o => makeEvent rt g frab locationMap eventMap e = .ok o ∧
        o.ID = goAdd g.baseID e.ID ∧ o.Title = e.Title ∧ o.StartDate = e.Date)
      frab.Schedule.Conference.Days out := by
  unfold makeEvents at hok
  obtain ⟨outs, hall, rfl⟩ := (eventLoop_ok _ _ _ _).1 hok
  constructor
  · rw [← hall.length_eq, visitedEvents_length _ _ hwf hord]
    rfl
  · refine visitedEvents_blocks _ _ _ hwf hord _ (hall.imp ?_)
    intro e o h
    refine ⟨h, (makeEvent_fields rt g frab locationMap eventMap e o h).1, ?_, ?_⟩
    · unfold makeEvent at h
      split at h
      · cases h
      · split at h
        · split at h
          · cases h
          · simp only [Except.ok.injEq] at h
            subst h; rfl
        · cases h
    · unfold makeEvent at h
      split at h
      · cases h
      · split at h
        · split at h
          · cases h
          · simp only [Except.ok.injEq] at h
            subst h; rfl
        · cases h

/-- A concrete run of C10: the sample schedule. -/
theorem makeEvents_order_complete_witness :
    [sampleEvent].length = eventCount sampleSchedule.Schedule.Conference.Days ∧
    InSourceOrder
      (fun e o => makeEvent utcRuntime ⟨100, "now"⟩ sampleSchedule
          (makeLocations ⟨100, "now"⟩ sampleSchedule [["Main"]]).1
          (makeEventTypes asciiTables ⟨100, "now"⟩ sampleSchedule [["Main"]]).1 e = .ok o ∧
        o.ID = goAdd 100 e.ID ∧ o.Title = e.Title ∧ o.StartDate = e.Date)
      sampleSchedule.Schedule.Conference.Days [sampleEvent] :=
  makeEvents_order_complete utcRuntime ⟨100, "now"⟩ sampleSchedule [["Main"]] _ _ _
    sample_wellFormed sample_validOrder sample_pipeline

/-- C5: when some event of the schedule has a duration that does not split on
`:` into exactly two parts (the number of parts is one more than the number of
colons), `makeEvents` ends in `log.Fatal` and emits no events, whatever the other
events are and in whatever order the rooms are visited. -/
theorem makeEvents_fails_on_part_count (rt : Runtime) (g : Globals) (frab : FrabSchedule)
    (ord : List (List String)) (locationMap eventMap : IdMap)
    (hwf : WellFormed frab.Schedule.Conference.Days)
    (hord : ValidOrder frab.Schedule.Conference.Days ord)
    (day : FrabDay) (hday : day ∈ frab.Schedule.Conference.Days)
    (room : String) (evs : List FrabEvent) (hroom : (room, evs) ∈ day.Rooms)
    (e : FrabEvent) (he : e ∈ evs)
    (hparts : (splitOn ':' e.Duration.data).length ≠ 2) :
    (∃ err, makeEvents rt g frab ord locationMap eventMap = .error err) ∧
    (splitOn ':' e.Duration.data).length = e.Duration.data.count ':' + 1 := by
  refine ⟨?_, splitOn_length _ _⟩
  obtain ⟨err, herr⟩ := makeEvent_badParts rt g frab locationMap eventMap e hparts
  have hmem : e ∈ visitedEvents frab.Schedule.Conference.Days ord :=
    (mem_visitedEvents _ _ hwf hord e).2 ⟨day, hday, (room, evs), hroom, he⟩
  exact eventLoop_error _ _ _ e hmem err herr

/-- A concrete run of C5: after a good event, one with the duration "1:2:3". -/
theorem makeEvents_fails_on_part_count_witness :
    (∃ err, makeEvents utcRuntime ⟨0, "now"⟩ badPartsSchedule [["Main"]] [] [] = .error err) ∧
    (splitOn ':' "1:2:3".data).length = "1:2:3".data.count ':' + 1 :=
  makeEvents_fails_on_part_count utcRuntime ⟨0, "now"⟩ badPartsSchedule [["Main"]] [] []
    (by
      intro day hday
      have : day = ⟨[("Main", _)]⟩ := List.mem_singleton.1 hday
      subst this
      decide)
    ⟨List.Perm.refl _, trivial⟩
    _ (List.mem_singleton.2 rfl) "Main" _ (List.mem_singleton.2 rfl)
    { ID := 8, Date := "2024-06-01T10:00:00+00:00", Duration := "1:2:3", Abstract := "",
      Room := "Main", Typ := "talk", Title := "Second", Links := [], Persons := [] }
    (by decide) (by decide)

/-- C9: for a base id `0 ≤ base` (a Go `int`) and a schedule whose events all
parse, whatever the orders in which the three builders visit the rooms of a day,
the event type of every emitted event is the non-zero id registered for the
event's type tag, and exactly one emitted event-type record has that id, the one
built from that tag; and when the event's own room field names a room of the
schedule (as it does when it is the room the event is listed under), its
location is the id of exactly one emitted location record, the one whose name
is that room.  The numbers of visited events and rooms are below `2^63`, as the
length of every Go slice is. -/
theorem cross_reference_integrity (rt : Runtime) (u : UnicodeTables) (g : Globals)
    (frab : FrabSchedule) (ordT ordL ordE : List (List String)) (out : List HackerTrackerEvent)
    (hwf : WellFormed frab.Schedule.Conference.Days)
    (hT : ValidOrder frab.Schedule.Conference.Days ordT)
    (hL : ValidOrder frab.Schedule.Conference.Days ordL)
    (hE : ValidOrder frab.Schedule.Conference.Days ordE)
    (hb : 0 ≤ g.baseID) (hint : g.baseID < 2 ^ 63)
    (hnT : ((eventTypeNames frab.Schedule.Conference.Days ordT).length : Int) < 2 ^ 63)
    (hnL : ((locationNames frab.Schedule.Conference.Days ordL).length : Int) < 2 ^ 63)
    (hok : makeEvents rt g frab ordE (makeLocations g frab ordL).1
      (makeEventTypes u g frab ordT).1 = .ok out) :
    List.Forall₂
      (fun (e : FrabEvent) (o : HackerTrackerEvent) =>
        TypeResolved u g frab (makeEventTypes u g frab ordT).1
          (makeEventTypes u g frab ordT).2 e o ∧
        ((∃ day ∈ frab.Schedule.Conference.Days, e.Room ∈ roomNames day) →
          LocationResolved g frab (makeLocations g frab ordL).1
            (makeLocations g frab ordL).2 e o))
      (visitedEvents frab.Schedule.Conference.Days ordE) out := by
  unfold makeEvents at hok
  obtain ⟨outs, hall, rfl⟩ := (eventLoop_ok _ _ _ _).1 hok
  refine (forall₂_mem_left _ _ _ hall).imp ?_
  rintro e o ⟨hmem, hbuilt⟩
  obtain ⟨_, _, _, _, hloc, htyp⟩ := makeEvent_fields rt g frab _ _ e o hbuilt
  obtain ⟨day, hday, p, hp, he⟩ := (mem_visitedEvents _ _ hwf hE e).1 hmem
  have hTmap : (makeEventTypes u g frab ordT).1 =
      numberWrapped g.baseID
        (firstEncounters (eventTypeNames frab.Schedule.Conference.Days ordT)) :=
    scan_wrapped g.baseID _ hb hint hnT
  have hLmap : (makeLocations g frab ordL).1 =
      numberWrapped g.baseID
        (firstEncounters (locationNames frab.Schedule.Conference.Days ordL)) :=
    scan_wrapped g.baseID _ hb hint hnL
  have hleT := firstEncounters_length_le (eventTypeNames frab.Schedule.Conference.Days ordT)
  have hleL := firstEncounters_length_le (locationNames frab.Schedule.Conference.Days ordL)
  constructor
  · have hkey : e.Typ ∈ ((makeEventTypes u g frab ordT).1).map Prod.fst := by
      rw [hTmap, numberWrapped_keys, firstEncounters_mem]
      exact mem_eventTypeNames _ _ hwf hT e day hday p hp he
    have hvals : (((makeEventTypes u g frab ordT).1).map Prod.snd).Nodup := by
      rw [hTmap]
      exact numberWrapped_values_nodup _ _ (by omega)
    have hnz : ∀ q ∈ (makeEventTypes u g frab ordT).1, q.2 ≠ 0 := by
      rw [hTmap]
      exact numberWrapped_values_ne_zero _ _ hb (by omega)
    refine ⟨htyp, ?_, ?_⟩
    · rw [htyp]
      exact hnz _ (mem_of_key _ _ hkey)
    · intro types hperm
      rw [htyp]
      exact filter_records (makeEventTypes u g frab ordT).1
        (fun p => ({ Name := Title u (Replace p.1 '_' " " 0),
                     Conference := frab.Schedule.Conference.Acronym,
                     ID := p.2, UpdatedAt := g.updatedAt } : HackerTrackerEventType))
        HackerTrackerEventType.ID (fun _ => rfl) e.Typ hkey hvals types hperm
  · rintro ⟨day', hday', hroom⟩
    have hkey : e.Room ∈ ((makeLocations g frab ordL).1).map Prod.fst := by
      rw [hLmap, numberWrapped_keys, firstEncounters_mem]
      exact mem_locationNames _ _ hL day' hday' e.Room hroom
    have hvals : (((makeLocations g frab ordL).1).map Prod.snd).Nodup := by
      rw [hLmap]
      exact numberWrapped_values_nodup _ _ (by omega)
    have hnz : ∀ q ∈ (makeLocations g frab ordL).1, q.2 ≠ 0 := by
      rw [hLmap]
      exact numberWrapped_values_ne_zero _ _ hb (by omega)
    refine ⟨hloc, ?_, ?_⟩
    · rw [hloc]
      exact hnz _ (mem_of_key _ _ hkey)
    · intro locs hperm
      rw [hloc]
      exact filter_records (makeLocations g frab ordL).1
        (fun p => ({ Name := p.1, ID := p.2, UpdatedAt := g.updatedAt,
                     Conference := frab.Schedule.Conference.Acronym } : HackerTrackerLocation))
        HackerTrackerLocation.ID (fun _ => rfl) e.Room hkey hvals locs hperm

/-- The end-to-end scenario of C9: base 100, one room "Main", one event of type
"talk"; the event has location 101 and event type 101. -/
theorem cross_reference_integrity_witness :
    List.Forall₂
      (fun (e : FrabEvent) (o : HackerTrackerEvent) =>
        TypeResolved asciiTables ⟨100, "now"⟩ sampleSchedule
          (makeEventTypes asciiTables ⟨100, "now"⟩ sampleSchedule [["Main"]]).1
          (makeEventTypes asciiTables ⟨100, "now"⟩ sampleSchedule [["Main"]]).2 e o ∧
        ((∃ day ∈ sampleSchedule.Schedule.Conference.Days, e.Room ∈ roomNames day) →
          LocationResolved ⟨100, "now"⟩ sampleSchedule
            (makeLocations ⟨100, "now"⟩ sampleSchedule [["Main"]]).1
            (makeLocations ⟨100, "now"⟩ sampleSchedule [["Main"]]).2 e o))
      (visitedEvents sampleSchedule.Schedule.Conference.Days [["Main"]]) [sampleEvent] ∧
    sampleEvent.Location = 101 ∧ sampleEvent.EventType = 101 :=
  ⟨cross_reference_integrity utcRuntime asciiTables ⟨100, "now"⟩ sampleSchedule
    [["Main"]] [["Main"]] [["Main"]] [sampleEvent] sample_wellFormed sample_validOrder
    sample_validOrder sample_validOrder (by decide) (by decide) (by decide) (by decide)
    sample_pipeline, rfl, rfl⟩

/-- C6 (amended): when some event of the schedule has a duration that splits on
`:` into exactly two parts of which at least one (the first read after one
optional leading sign) is not a duration number, `makeEvents` ends in `log.Fatal`.
A duration number is a decimal number (digits with at most one period among them
and at least one digit) that complete groups of a Go duration may precede, each a
decimal number followed by a unit name (ns, us, µs, ms, s, m, h).  Conversely, when
both parts are duration numbers that hold at most five digits in all, the start
of the event parses and the fraction is computed in float64 as Go does, the loop
body does not fail on the event. -/
theorem makeEvents_fails_on_bad_part (rt : Runtime) (g : Globals) (frab : FrabSchedule)
    (ord : List (List String)) (locationMap eventMap : IdMap)
    (hwf : WellFormed frab.Schedule.Conference.Days)
    (hord : ValidOrder frab.Schedule.Conference.Days ord)
    (day : FrabDay) (hday : day ∈ frab.Schedule.Conference.Days)
    (room : String) (evs : List FrabEvent) (hroom : (room, evs) ∈ day.Rooms)
    (e : FrabEvent) (he : e ∈ evs) (p0 p1 : List Char)
    (hsplit : splitOn ':' e.Duration.data = [p0, p1]) :
    ((¬ IsDurationNumber (stripSign p0) ∨ ¬ IsDurationNumber p1) →
      ∃ err, makeEvents rt g frab ord locationMap eventMap = .error err) ∧
    (IsDurationNumber (stripSign p0) → IsDurationNumber p1 →
      p0.countP isDigit + p1.countP isDigit ≤ 5 → rt.fracNanos = fractionNanos →
      (∃ startTime, timeParse rt e.Date.data = some startTime) →
      ∃ o, makeEvent rt g frab locationMap eventMap e = .ok o) := by
  constructor
  · intro hbad
    obtain ⟨err, herr⟩ := makeEvent_bad_number rt g frab locationMap eventMap e p0 p1 hsplit hbad
    have hmem : e ∈ visitedEvents frab.Schedule.Conference.Days ord :=
      (mem_visitedEvents _ _ hwf hord e).2 ⟨day, hday, (room, evs), hroom, he⟩
    exact eventLoop_error _ _ _ e hmem err herr
  · intro h0 h1 hdig hrt ⟨startTime, hstart⟩
    obtain ⟨d, hd⟩ := ParseDuration_numbers rt hrt p0 p1 h0 h1 hdig
    exact makeEvent_parses rt g frab locationMap eventMap e ⟨startTime, p0, p1, d, hstart, hsplit, hd⟩

/-- Two concrete runs of C6: the duration "1m:30", whose first part ends in a
unit, makes the run fail; the duration "1h2:03", whose first part is the group
"1h" and the number "2", does not make the loop body fail. -/
theorem makeEvents_fails_on_bad_part_witness :
    (∃ err, makeEvents utcRuntime ⟨0, "now"⟩ (durationSchedule "1m:30") [["Main"]] [] [] =
      .error err) ∧
    (∃ o, makeEvent utcRuntime ⟨0, "now"⟩ (durationSchedule "1h2:03") [] []
      { ID := 7, Date := "2024-06-01T09:00:00+00:00", Duration := "1h2:03", Abstract := "about",
        Room := "Main", Typ := "talk", Title := "Opening", Links := [], Persons := [⟨5⟩] } =
      .ok o) :=
  ⟨(makeEvents_fails_on_bad_part utcRuntime ⟨0, "now"⟩ (durationSchedule "1m:30") [["Main"]] [] []
      (by
        intro day hday
        have : day = ⟨[("Main", _)]⟩ := List.mem_singleton.1 hday
        subst this
        decide)
      ⟨List.Perm.refl _, trivial⟩
      _ (List.mem_singleton.2 rfl) "Main" _ (List.mem_singleton.2 rfl)
      _ (List.mem_singleton.2 rfl) ['1', 'm'] ['3', '0'] (by decide)).1
      (Or.inl (by rw [← durationNumber_iff]; decide)),
    (makeEvents_fails_on_bad_part utcRuntime ⟨0, "now"⟩ (durationSchedule "1h2:03") [["Main"]] [] []
      (by
        intro day hday
        have : day = ⟨[("Main", _)]⟩ := List.mem_singleton.1 hday
        subst this
        decide)
      ⟨List.Perm.refl _, trivial⟩
      _ (List.mem_singleton.2 rfl) "Main" _ (List.mem_singleton.2 rfl)
      _ (List.mem_singleton.2 rfl) ['1', 'h', '2'] ['0', '3'] (by decide)).2
      (by rw [← durationNumber_iff]; decide) (by rw [← durationNumber_iff]; decide)
      (by decide) rfl ⟨_, rfl⟩⟩

/-- C6 as stated fails: the durations "1h2:03" and "1.5:00" split into exactly two
parts, the first of which is no integer in decimal digits, and the builder does
not fail; it reads them as 1h + 2h + 3m and as 1.5h. -/
theorem duration_part_counterexample :
    splitOn ':' "1h2:03".data = ["1h2".data, "03".data] ∧ ¬ IsDecimal "1h2".data ∧
    (∀ rt : Runtime, ∃ out,
      makeEvents rt ⟨0, "now"⟩ (durationSchedule "1h2:03") [["Main"]] [] [] = .ok out) ∧
    (makeEvents utcRuntime ⟨0, "now"⟩ (durationSchedule "1h2:03") [["Main"]] [] []).map
      (fun out => out.map HackerTrackerEvent.EndDate) = .ok ["2024-06-01T12:03:00+00:00"] ∧
    splitOn ':' "1.5:00".data = ["1.5".data, "00".data] ∧ ¬ IsDecimal "1.5".data ∧
    (makeEvents utcRuntime ⟨0, "now"⟩ (durationSchedule "1.5:00") [["Main"]] [] []).map
      (fun out => out.map HackerTrackerEvent.EndDate) = .ok ["2024-06-01T10:30:00+00:00"] := by
  refine ⟨by decide, ?_, fun rt => ⟨_, rfl⟩, by rfl, by decide, ?_, fraction_run⟩
  · intro h
    exact absurd (h.2 'h' (by decide)) (by decide)
  · intro h
    exact absurd (h.2 '.' (by decide)) (by decide)

/-- C3 (amended): when every visited event starts at a valid timestamp
`YYYY-MM-DDThh:mm:ss±hh:mm` and has a duration `H:MM` or `HH:MM` in decimal
digits, `makeEvents` does not fail; and the end of the record of each event is a
valid timestamp in the same format, with the same UTC offset, that denotes the
instant start + (60*H + MM) minutes, provided the end falls before the year 10000
and the local time zone of the process, if it has the offset of the start at the
start, still has it at the end (`Steady`). -/
theorem makeEvents_end_time (rt : Runtime) (g : Globals) (frab : FrabSchedule)
    (ord : List (List String)) (locationMap eventMap : IdMap)
    (hall : ∀ e ∈ visitedEvents frab.Schedule.Conference.Days ord,
      ∃ s mins, StartsAs e s mins) :
    ∃ out, makeEvents rt g frab ord locationMap eventMap = .ok out ∧
      List.Forall₂
        (fun e o => ∀ s mins, StartsAs e s mins → Steady rt s mins → EndsAfter s mins o)
        (visitedEvents frab.Schedule.Conference.Days ord) out := by
  have hok : ∀ e ∈ visitedEvents frab.Schedule.Conference.Days ord,
      ∃ o, makeEvent rt g frab locationMap eventMap e = .ok o := by
    intro e he
    obtain ⟨s, mins, ht⟩ := hall e he
    obtain ⟨o, ho, _⟩ := makeEvent_built rt g frab locationMap eventMap e s mins ht
    exact ⟨o, ho⟩
  obtain ⟨outs, houts⟩ := eventLoop_all_ok _ _ hok
  refine ⟨outs, ?_, houts.imp ?_⟩
  · unfold makeEvents
    exact (eventLoop_ok _ _ _ _).2 ⟨outs, houts, rfl⟩
  · intro e o hbuilt s mins ht hs
    obtain ⟨o', ho', hends⟩ := makeEvent_end rt g frab locationMap eventMap e s mins ht hs
    rw [hbuilt, Except.ok.injEq] at ho'
    rw [ho']
    exact hends

/-- A concrete run of C3: the sample schedule, whose event starts at
2024-06-01T09:00:00+00:00 and lasts 0:45, in a process whose local zone is UTC;
the end is 2024-06-01T09:45:00+00:00. -/
theorem makeEvents_end_time_witness :
    (∃ out, makeEvents utcRuntime ⟨100, "now"⟩ sampleSchedule [["Main"]] [] [] = .ok out ∧
      List.Forall₂
        (fun e o => ∀ s mins, StartsAs e s mins → Steady utcRuntime s mins →
          EndsAfter s mins o)
        (visitedEvents sampleSchedule.Schedule.Conference.Days [["Main"]]) out) ∧
    Steady utcRuntime ⟨2024, 6, 1, 9, 0, 0, false, 0, 0⟩ 45 ∧
    (makeEvents utcRuntime ⟨100, "now"⟩ sampleSchedule [["Main"]] [] []).map
      (fun out => out.map HackerTrackerEvent.EndDate) = .ok ["2024-06-01T09:45:00+00:00"] :=
  ⟨makeEvents_end_time utcRuntime ⟨100, "now"⟩ sampleSchedule [["Main"]] [] []
    (by
      intro e he
      have he' : e =
          { ID := 7, Date := "2024-06-01T09:00:00+00:00", Duration := "0:45",
            Abstract := "about", Room := "Main", Typ := "talk", Title := "Opening",
            Links := [], Persons := [⟨5⟩] } := List.mem_singleton.1 he
      subst he'
      refine ⟨⟨2024, 6, 1, 9, 0, 0, false, 0, 0⟩, 45, ?_, by decide, ⟨false, 0, 45, ?_⟩⟩
      · unfold Stamp.Valid; decide
      · exact ⟨by decide, by decide, by decide, by decide⟩),
    ⟨by decide, fun _ => rfl⟩, by rfl⟩

/-- C3 as stated fails.  In a process whose local zone is America/New_York, the
event that starts at 2024-03-10T01:30:00-05:00 and lasts 1:00 gets the end
2024-03-10T03:30:00-04:00: the right instant, but not the UTC offset of the start
(`time.Parse` puts a time whose offset is the local one into the local zone, and
the zone changes to daylight time in between).  And the event that starts at
9999-12-31T23:30:00+00:00 and lasts 1:00 gets the end 10000-01-01T00:30:00+00:00,
which is not in the format `YYYY-MM-DDThh:mm:ss±hh:mm`. -/
theorem end_offset_counterexample :
    (makeEvents newYorkRuntime ⟨0, "now"⟩
        (timedSchedule "2024-03-10T01:30:00-05:00" "1:00") [["Main"]] [] []).map
      (fun out => out.map HackerTrackerEvent.EndDate) = .ok ["2024-03-10T03:30:00-04:00"] ∧
    timeParse utcRuntime "2024-03-10T01:30:00-05:00".data =
      some ⟨1710052200 * 1000000000, .fixedZone (-18000)⟩ ∧
    timeParse utcRuntime "2024-03-10T03:30:00-04:00".data =
      some ⟨(1710052200 + 3600) * 1000000000, .fixedZone (-14400)⟩ ∧
    (makeEvents utcRuntime ⟨0, "now"⟩
        (timedSchedule "9999-12-31T23:30:00+00:00" "1:00") [["Main"]] [] []).map
      (fun out => out.map HackerTrackerEvent.EndDate) = .ok ["10000-01-01T00:30:00+00:00"] ∧
    timeParse utcRuntime "10000-01-01T00:30:00+00:00".data = none := by
  refine ⟨by rfl, by rfl, by rfl, by rfl, by rfl⟩

/-- C2: the code does not replace the underscores.  `strings.Replace` is called
with the count 0, which replaces nothing, so the name of an emitted event type is
the title-cased source name with its underscores: "lightning_talk" is emitted as
"Lightning_talk", not as "Lightning Talk" ("talk" is emitted as "Talk").  With the
count -1 the call would give the name the claim states. -/
theorem eventType_name_keeps_underscore :
    (∀ name : String, Replace name '_' " " 0 = name) ∧
    (makeEventTypes asciiTables ⟨0, "now"⟩ typesSchedule [["Main"]]).2.map
      HackerTrackerEventType.Name = ["Lightning_talk", "Talk"] ∧
    Title asciiTables (Replace "lightning_talk" '_' " " (-1)) = "Lightning Talk" := by
  refine ⟨fun name => ?_, by decide, by decide⟩
  simp [Replace]

end Frab2HackerTracker
